import Mathlib

/-!
# cardinalhq-otel-collector: tag identity hashing and the interval/scope disk buffer

A shallow embedding of

* `pkg/translate/tid.go` (`CalculateTID`, `addKeys`, `calculateTID`),
* `internal/boxer/filesystem_buffer.go` (`FilesystemBuffer` and its methods),
* `processor/chqstatsprocessor/metrics.go` (`computeStatsOnField`, `recordDatapoint`,
  `sendMetricStats`),
* `pkg/ottl/aggregation.go` (`AggregationImpl.Add`),
* `extension/chqauthextension/serverauth.go` (`getcache`, `authenticateAPIKey`),
* `processor/extractmetricsprocessor/processor.go` (`configUpdateCallback`),
* `receiver/chqdatadogreceiver/logs.go` (`splitTags`, `splitTagSlice`),
* `processor/chqdecoratorprocessor/internal/spantagger/jsontree.go` (`makeTree`),

followed by theorems about them.

Conventions of the embedding.

* A Go `map[K]V` is an association list `List (K × V)`; the order of the list stands for the
  (unspecified) order in which `range` visits the map.  `GoMap.get`, `GoMap.set` and
  `GoMap.delete` are the three map operations; they treat the list as a function of the key
  (lookup finds the first binding, `set` overwrites it, `delete` removes every binding).
* A Go `string` is a Lean `String`; `int64` and `uint64` values are `Int` and `Nat`
  with explicit wrap-around.
* A run-time panic is the result `none` of a function returning `Option`.
-/

/-! ## Go maps -/

namespace GoMap

/-- The Go expression `v, ok := m[k]`. -/
def get {κ ν : Type} [DecidableEq κ] (m : List (κ × ν)) (k : κ) : Option ν :=
  match m with
  | [] => none
  | (k', v) :: rest => if k' = k then some v else get rest k

/-- The Go statement `m[k] = v`. -/
def set {κ ν : Type} [DecidableEq κ] (m : List (κ × ν)) (k : κ) (v : ν) : List (κ × ν) :=
  match m with
  | [] => [(k, v)]
  | (k', v') :: rest => if k' = k then (k, v) :: rest else (k', v') :: set rest k v

/-- The Go statement `delete(m, k)`. -/
def delete {κ ν : Type} [DecidableEq κ] (m : List (κ × ν)) (k : κ) : List (κ × ν) :=
  m.filter (fun p => decide (p.1 ≠ k))

/-- The keys of the map, in `range` order. -/
def keys {κ ν : Type} (m : List (κ × ν)) : List κ := m.map Prod.fst

end GoMap

/-! ## xxhash (github.com/cespare/xxhash/v2), 64-bit, seed 0 -/

namespace xxhash

def prime1 : Nat := 11400714785074694791
def prime2 : Nat := 14029467366897019727
def prime3 : Nat := 1609587929392839161
def prime4 : Nat := 9650029242287828579
def prime5 : Nat := 2870177450012600261

/-- Truncation to `uint64`. -/
def u64 (x : Nat) : Nat := x % 2 ^ 64

/-- Left rotation of a `uint64` (`bits.RotateLeft64`). -/
def rol (x r : Nat) : Nat := u64 (x <<< r) ||| (x >>> (64 - r))

/-- Little-endian read of the first `n` bytes. -/
def readLE (bs : List Nat) (n : Nat) : Nat :=
  match n, bs with
  | 0, _ => 0
  | _ + 1, [] => 0
  | n + 1, b :: rest => b + 256 * readLE rest n

def round (acc input : Nat) : Nat :=
  u64 (rol (u64 (acc + input * prime2)) 31 * prime1)

def mergeRound (acc val : Nat) : Nat :=
  u64 ((acc ^^^ round 0 val) * prime1 + prime4)

/-- The main loop over whole 32-byte stripes; returns the four lanes and the unread tail. -/
def stripes (fuel : Nat) (v1 v2 v3 v4 : Nat) (bs : List Nat) : Nat × Nat × Nat × Nat × List Nat :=
  match fuel with
  | 0 => (v1, v2, v3, v4, bs)
  | fuel + 1 =>
    if 32 ≤ bs.length then
      stripes fuel (round v1 (readLE bs 8)) (round v2 (readLE (bs.drop 8) 8))
        (round v3 (readLE (bs.drop 16) 8)) (round v4 (readLE (bs.drop 24) 8)) (bs.drop 32)
    else (v1, v2, v3, v4, bs)

/-- The loop over the remaining 8-byte words. -/
def tail8 (fuel : Nat) (h : Nat) (bs : List Nat) : Nat × List Nat :=
  match fuel with
  | 0 => (h, bs)
  | fuel + 1 =>
    if 8 ≤ bs.length then
      tail8 fuel (u64 (rol (h ^^^ round 0 (readLE bs 8)) 27 * prime1 + prime4)) (bs.drop 8)
    else (h, bs)

/-- The final loop over single bytes. -/
def tail1 (h : Nat) (bs : List Nat) : Nat :=
  match bs with
  | [] => h
  | b :: rest => tail1 (u64 (rol (h ^^^ u64 (b * prime5)) 11 * prime1)) rest

def avalanche (h : Nat) : Nat :=
  let h := h ^^^ (h >>> 33)
  let h := u64 (h * prime2)
  let h := h ^^^ (h >>> 29)
  let h := u64 (h * prime3)
  h ^^^ (h >>> 32)

/-- The function `xxhash.Sum64` on a byte slice. -/
def Sum64 (b : List Nat) : Nat :=
  let n := b.length
  let (h, rest) :=
    if 32 ≤ n then
      let (v1, v2, v3, v4, rest) :=
        stripes n (u64 (prime1 + prime2)) prime2 0 (u64 (2 ^ 64 - prime1)) b
      let h := u64 (rol v1 1 + rol v2 7 + rol v3 12 + rol v4 18)
      let h := mergeRound h v1
      let h := mergeRound h v2
      let h := mergeRound h v3
      let h := mergeRound h v4
      (h, rest)
    else (prime5, b)
  let h := u64 (h + n)
  let (h, rest) := tail8 n h rest
  let (h, rest) :=
    if 4 ≤ rest.length then
      (u64 (rol (h ^^^ u64 (readLE rest 4 * prime1)) 23 * prime2 + prime3), rest.drop 4)
    else (h, rest)
  avalanche (tail1 h rest)

/-- The UTF-8 bytes of one character. -/
def utf8 (c : Char) : List Nat :=
  let n := c.toNat
  if n < 128 then [n]
  else if n < 2048 then [192 + n / 64, 128 + n % 64]
  else if n < 65536 then [224 + n / 4096, 128 + n / 64 % 64, 128 + n % 64]
  else [240 + n / 262144, 128 + n / 4096 % 64, 128 + n / 64 % 64, 128 + n % 64]

/-- The bytes of a Go string. -/
def bytes (s : String) : List Nat := s.toList.flatMap utf8

/-- The function `xxhash.Sum64String`. -/
def Sum64String (s : String) : Nat := Sum64 (bytes s)

end xxhash

/-! ## pkg/translate/tid.go -/

namespace translate

/-- A `pcommon.Map`: the attributes in slice order (the order of `Range`), each value given by
its string rendering `v.AsString()`. -/
abbrev AttrMap := List (String × String)

/-- A Go `map[string]string`. -/
abbrev TagMap := List (String × String)

/-- The conversion `int64(x)` of a `uint64`. -/
def int64 (x : Nat) : Int :=
  if x % 2 ^ 64 < 2 ^ 63 then ((x % 2 ^ 64 : Nat) : Int) else ((x % 2 ^ 64 : Nat) : Int) - 2 ^ 64

/-- Go's order on strings: lexicographic on the bytes, which for UTF-8 text is the
lexicographic order on the code points. -/
def strLE (a b : String) : Prop := a.data ≤ b.data

instance strLE_decidable : DecidableRel strLE := fun a b =>
  inferInstanceAs (Decidable (a.data ≤ b.data))

instance strLE_total : IsTotal String strLE := ⟨fun a b => le_total a.data b.data⟩

instance strLE_trans : IsTrans String strLE :=
  ⟨fun a b c h1 h2 => @le_trans (List Char) _ a.data b.data c.data h1 h2⟩

instance strLE_antisymm : IsAntisymm String strLE :=
  ⟨fun _ _ h1 h2 => String.ext (le_antisymm h1 h2)⟩

/-- The function `slices.Sort` on a `[]string`. -/
def sortStrings (keys : List String) : List String :=
  keys.insertionSort strLE

/-- The function `maps.Copy(dst, src)`. -/
def mapsCopy (dst src : TagMap) : TagMap :=
  src.foldl (fun t kv => GoMap.set t kv.1 kv.2) dst

/-- The function `addKeys`; `none` is the index-out-of-range panic of `k[0]`. -/
def addKeys (attr : AttrMap) (pfx : String) (tags : TagMap) : Option TagMap :=
  match attr with
  | [] => some tags
  | (k, v) :: rest =>
    match k.data with
    | [] => none
    | c :: _ =>
      if c ≠ '_' then addKeys rest pfx (GoMap.set tags (pfx ++ "." ++ k) v)
      else addKeys rest pfx tags

/-- The Go expression `tags[k]`: the empty string for a missing key. -/
def valueOf (tags : TagMap) (k : String) : String := (GoMap.get tags k).getD ""

/-- The slice `items` that `calculateTID` builds: the keys in sorted order, each followed by
its value, keys with an empty value left out. -/
def tidItems (tags : TagMap) : List String :=
  let keys := sortStrings (GoMap.keys tags)
  keys.foldl (fun items k =>
    let v := valueOf tags k
    if v ≠ "" then items ++ [k, v] else items) []

/-- The string that `calculateTID` hashes: `strings.Join(items, ":")`. -/
def tidString (tags : TagMap) : String := ":".intercalate (tidItems tags)

/-- The function `calculateTID`. -/
def calculateTID (tags : TagMap) : Int :=
  int64 (xxhash.Sum64String (tidString tags))

/-- The function `CalculateTID`; `environment` is `none` for a nil `Environment` and otherwise
the map returned by `environment.Tags()`.  `none` as result is a panic. -/
def CalculateTID (extra : TagMap) (rattr sattr iattr : AttrMap) (pfx : String)
    (environment : Option TagMap) : Option Int :=
  let tags : TagMap := []
  let tags := mapsCopy tags extra
  match addKeys rattr "resource" tags with
  | none => none
  | some tags =>
    match addKeys sattr "scope" tags with
    | none => none
    | some tags =>
      match addKeys iattr pfx tags with
      | none => none
      | some tags =>
        let tags :=
          match environment with
          | none => tags
          | some envTags => envTags.foldl (fun t kv => GoMap.set t ("env." ++ kv.1) kv.2) tags
        some (calculateTID tags)

/-! ### The reference definition of the tag identity

The definition the specification gives in words: merge the namespaced sources, later ones
overriding earlier ones; drop the pairs with an empty value; sort the remaining keys; join
as `key1:value1:key2:value2:...`; hash.  `keep` selects the attribute keys that take part. -/

/-- The pairs of all sources in merge order, the attribute keys namespaced. -/
def specSources (keep : String → Bool) (extra : TagMap) (rattr sattr iattr : AttrMap)
    (pfx : String) (environment : Option TagMap) : List (String × String) :=
  extra
    ++ (rattr.filter (fun kv => keep kv.1)).map (fun kv => ("resource." ++ kv.1, kv.2))
    ++ (sattr.filter (fun kv => keep kv.1)).map (fun kv => ("scope." ++ kv.1, kv.2))
    ++ (iattr.filter (fun kv => keep kv.1)).map (fun kv => (pfx ++ "." ++ kv.1, kv.2))
    ++ (environment.getD []).map (fun kv => ("env." ++ kv.1, kv.2))

/-- The value of key `k` in the merged map: the one of its last occurrence in the sources
(the empty string when there is none). -/
def specValue (src : List (String × String)) (k : String) : String :=
  match src.reverse.find? (fun kv => decide (kv.1 = k)) with
  | some kv => kv.2
  | none => ""

/-- The canonical string of the merged sources. -/
def specString (src : List (String × String)) : String :=
  let merged := (src.map Prod.fst).dedup.map (fun k => (k, specValue src k))
  let kept := merged.filter (fun kv => decide (kv.2 ≠ ""))
  let keys := sortStrings (kept.map Prod.fst)
  ":".intercalate (keys.map (fun k => k ++ ":" ++ specValue src k))

/-- The reference tag identity. -/
def CalculateTID_spec (keep : String → Bool) (extra : TagMap) (rattr sattr iattr : AttrMap)
    (pfx : String) (environment : Option TagMap) : Int :=
  int64 (xxhash.Sum64String
    (specString (specSources keep extra rattr sattr iattr pfx environment)))

/-- The keys `addKeys` lets through: those that do not begin with the marker `_`. -/
def notMarked (k : String) : Bool :=
  match k.data with
  | [] => true
  | c :: _ => decide (c ≠ '_')

end translate


/-! ## internal/boxer/filesystem_buffer.go -/

namespace boxer

/-- A `BufferRecord`.  The type is declared next to the `Buffer` interface; `Write` reads its
fields `Interval` and `Scope`, `Contents` is the payload. -/
structure BufferRecord where
  Interval : Int
  Scope : String
  Contents : List Nat
deriving DecidableEq, Repr

/-- The error values that occur. -/
inductive Err where
  | ErrShutdown
  | ErrCreateTemp
  | ErrExist
  | ErrClosed
  | ErrInvalid
  | ErrNotExist
deriving DecidableEq, Repr

/-- A non-nil Go `error`: a plain error value or a `*multierror.Error` with its list. -/
inductive Error where
  | plain (e : Err)
  | multi (errs : List Err)
deriving DecidableEq, Repr

/-- The function `multierror.Append(errs, err)`: a nil error adds nothing, a
`*multierror.Error` is flattened. -/
def multierrorAppend (errs : List Err) (err : Option Error) : List Err :=
  match err with
  | none => errs
  | some (Error.plain e) => errs ++ [e]
  | some (Error.multi es) => errs ++ es

/-- The method `(*multierror.Error).ErrorOrNil`. -/
def ErrorOrNil (errs : List Err) : Option Error :=
  if errs.isEmpty then none else some (Error.multi errs)

/-- An `*os.File` together with the file it was created for: the name, the records stored in
the file, the offset of the handle (counted in records), whether the handle has been closed
and whether the name has been removed from the directory. -/
structure OSFile where
  name : String
  contents : List BufferRecord
  pos : Nat
  closed : Bool
  removed : Bool
deriving DecidableEq, Repr

/-- The struct `FilesystemBuffer`.  A `*os.File` is the position of an `OSFile` in `files`,
the list of all files the buffer has created (the mutex is not modelled: the methods run one
at a time). -/
structure FilesystemBuffer where
  directory : String
  openFiles : List (Int × List (String × Nat))
  shutdown : Bool
  files : List OSFile
deriving DecidableEq, Repr

/-- The function `os.CreateTemp(directory, "buffer-")`.  `tmp` is the outcome of the attempt:
`none` when the file cannot be created, otherwise the name that was drawn; a name that is in
the directory already is refused. -/
def osCreateTemp (files : List OSFile) (tmp : Option String) :
    Option Nat × Option Err × List OSFile :=
  match tmp with
  | none => (none, some Err.ErrCreateTemp, files)
  | some name =>
    if files.any (fun f => decide (f.removed = false ∧ f.name = name)) then
      (none, some Err.ErrExist, files)
    else
      (some files.length, none,
        files ++ [{ name := name, contents := [], pos := 0, closed := false, removed := false }])

/-- The method `file.Seek(0, io.SeekEnd)`. -/
def osSeekEnd (files : List OSFile) (file : Nat) : Option Err × List OSFile :=
  match files[file]? with
  | none => (some Err.ErrInvalid, files)
  | some f =>
    if f.closed then (some Err.ErrClosed, files)
    else (none, files.set file { f with pos := f.contents.length })

/-- The method `file.Seek(0, io.SeekStart)`. -/
def osSeekStart (files : List OSFile) (file : Nat) : Option Err × List OSFile :=
  match files[file]? with
  | none => (some Err.ErrInvalid, files)
  | some f =>
    if f.closed then (some Err.ErrClosed, files)
    else (none, files.set file { f with pos := 0 })

/-- The method `file.Close()`. -/
def osClose (files : List OSFile) (file : Nat) : Option Err × List OSFile :=
  match files[file]? with
  | none => (some Err.ErrInvalid, files)
  | some f =>
    if f.closed then (some Err.ErrClosed, files)
    else (none, files.set file { f with closed := true })

/-- The method `file.Name()`. -/
def osName (files : List OSFile) (file : Nat) : String :=
  match files[file]? with
  | none => ""
  | some f => f.name

/-- The function `os.Remove(name)`. -/
def osRemove (files : List OSFile) (name : String) : Option Err × List OSFile :=
  if files.any (fun f => decide (f.removed = false ∧ f.name = name)) then
    (none, files.map (fun f =>
      if f.removed = false ∧ f.name = name then { f with removed := true } else f))
  else (some Err.ErrNotExist, files)

/-- Modelled from the spec: `encodeToFile(file, data)` is declared outside this file; it is
taken to write the one record `data` at the file position and to advance the position. -/
def encodeToFile (files : List OSFile) (file : Nat) (data : BufferRecord) :
    Option Err × List OSFile :=
  match files[file]? with
  | none => (some Err.ErrInvalid, files)
  | some f =>
    if f.closed then (some Err.ErrClosed, files)
    else (none, files.set file
      { f with contents := f.contents.take f.pos ++ [data] ++ f.contents.drop (f.pos + 1),
               pos := f.pos + 1 })

/-- Modelled from the spec: `iterate(file, fn)` is declared outside this file; it is taken to
call `fn` on every record from the file position to the end of the file, in order, leaving
the position at the end.  The second component is the list of records `fn` was called on. -/
def iterate (files : List OSFile) (file : Nat) : Option Err × List BufferRecord × List OSFile :=
  match files[file]? with
  | none => (some Err.ErrInvalid, [], files)
  | some f =>
    if f.closed then (some Err.ErrClosed, [], files)
    else (none, f.contents.drop f.pos, files.set file { f with pos := f.contents.length })

/-- The function `NewFilesystemBuffer`. -/
def NewFilesystemBuffer (directory : String) : FilesystemBuffer :=
  { directory := directory, openFiles := [], shutdown := false, files := [] }

/-- The Go expression `b.openFiles[interval][scope]` with its `ok` result. -/
def lookup (b : FilesystemBuffer) (interval : Int) (scope : String) : Option Nat :=
  match GoMap.get b.openFiles interval with
  | none => none
  | some scopes => GoMap.get scopes scope

/-- Lines 50-52 of `Write`: the scope map of the interval is made if there is none. -/
def ensureInterval (b : FilesystemBuffer) (interval : Int) : FilesystemBuffer :=
  match GoMap.get b.openFiles interval with
  | none => { b with openFiles := GoMap.set b.openFiles interval [] }
  | some _ => b

/-- Lines 54-60 of `Write`: the temporary file of the pair is created if the pair has none;
`tmp` is the outcome of `os.CreateTemp`, should it be called. -/
def ensureFile (b : FilesystemBuffer) (interval : Int) (scope : String) (tmp : Option String) :
    Option Err × FilesystemBuffer :=
  match lookup b interval scope with
  | some _ => (none, b)
  | none =>
    match osCreateTemp b.files tmp with
    | (some file, _, files) =>
      let scopes := (GoMap.get b.openFiles interval).getD []
      (none, { b with
        openFiles := GoMap.set b.openFiles interval (GoMap.set scopes scope file),
        files := files })
    | (none, err, files) => (some (err.getD Err.ErrCreateTemp), { b with files := files })

/-- Lines 62-67 of `Write`: the record is written at the end of the file of the pair.  (A
pair without a file would yield the nil `*os.File`, on which `Seek` fails.) -/
def appendRecord (b : FilesystemBuffer) (data : BufferRecord) : Option Error × FilesystemBuffer :=
  match lookup b data.Interval data.Scope with
  | none => (some (Error.plain Err.ErrInvalid), b)
  | some file =>
    match osSeekEnd b.files file with
    | (some err, files) => (some (Error.plain err), { b with files := files })
    | (none, files) =>
      match encodeToFile files file data with
      | (err, files) => (err.map Error.plain, { b with files := files })

/-- The method `Write`; `tmp` is the outcome of `os.CreateTemp`, should it be called. -/
def Write (b : FilesystemBuffer) (data : BufferRecord) (tmp : Option String) :
    Option Error × FilesystemBuffer :=
  if b.shutdown then (some (Error.plain Err.ErrShutdown), b)
  else
    let b := ensureInterval b data.Interval
    match ensureFile b data.Interval data.Scope tmp with
    | (some err, b) => (some (Error.plain err), b)
    | (none, b) => appendRecord b data

/-- The method `GetScopes`. -/
def GetScopes (b : FilesystemBuffer) (interval : Int) : List String × Option Error :=
  if b.shutdown then ([], some (Error.plain Err.ErrShutdown))
  else
    match GoMap.get b.openFiles interval with
    | none => ([], none)
    | some files => (GoMap.keys files, none)

/-- The method `GetIntervals`. -/
def GetIntervals (b : FilesystemBuffer) : List Int × Option Error :=
  if b.shutdown then ([], some (Error.plain Err.ErrShutdown))
  else (GoMap.keys b.openFiles, none)

/-- The method `ForEach`.  The second component lists the records the visitor `fn` is called
on, in call order. -/
def ForEach (b : FilesystemBuffer) (interval : Int) (scope : String) :
    Option Error × List BufferRecord × FilesystemBuffer :=
  if b.shutdown then (some (Error.plain Err.ErrShutdown), [], b)
  else
    match lookup b interval scope with
    | none => (none, [], b)
    | some file =>
      match osSeekStart b.files file with
      | (some err, files) => (some (Error.plain err), [], { b with files := files })
      | (none, files) =>
        match iterate files file with
        | (err, visited, files) => (err.map Error.plain, visited, { b with files := files })

/-- The function `unlockedCloseIntervalScope`. -/
def unlockedCloseIntervalScope (b : FilesystemBuffer) (interval : Int) (scope : String) :
    Option Error × FilesystemBuffer :=
  match GoMap.get b.openFiles interval with
  | none => (none, b)
  | some scopes =>
    match GoMap.get scopes scope with
    | none => (none, b)
    | some file =>
      let scopes := GoMap.delete scopes scope
      let openFiles := GoMap.set b.openFiles interval scopes
      let openFiles := if scopes.length = 0 then GoMap.delete openFiles interval else openFiles
      let errs : List Err := []
      let (err, files) := osClose b.files file
      let errs := multierrorAppend errs (err.map Error.plain)
      let (err, files) := osRemove files (osName files file)
      let errs := multierrorAppend errs (err.map Error.plain)
      (ErrorOrNil errs, { b with openFiles := openFiles, files := files })

/-- The method `CloseIntervalScope`. -/
def CloseIntervalScope (b : FilesystemBuffer) (interval : Int) (scope : String) :
    Option Error × FilesystemBuffer :=
  if b.shutdown then (some (Error.plain Err.ErrShutdown), b)
  else unlockedCloseIntervalScope b interval scope

/-- The loop `for _, file := range scopes` of `CloseInterval`.  `entries` are the entries of
the map still to be visited; an entry that has been deleted from the map before the loop
reaches it is not produced. -/
def closeIntervalLoop (interval : Int) (entries : List (String × Nat)) (errs : List Err)
    (b : FilesystemBuffer) : List Err × FilesystemBuffer :=
  match entries with
  | [] => (errs, b)
  | (scope, file) :: rest =>
    if (lookup b interval scope).isSome then
      let (err, b) := unlockedCloseIntervalScope b interval (osName b.files file)
      closeIntervalLoop interval rest (multierrorAppend errs err) b
    else closeIntervalLoop interval rest errs b

/-- The method `CloseInterval`. -/
def CloseInterval (b : FilesystemBuffer) (interval : Int) : Option Error × FilesystemBuffer :=
  if b.shutdown then (some (Error.plain Err.ErrShutdown), b)
  else
    match GoMap.get b.openFiles interval with
    | none => (none, b)
    | some scopes =>
      let (errs, b) := closeIntervalLoop interval scopes [] b
      (ErrorOrNil errs, { b with openFiles := GoMap.delete b.openFiles interval })

/-- The two nested loops of `Shutdown`: every file of every interval is closed. -/
def closeAll (handles : List Nat) (errs : List Err) (files : List OSFile) :
    List Err × List OSFile :=
  match handles with
  | [] => (errs, files)
  | file :: rest =>
    let (err, files) := osClose files file
    closeAll rest (multierrorAppend errs (err.map Error.plain)) files

/-- The method `Shutdown`. -/
def Shutdown (b : FilesystemBuffer) : Option Error × FilesystemBuffer :=
  if b.shutdown then (none, b)
  else
    let handles := b.openFiles.flatMap (fun entry => entry.2.map Prod.snd)
    let (errs, files) := closeAll handles [] b.files
    (ErrorOrNil errs, { b with shutdown := true, openFiles := [], files := files })

/-- A call of one of the methods of the buffer. -/
inductive Op where
  | write (data : BufferRecord) (tmp : Option String)
  | getScopes (interval : Int)
  | getIntervals
  | forEach (interval : Int) (scope : String)
  | closeIntervalScope (interval : Int) (scope : String)
  | closeInterval (interval : Int)
  | shutdown
deriving DecidableEq, Repr

/-- The error returned by a call and the buffer after it. -/
def step (b : FilesystemBuffer) (op : Op) : Option Error × FilesystemBuffer :=
  match op with
  | Op.write data tmp => Write b data tmp
  | Op.getScopes interval => ((GetScopes b interval).2, b)
  | Op.getIntervals => ((GetIntervals b).2, b)
  | Op.forEach interval scope => ((ForEach b interval scope).1, (ForEach b interval scope).2.2)
  | Op.closeIntervalScope interval scope => CloseIntervalScope b interval scope
  | Op.closeInterval interval => CloseInterval b interval
  | Op.shutdown => Shutdown b

/-- The buffer after a sequence of calls. -/
def run (b : FilesystemBuffer) (ops : List Op) : FilesystemBuffer :=
  match ops with
  | [] => b
  | op :: rest => run (step b op).2 rest

/-- The records written to the pair `(interval, scope)` by the successful `Write` calls of
`ops` since the pair was last closed (by `CloseIntervalScope`, `CloseInterval` or `Shutdown`),
in write order; `acc` are those of the calls before `ops`. -/
def writtenSinceClose (b : FilesystemBuffer) (ops : List Op) (interval : Int) (scope : String)
    (acc : List BufferRecord) : List BufferRecord :=
  match ops with
  | [] => acc
  | op :: rest =>
    let acc :=
      match op with
      | Op.write data _ =>
        if data.Interval = interval ∧ data.Scope = scope ∧ (step b op).1 = none
        then acc ++ [data] else acc
      | Op.closeIntervalScope i s => if i = interval ∧ s = scope then [] else acc
      | Op.closeInterval i => if i = interval then [] else acc
      | Op.shutdown => []
      | _ => acc
    writtenSinceClose (step b op).2 rest interval scope acc

/-! ### Auxiliary notions for the proofs -/

/-- The index after `unlockedCloseIntervalScope` has removed `scope` from the scopes `scopes`
of `interval`. -/
def closedIndex (openFiles : List (Int × List (String × Nat))) (interval : Int)
    (scopes : List (String × Nat)) (scope : String) : List (Int × List (String × Nat)) :=
  if (GoMap.delete scopes scope).length = 0
  then GoMap.delete (GoMap.set openFiles interval (GoMap.delete scopes scope)) interval
  else GoMap.set openFiles interval (GoMap.delete scopes scope)

/-- The invariant of the buffer: every file of the index is an open file that is in the
directory; two pairs of the index never share a file; the files in the directory have
different names. -/
def Inv (b : FilesystemBuffer) : Prop :=
  (∀ (i : Int) (s : String) (h : Nat), lookup b i s = some h →
    ∃ f : OSFile, b.files[h]? = some f ∧ f.closed = false ∧ f.removed = false) ∧
  (∀ (i : Int) (s : String) (i' : Int) (s' : String) (h : Nat),
    lookup b i s = some h → lookup b i' s' = some h → i = i' ∧ s = s') ∧
  (∀ (h h' : Nat) (f f' : OSFile), b.files[h]? = some f → b.files[h']? = some f' →
    f.removed = false → f'.removed = false → f.name = f'.name → h = h')

/-- The buffer after `ensureFile` has created the file `name` for the pair. -/
def withNewFile (b : FilesystemBuffer) (interval : Int) (scope : String) (name : String) :
    FilesystemBuffer :=
  { b with
    openFiles := GoMap.set b.openFiles interval
      (GoMap.set ((GoMap.get b.openFiles interval).getD []) scope b.files.length),
    files := b.files ++
      [{ name := name, contents := [], pos := 0, closed := false, removed := false }] }

/-- The file `f` after the record `data` has been written at its end. -/
def appended (f : OSFile) (data : BufferRecord) : OSFile :=
  { f with contents := f.contents ++ [data], pos := f.contents.length + 1 }

/-- The file of the pair `(interval, scope)` holds exactly the records `acc`; a pair without a
file goes with no records. -/
def Holds (b : FilesystemBuffer) (interval : Int) (scope : String)
    (acc : List BufferRecord) : Prop :=
  match lookup b interval scope with
  | some h => ∃ f : OSFile, b.files[h]? = some f ∧ f.contents = acc
  | none => acc = []

end boxer

/-! ## processor/chqstatsprocessor/metrics.go -/

namespace chqstatsprocessor

/-- The function `strings.HasPrefix(s, p)`. -/
def HasPrefix (s p : String) : Bool := p.data.isPrefixOf s.data

/-- The function `computeStatsOnField`.  The constants `translate.CardinalFieldTID` and
`translate.CardinalFieldPrefixDot` are declared outside this file and are parameters. -/
def computeStatsOnField (CardinalFieldTID CardinalFieldPrefixDot : String) (k : String) : Bool :=
  if HasPrefix k CardinalFieldTID then true
  else !HasPrefix k CardinalFieldPrefixDot

/-- One pass `attr.Range(...)` of `recordDatapoint`: the `(tagName, tagValue)` arguments of the
calls of `recordMetric` it makes. -/
def recordAttrs (CardinalFieldTID CardinalFieldPrefixDot : String) (ns : String)
    (attr : translate.AttrMap) : List (String × String) :=
  match attr with
  | [] => []
  | (k, v) :: rest =>
    if computeStatsOnField CardinalFieldTID CardinalFieldPrefixDot k then
      (ns ++ k, v) :: recordAttrs CardinalFieldTID CardinalFieldPrefixDot ns rest
    else recordAttrs CardinalFieldTID CardinalFieldPrefixDot ns rest

/-- The method `recordDatapoint`, as the `(tagName, tagValue)` arguments of the calls of
`recordMetric` it makes, in call order. -/
def recordDatapoint (CardinalFieldTID CardinalFieldPrefixDot : String)
    (rattr sattr dpAttr : translate.AttrMap) : List (String × String) :=
  recordAttrs CardinalFieldTID CardinalFieldPrefixDot "resource." rattr ++
  recordAttrs CardinalFieldTID CardinalFieldPrefixDot "scope." sattr ++
  recordAttrs CardinalFieldTID CardinalFieldPrefixDot "metric." dpAttr


/-- A `MetricStat`.  The type is declared next to `metrics.go`; these are the fields that
`recordMetric` and `sendMetricStats` use.  `H` is the type of the sketch and `HLL` is `none`
for a nil sketch. -/
structure MetricStat (H : Type) where
  MetricName : String
  TagName : String
  ServiceName : String
  Phase : Int
  VendorID : String
  Count : Int
  Tags : List (String × String)
  HLL : Option H

/-- A `chqpb.MetricStats`, one entry of the report.  `E` is the type of the cardinality
estimate (a `float64`, on which `sendMetricStats` does no arithmetic). -/
structure MetricStats (E : Type) where
  MetricName : String
  ServiceName : String
  TagName : String
  Phase : Int
  Count : Int
  VendorId : String
  CardinalityEstimate : E
  Hll : List Nat

/-- A `chqpb.MetricStatsReport`. -/
structure MetricStatsReport (E : Type) where
  SubmittedAt : Int
  Stats : List (MetricStats E)

/-- The inner loop `for _, ms := range stats` of `sendMetricStats`; `acc` is `wrapper.Stats`.
`GetEstimate` gives the first result of `ms.HLL.GetEstimate()` (its error is ignored) and
`ToCompactSlice` the result of `ms.HLL.ToCompactSlice()`, `none` when it returns an error. -/
def statsLoop {H E : Type} (GetEstimate : H → E) (ToCompactSlice : H → Option (List Nat))
    (stats : List (MetricStat H)) (acc : List (MetricStats E)) : List (MetricStats E) :=
  match stats with
  | [] => acc
  | ms :: rest =>
    match ms.HLL with
    | none => statsLoop GetEstimate ToCompactSlice rest acc
    | some hll =>
      let estimate := GetEstimate hll
      match ToCompactSlice hll with
      | none => statsLoop GetEstimate ToCompactSlice rest acc
      | some b =>
        let item : MetricStats E :=
          { MetricName := ms.MetricName,
            ServiceName := ms.ServiceName,
            TagName := ms.TagName,
            Phase := ms.Phase,
            Count := ms.Count,
            VendorId := ms.VendorID,
            CardinalityEstimate := estimate,
            Hll := b }
        statsLoop GetEstimate ToCompactSlice rest (acc ++ [item])

/-- The outer loop `for _, stats := range *bucketpile` of `sendMetricStats`. -/
def pileLoop {H E : Type} (GetEstimate : H → E) (ToCompactSlice : H → Option (List Nat))
    (bucketpile : List (Nat × List (MetricStat H))) (acc : List (MetricStats E)) :
    List (MetricStats E) :=
  match bucketpile with
  | [] => acc
  | (_, stats) :: rest =>
    pileLoop GetEstimate ToCompactSlice rest (statsLoop GetEstimate ToCompactSlice stats acc)

/-- The method `sendMetricStats`, as the report it hands to `postMetricStats`; `now` is
`now.UnixMilli()`. -/
def sendMetricStats {H E : Type} (GetEstimate : H → E)
    (ToCompactSlice : H → Option (List Nat)) (now : Int)
    (bucketpile : List (Nat × List (MetricStat H))) : MetricStatsReport E :=
  let wrapper : MetricStatsReport E := { SubmittedAt := now, Stats := [] }
  { wrapper with Stats := pileLoop GetEstimate ToCompactSlice bucketpile wrapper.Stats }

/-- The entry of the report that a `MetricStat` gives rise to, if any: one with a sketch whose
compact serialization succeeds gives the entry with its own fields, its estimate and its
sketch bytes; any other gives none. -/
def reportEntry {H E : Type} (GetEstimate : H → E) (ToCompactSlice : H → Option (List Nat))
    (ms : MetricStat H) : Option (MetricStats E) :=
  match ms.HLL with
  | none => none
  | some hll =>
    match ToCompactSlice hll with
    | none => none
    | some b =>
      some { MetricName := ms.MetricName, ServiceName := ms.ServiceName,
             TagName := ms.TagName, Phase := ms.Phase, Count := ms.Count,
             VendorId := ms.VendorID, CardinalityEstimate := GetEstimate hll, Hll := b }

end chqstatsprocessor

/-! ## pkg/ottl/aggregation.go -/

namespace ottl

/-- The struct `AggregationImpl[T]`.  `α` is the state of the `accumulator.Accumulator[T]`,
which is declared in `pkg/ottl/accumulator`; `ty` is the `AggregationType` (an `int`). -/
structure AggregationImpl (α : Type) where
  ty : Int
  name : String
  tags : List (String × String)
  accumulator : α

/-- The method `AggregationImpl.Add`.  An `error` is given by its message (`none` is nil);
`accumulatorAdd` is the method `Add` of the accumulator, returning its error and the
accumulator after the call. -/
def Add {α τ : Type} (accumulatorAdd : α → List τ → Option String × α)
    (a : AggregationImpl α) (name : String) (values : List τ) :
    Option String × AggregationImpl α :=
  if a.name ≠ name then
    (some ("aggregation name mismatch: " ++ a.name ++ " != " ++ name), a)
  else
    let r := accumulatorAdd a.accumulator values
    (r.1, { a with accumulator := r.2 })

end ottl

/-! ## extension/chqauthextension/serverauth.go -/

namespace chqauthextension

/-- The struct `authData`; `expiry` is an instant, counted in nanoseconds. -/
structure authData where
  apiKey : String
  clientID : String
  clientName : String
  valid : Bool
  expiry : Int
deriving DecidableEq, Repr

/-- The struct `validateResponse`. -/
structure validateResponse where
  Valid : Bool
  ID : String
  Name : String
deriving DecidableEq, Repr

/-- The errors of the authentication path. -/
inductive AuthError where
  | errNoAuthHeader
  | errDenied
  | errRequest
  | errDecode
deriving DecidableEq, Repr

/-- What the validation endpoint does with a request: the request cannot be made or sent, or
a response arrives with a status code and a body, `none` for a body that does not decode as
a `validateResponse`. -/
inductive Response where
  | failed
  | status (code : Nat) (body : Option validateResponse)
deriving DecidableEq, Repr

/-- The method `getcache`; `now` is `time.Now()`.  The result is the returned entry (`none`
for nil) and the cache after the call.  (The lookup counters are not modelled.) -/
def getcache (now : Int) (lookupCache : List (String × authData)) (apiKey : String) :
    Option authData × List (String × authData) :=
  match GoMap.get lookupCache apiKey with
  | none => (none, lookupCache)
  | some ad =>
    if ad.expiry < now then (none, GoMap.delete lookupCache apiKey)
    else (some ad, lookupCache)

/-- The method `setcache`. -/
def setcache (lookupCache : List (String × authData)) (ad : authData) :
    List (String × authData) :=
  GoMap.set lookupCache ad.apiKey ad

/-- The method `callValidateAPI`; `resp` is what the endpoint does with the request.  The
zero `time.Time` of the new entry is the instant 0. -/
def callValidateAPI (apiKey : String) (resp : Response) : Except AuthError authData :=
  match resp with
  | Response.failed => Except.error AuthError.errRequest
  | Response.status code body =>
    if code ≠ 200 then Except.error AuthError.errDenied
    else
      match body with
      | none => Except.error AuthError.errDecode
      | some validateResp =>
        Except.ok { apiKey := apiKey, clientID := validateResp.ID,
                    clientName := validateResp.Name, valid := validateResp.Valid, expiry := 0 }

/-- The method `authenticateAPIKey`.  `CacheTTLValid` and `CacheTTLInvalid` are the two
durations of the configuration, `now` is `time.Now()` in `getcache` and `later` is
`time.Now()` after the call of the endpoint.  The result is the returned entry, the returned
error and the cache after the call. -/
def authenticateAPIKey (CacheTTLValid CacheTTLInvalid : Int) (now later : Int)
    (lookupCache : List (String × authData)) (apiKey : String) (resp : Response) :
    Option authData × Option AuthError × List (String × authData) :=
  match getcache now lookupCache apiKey with
  | (some ad, lookupCache) =>
    if !ad.valid then (none, some AuthError.errDenied, lookupCache)
    else (some ad, none, lookupCache)
  | (none, lookupCache) =>
    match callValidateAPI apiKey resp with
    | Except.error err =>
      if err = AuthError.errDenied then
        let ad : authData :=
          { apiKey := apiKey, clientID := "", clientName := "", valid := false,
            expiry := later + CacheTTLInvalid }
        (none, some err, setcache lookupCache ad)
      else (none, some err, lookupCache)
    | Except.ok ad =>
      let ad := { ad with expiry := later + CacheTTLValid }
      (some ad, none, setcache lookupCache ad)

end chqauthextension

/-! ## processor/extractmetricsprocessor/processor.go -/

namespace extractmetricsprocessor

/-- The fields of `ottl.SamplerConfig` that `configUpdateCallback` reads; `LC` and `SC` are
the types of the log and span extractor configurations. -/
structure SamplerConfig (LC SC : Type) where
  LogMetricExtractors : List LC
  SpanMetricExtractors : List SC

/-- The fields of the struct `extractor` that `configUpdateCallback` reads and writes; a nil
pointer to a slice is `none`. -/
structure extractor (LE SE : Type) where
  ttype : String
  logExtractors : Option (List LE)
  spanExtractors : Option (List SE)

/-- The function `convertToPointerArray`: the non-nil elements, dereferenced. -/
def convertToPointerArray {T : Type} (input : List (Option T)) : List T :=
  input.foldl (fun result extractorPtr =>
    match extractorPtr with
    | some x => result ++ [x]
    | none => result) []

/-- The method `configUpdateCallback`.  `ParseLogExtractorConfigs` and
`ParseSpanExtractorConfigs` are the two parsers of the package `ottl`, `none` when they
return an error.  (The log messages are not modelled.) -/
def configUpdateCallback {LC SC LE SE : Type}
    (ParseLogExtractorConfigs : List LC → Option (List (Option LE)))
    (ParseSpanExtractorConfigs : List SC → Option (List (Option SE)))
    (e : extractor LE SE) (sc : SamplerConfig LC SC) : extractor LE SE :=
  let extractorConfigs : List (Option LE) := []
  if extractorConfigs.length > 0 then
    if e.ttype = "logs" then
      match ParseLogExtractorConfigs sc.LogMetricExtractors with
      | none => e
      | some parsedExtractors =>
        { e with logExtractors := some (convertToPointerArray parsedExtractors) }
    else if e.ttype = "traces" then
      match ParseSpanExtractorConfigs sc.SpanMetricExtractors with
      | none => e
      | some parsedExtractors =>
        { e with spanExtractors := some (convertToPointerArray parsedExtractors) }
    else e
  else e

end extractmetricsprocessor

/-! ## receiver/chqdatadogreceiver/logs.go -/

namespace chqdatadogreceiver

/-- The pieces of a string between the occurrences of a separator character. -/
def splitOn (sep : Char) (s : List Char) : List (List Char) :=
  match s with
  | [] => [[]]
  | c :: rest =>
    if c = sep then [] :: splitOn sep rest
    else
      match splitOn sep rest with
      | [] => [[c]]
      | piece :: pieces => (c :: piece) :: pieces

/-- The function `strings.Split(s, sep)` for a separator of one character. -/
def Split (s : String) (sep : Char) : List String :=
  (splitOn sep s.data).map String.mk

/-- The two pieces of a string around the first occurrence of `sep`, if there is one. -/
def cutFirst (sep : Char) (s : List Char) : Option (List Char × List Char) :=
  match s with
  | [] => none
  | c :: rest =>
    if c = sep then some ([], rest)
    else
      match cutFirst sep rest with
      | none => none
      | some (before, after) => some (c :: before, after)

/-- The function `strings.SplitN(s, sep, 2)` for a separator of one character. -/
def SplitN2 (s : String) (sep : Char) : List String :=
  match cutFirst sep s.data with
  | none => [s]
  | some (before, after) => [String.mk before, String.mk after]

/-- The function `unicode.IsSpace`. -/
def IsSpace (c : Char) : Bool :=
  let n := c.toNat
  n = 9 || n = 10 || n = 11 || n = 12 || n = 13 || n = 32 || n = 133 || n = 160 ||
  n = 5760 || (8192 ≤ n && n ≤ 8202) || n = 8232 || n = 8233 || n = 8239 || n = 8287 ||
  n = 12288

/-- The function `strings.TrimSpace`. -/
def TrimSpace (s : String) : String :=
  String.mk ((s.data.dropWhile IsSpace).reverse.dropWhile IsSpace).reverse

/-- The function `strings.Join(elems, sep)`. -/
def Join (elems : List String) (sep : String) : String := sep.intercalate elems

/-- The body of the loops of `splitTags` and `splitTagSlice`: the tag is stored when it has
exactly two pieces, both non-empty. -/
def addTag (tagMap : List (String × String)) (kv : List String) : List (String × String) :=
  match kv with
  | [k, v] =>
    if v ≠ "" ∧ k ≠ "" then GoMap.set tagMap (TrimSpace k) (TrimSpace v) else tagMap
  | _ => tagMap

/-- The function `splitTags`. -/
def splitTags (tags : String) : List (String × String) :=
  let tagMap : List (String × String) := []
  if tags = "" then tagMap
  else (Split tags ',').foldl (fun tagMap tag => addTag tagMap (Split tag ':')) tagMap

/-- The function `splitTagSlice`. -/
def splitTagSlice (tags : List String) : List (String × String) :=
  let tagMap : List (String × String) := []
  tags.foldl (fun tagMap tag => addTag tagMap (SplitN2 tag ':')) tagMap

end chqdatadogreceiver

/-! ## processor/chqdecoratorprocessor/internal/spantagger/jsontree.go -/

namespace spantagger

/-- The struct `spanelement`, declared in another file of the package; these are the fields
that `makeTree` reads. -/
structure spanelement where
  TraceID : String
  ServiceName : String
  SpanID : String
  SpanName : String
  SpanKind : String
  StatusCode : String
deriving DecidableEq, Repr

/-- The struct `spanNode`. -/
inductive spanNode where
  | mk (TraceID ServiceName SpanID SpanName SpanKind StatusCode : String)
      (Children : List spanNode)

/-- The field `ServiceName`. -/
def spanNode.ServiceName : spanNode → String
  | spanNode.mk _ serviceName _ _ _ _ _ => serviceName

/-- The field `Children`. -/
def spanNode.Children : spanNode → List spanNode
  | spanNode.mk _ _ _ _ _ _ children => children

mutual
/-- The number of nodes of a tree. -/
def spanNode.size : spanNode → Nat
  | spanNode.mk _ _ _ _ _ _ children => 1 + sizeList children
/-- The number of nodes of a list of trees. -/
def sizeList : List spanNode → Nat
  | [] => 0
  | node :: rest => node.size + sizeList rest
end

/-- The statement `current.Children = append(current.Children, newChild)`.  A `*spanNode`
into the tree under `root` is given by the positions of the children that lead to the node
(`[]` is `&root`); the pointer that `makeTree` holds always leads to a node. -/
def appendChild (current : List Nat) (root newChild : spanNode) : spanNode :=
  match current, root with
  | [], spanNode.mk t sv id nm kd st children =>
    spanNode.mk t sv id nm kd st (children ++ [newChild])
  | i :: rest, spanNode.mk t sv id nm kd st children =>
    match children[i]? with
    | some child =>
      spanNode.mk t sv id nm kd st (children.set i (appendChild rest child newChild))
    | none => spanNode.mk t sv id nm kd st children

/-- The value `len(current.Children)`. -/
def lenChildren (current : List Nat) (root : spanNode) : Nat :=
  match current with
  | [] => root.Children.length
  | i :: rest =>
    match root.Children[i]? with
    | some child => lenChildren rest child
    | none => 0

/-- The inner loop of `makeTree` over the elements of a path after the first one. -/
def pathLoop (elements : List spanelement) (root : spanNode) (current : List Nat) : spanNode :=
  match elements with
  | [] => root
  | element :: rest =>
    let newChild := spanNode.mk "" "" element.SpanID element.SpanName element.SpanKind
      element.StatusCode []
    let root := appendChild current root newChild
    let current := current ++ [lenChildren current root - 1]
    pathLoop rest root current

/-- The outer loop of `makeTree`; `none` is the index-out-of-range panic of `path[0]`. -/
def treeLoop (elementPaths : List (List spanelement)) (root : spanNode) : Option spanNode :=
  match elementPaths with
  | [] => some root
  | path :: rest =>
    let filled : Option spanNode :=
      if root.ServiceName = "" then
        match path, root with
        | [], _ => none
        | first :: _, spanNode.mk _ _ _ _ _ _ children =>
          some (spanNode.mk first.TraceID first.ServiceName first.SpanID first.SpanName
            first.SpanKind first.StatusCode children)
      else some root
    match filled with
    | none => none
    | some root => treeLoop rest (pathLoop (path.drop 1) root [])

/-- The function `makeTree`. -/
def makeTree (elementPaths : List (List spanelement)) : Option spanNode :=
  treeLoop elementPaths (spanNode.mk "" "" "" "" "" "" [])

/-! ### Auxiliary notions for the proofs -/

/-- The chain that the elements of a path after the first one stand for: each element is the
only child of the one before it. -/
def chain (elements : List spanelement) : List spanNode :=
  match elements with
  | [] => []
  | element :: rest =>
    [spanNode.mk "" "" element.SpanID element.SpanName element.SpanKind element.StatusCode
      (chain rest)]

/-- The node a pointer points to. -/
def nodeAt (current : List Nat) (root : spanNode) : Option spanNode :=
  match current with
  | [] => some root
  | i :: rest =>
    match root.Children[i]? with
    | some child => nodeAt rest child
    | none => none

/-- The tree in which the node that `current` points to has the further children `extra`. -/
def graft (current : List Nat) (root : spanNode) (extra : List spanNode) : spanNode :=
  match current, root with
  | [], spanNode.mk t sv id nm kd st children => spanNode.mk t sv id nm kd st (children ++ extra)
  | i :: rest, spanNode.mk t sv id nm kd st children =>
    match children[i]? with
    | some child => spanNode.mk t sv id nm kd st (children.set i (graft rest child extra))
    | none => spanNode.mk t sv id nm kd st children

end spantagger

/-! # Theorems -/

/-! ## Lemmas about Go maps -/

namespace GoMap

variable {κ ν : Type} [DecidableEq κ]

theorem get_eq_none_iff (m : List (κ × ν)) (k : κ) : get m k = none ↔ k ∉ keys m := by
  induction m with
  | nil => simp [get, keys]
  | cons p rest ih =>
    obtain ⟨k', v'⟩ := p
    by_cases h : k' = k
    · simp [get, keys, h]
    · have h' : ¬ k = k' := fun e => h e.symm
      simpa [get, keys, h, h'] using ih

theorem get_set_self (m : List (κ × ν)) (k : κ) (v : ν) : get (set m k v) k = some v := by
  induction m with
  | nil => simp [get, set]
  | cons p rest ih =>
    obtain ⟨k', v'⟩ := p
    by_cases h : k' = k
    · simp [get, set, h]
    · simp [get, set, h, ih]

theorem get_set_ne (m : List (κ × ν)) (k k' : κ) (v : ν) (h : k' ≠ k) :
    get (set m k v) k' = get m k' := by
  induction m with
  | nil => simp [get, set, h.symm]
  | cons p rest ih =>
    obtain ⟨k'', v'⟩ := p
    by_cases h2 : k'' = k
    · subst h2
      simp [get, set, h.symm]
    · simp [get, set, h2, ih]

theorem set_of_get_none (m : List (κ × ν)) (k : κ) (v : ν) (h : get m k = none) :
    set m k v = m ++ [(k, v)] := by
  induction m with
  | nil => simp [set]
  | cons p rest ih =>
    obtain ⟨k', v'⟩ := p
    by_cases h2 : k' = k
    · simp [get, h2] at h
    · simp [get, h2] at h
      simp [set, h2, ih h]

theorem keys_set_of_mem (m : List (κ × ν)) (k : κ) (v : ν) (h : k ∈ keys m) :
    keys (set m k v) = keys m := by
  induction m with
  | nil => simp [keys] at h
  | cons p rest ih =>
    obtain ⟨k', v'⟩ := p
    by_cases h2 : k' = k
    · simp [set, keys, h2]
    · have h3 : k ∈ keys rest := by
        simp only [keys, List.map_cons, List.mem_cons] at h
        rcases h with h | h
        · exact absurd h.symm h2
        · exact h
      have := ih h3
      simp only [keys] at this
      simp [set, keys, h2, this]

theorem mem_keys_set (m : List (κ × ν)) (k k' : κ) (v : ν) :
    k' ∈ keys (set m k v) ↔ k' = k ∨ k' ∈ keys m := by
  by_cases h : k ∈ keys m
  · rw [keys_set_of_mem m k v h]
    constructor
    · exact Or.inr
    · rintro (rfl | h') <;> assumption
  · rw [set_of_get_none m k v ((get_eq_none_iff m k).2 h)]
    simp [keys, or_comm]

theorem nodup_keys_set (m : List (κ × ν)) (k : κ) (v : ν) (h : (keys m).Nodup) :
    (keys (set m k v)).Nodup := by
  by_cases hk : k ∈ keys m
  · rw [keys_set_of_mem m k v hk]; exact h
  · rw [set_of_get_none m k v ((get_eq_none_iff m k).2 hk)]
    simp only [keys, List.map_append, List.map_cons, List.map_nil]
    refine List.Nodup.append h (List.nodup_singleton k) ?_
    intro a ha hb
    simp only [List.mem_singleton] at hb
    subst hb
    exact hk ha

theorem get_delete_self (m : List (κ × ν)) (k : κ) : get (delete m k) k = none := by
  rw [get_eq_none_iff]
  simp [keys, delete]

theorem get_delete_ne (m : List (κ × ν)) (k k' : κ) (h : k' ≠ k) :
    get (delete m k) k' = get m k' := by
  induction m with
  | nil => simp [delete, get]
  | cons p rest ih =>
    obtain ⟨k'', v'⟩ := p
    by_cases h2 : k'' = k
    · subst h2
      have this := ih
      simp [delete] at this
      simp [delete, get, h.symm, this]
    · have this := ih
      simp [delete] at this
      simp [delete, get, h2, this]

theorem get_eq_some_iff_mem (m : List (κ × ν)) (h : (keys m).Nodup) (k : κ) (v : ν) :
    get m k = some v ↔ (k, v) ∈ m := by
  induction m with
  | nil => simp [get]
  | cons p rest ih =>
    obtain ⟨k', v'⟩ := p
    simp only [keys, List.map_cons, List.nodup_cons] at h
    by_cases h2 : k' = k
    · subst h2
      simp only [get, if_true, Option.some.injEq, List.mem_cons, Prod.mk.injEq, true_and]
      constructor
      · intro e; exact Or.inl e.symm
      · rintro (e | e)
        · exact e.symm
        · exact absurd (List.mem_map_of_mem Prod.fst e) h.1
    · have h3 : ¬ k = k' := fun e => h2 e.symm
      simp [get, h2, h3, ih h.2]

theorem mem_keys_delete (m : List (κ × ν)) (k k' : κ) :
    k' ∈ keys (delete m k) ↔ k' ∈ keys m ∧ k' ≠ k := by
  simp only [keys, delete, List.mem_map, List.mem_filter, decide_eq_true_eq]
  constructor
  · rintro ⟨p, ⟨hp, hne⟩, rfl⟩
    exact ⟨⟨p, hp, rfl⟩, hne⟩
  · rintro ⟨⟨p, hp, rfl⟩, hne⟩
    exact ⟨p, ⟨hp, hne⟩, rfl⟩

theorem keys_delete (m : List (κ × ν)) (k : κ) :
    keys (delete m k) = (keys m).filter (fun k' => decide (k' ≠ k)) := by
  simp only [keys, delete, List.filter_map]
  rfl

end GoMap

/-! ## Lemmas about the tag identity -/

namespace translate

/-- The order used for sorting is the order of `String`. -/
theorem strLE_iff_le (a b : String) : strLE a b ↔ a ≤ b :=
  String.le_iff_toList_le.symm

theorem sortStrings_sorted (l : List String) : (sortStrings l).Sorted strLE :=
  List.sorted_insertionSort strLE l

theorem sortStrings_perm (l : List String) : (sortStrings l).Perm l :=
  List.perm_insertionSort strLE l

theorem sortStrings_eq_of_perm {l₁ l₂ : List String} (h : l₁.Perm l₂) :
    sortStrings l₁ = sortStrings l₂ :=
  List.eq_of_perm_of_sorted
    ((sortStrings_perm l₁).trans (h.trans (sortStrings_perm l₂).symm))
    (sortStrings_sorted l₁) (sortStrings_sorted l₂)

theorem sortStrings_filter (p : String → Bool) (l : List String) :
    (sortStrings l).filter p = sortStrings (l.filter p) :=
  List.eq_of_perm_of_sorted
    (((sortStrings_perm l).filter p).trans (sortStrings_perm (l.filter p)).symm)
    (List.Pairwise.sublist (List.filter_sublist _) (sortStrings_sorted l))
    (sortStrings_sorted (l.filter p))

theorem foldl_append_eq_flatMap (f : String → List String) (l : List String)
    (init : List String) :
    l.foldl (fun items k => items ++ f k) init = init ++ l.flatMap f := by
  induction l generalizing init with
  | nil => simp
  | cons k rest ih => simp [List.foldl_cons, ih, List.flatMap_cons, List.append_assoc]

theorem flatMap_filter_pair (p : String → Bool) (v : String → String) (l : List String) :
    l.flatMap (fun k => if p k then [k, v k] else []) =
      (l.filter p).flatMap (fun k => [k, v k]) := by
  induction l with
  | nil => simp
  | cons k rest ih =>
    by_cases h : p k
    · simp [List.flatMap_cons, List.filter_cons, h, ih]
    · simp [List.flatMap_cons, List.filter_cons, h, ih]

/-- The items are the sorted keys with a non-empty value, each followed by its value. -/
theorem tidItems_eq (tags : TagMap) :
    tidItems tags =
      (sortStrings ((GoMap.keys tags).filter (fun k => decide (valueOf tags k ≠ "")))).flatMap
        (fun k => [k, valueOf tags k]) := by
  have h1 : tidItems tags =
      (sortStrings (GoMap.keys tags)).flatMap
        (fun k => if decide (valueOf tags k ≠ "") then [k, valueOf tags k] else []) := by
    unfold tidItems
    have hf : (fun (items : List String) (k : String) =>
        let v := valueOf tags k
        if v ≠ "" then items ++ [k, v] else items) =
        (fun items k => items ++
          (fun k => if decide (valueOf tags k ≠ "") then [k, valueOf tags k] else []) k) := by
      funext items k
      by_cases h : valueOf tags k = "" <;> simp [h]
    simp only [hf]
    rw [foldl_append_eq_flatMap]
    simp
  rw [h1, flatMap_filter_pair, sortStrings_filter]


theorem get_eq_of_same_pairs (m₁ m₂ : TagMap) (h₁ : (GoMap.keys m₁).Nodup)
    (h₂ : (GoMap.keys m₂).Nodup) (h : ∀ k v, (k, v) ∈ m₁ ↔ (k, v) ∈ m₂) (k : String) :
    GoMap.get m₁ k = GoMap.get m₂ k := by
  apply Option.ext
  intro v
  simp only [Option.mem_def]
  rw [GoMap.get_eq_some_iff_mem m₁ h₁, GoMap.get_eq_some_iff_mem m₂ h₂]
  exact h k v

theorem tidItems_eq_of_same_pairs (m₁ m₂ : TagMap) (h₁ : (GoMap.keys m₁).Nodup)
    (h₂ : (GoMap.keys m₂).Nodup) (h : ∀ k v, (k, v) ∈ m₁ ↔ (k, v) ∈ m₂) :
    tidItems m₁ = tidItems m₂ := by
  have hv : valueOf m₁ = valueOf m₂ := by
    funext k
    simp [valueOf, get_eq_of_same_pairs m₁ m₂ h₁ h₂ h k]
  have hp : m₁.Perm m₂ :=
    (List.perm_ext_iff_of_nodup (List.Nodup.of_map Prod.fst h₁)
      (List.Nodup.of_map Prod.fst h₂)).2 (fun p => h p.1 p.2)
  have hk : (GoMap.keys m₁).Perm (GoMap.keys m₂) := hp.map Prod.fst
  rw [tidItems_eq, tidItems_eq, hv]
  rw [sortStrings_eq_of_perm (hk.filter _)]

/-- C1. `calculateTID` does not depend on the order in which the tag map is iterated: two tag
collections that hold the same (key, value) pairs, each key once, in whatever order, get the
same 64-bit identity. -/
theorem calculateTID_order_independent (m₁ m₂ : TagMap) (h₁ : (GoMap.keys m₁).Nodup)
    (h₂ : (GoMap.keys m₂).Nodup) (h : ∀ k v, (k, v) ∈ m₁ ↔ (k, v) ∈ m₂) :
    calculateTID m₁ = calculateTID m₂ := by
  unfold calculateTID tidString
  rw [tidItems_eq_of_same_pairs m₁ m₂ h₁ h₂ h]

theorem calculateTID_order_independent_witness :
    (GoMap.keys [("b", "2"), ("a", "1"), ("c", "")]).Nodup ∧
    (GoMap.keys [("c", ""), ("a", "1"), ("b", "2")]).Nodup ∧
    calculateTID [("b", "2"), ("a", "1"), ("c", "")] =
      calculateTID [("c", ""), ("a", "1"), ("b", "2")] :=
  ⟨by decide, by decide,
    calculateTID_order_independent _ _ (by decide) (by decide) (by
      intro k v
      simp only [List.mem_cons, Prod.mk.injEq, List.mem_singleton, List.not_mem_nil, or_false]
      tauto)⟩

theorem valueOf_set_self (m : TagMap) (k v : String) : valueOf (GoMap.set m k v) k = v := by
  simp [valueOf, GoMap.get_set_self]

theorem valueOf_set_ne (m : TagMap) (k k' v : String) (h : k' ≠ k) :
    valueOf (GoMap.set m k v) k' = valueOf m k' := by
  simp [valueOf, GoMap.get_set_ne m k k' v h]

theorem tidItems_set_empty (m : TagMap) (k : String) (hk : GoMap.get m k = none) :
    tidItems (GoMap.set m k "") = tidItems m := by
  have hnot : k ∉ GoMap.keys m := (GoMap.get_eq_none_iff m k).1 hk
  have hkeys : GoMap.keys (GoMap.set m k "") = GoMap.keys m ++ [k] := by
    rw [GoMap.set_of_get_none m k "" hk]; simp [GoMap.keys]
  have hfilter : (GoMap.keys (GoMap.set m k "")).filter
        (fun k' => decide (valueOf (GoMap.set m k "") k' ≠ "")) =
      (GoMap.keys m).filter (fun k' => decide (valueOf m k' ≠ "")) := by
    rw [hkeys, List.filter_append]
    have h1 : [k].filter (fun k' => decide (valueOf (GoMap.set m k "") k' ≠ "")) = [] := by
      simp [valueOf_set_self]
    rw [h1, List.append_nil]
    apply List.filter_congr
    intro k' hk'
    have : k' ≠ k := fun e => hnot (e ▸ hk')
    rw [valueOf_set_ne m k k' "" this]
  rw [tidItems_eq, tidItems_eq, hfilter]
  apply List.flatMap_congr
  intro k' hk'
  have hmem : k' ∈ GoMap.keys m :=
    (List.mem_filter.1 ((sortStrings_perm _).mem_iff.1 hk')).1
  have : k' ≠ k := fun e => hnot (e ▸ hmem)
  rw [valueOf_set_ne m k k' "" this]

/-- C3. Empty-value elision: adding a key `k` that the tag map `m` does not hold, with the
empty string as value, changes neither the items that are joined, nor the hashed string, nor
the identity; and the items are those of a list of keys that does not contain `k`, each key
followed by its value in `m`. -/
theorem calculateTID_empty_value_elision (m : TagMap) (k : String)
    (hk : GoMap.get m k = none) :
    tidItems (GoMap.set m k "") = tidItems m ∧
    tidString (GoMap.set m k "") = tidString m ∧
    calculateTID (GoMap.set m k "") = calculateTID m ∧
    ∃ ks : List String, k ∉ ks ∧
      tidItems (GoMap.set m k "") = ks.flatMap (fun k' => [k', valueOf m k']) := by
  have h := tidItems_set_empty m k hk
  refine ⟨h, ?_, ?_, ?_⟩
  · unfold tidString; rw [h]
  · unfold calculateTID tidString; rw [h]
  · refine ⟨sortStrings ((GoMap.keys m).filter (fun k' => decide (valueOf m k' ≠ ""))), ?_, ?_⟩
    · intro hmem
      have := (List.mem_filter.1 ((sortStrings_perm _).mem_iff.1 hmem)).1
      exact (GoMap.get_eq_none_iff m k).1 hk this
    · rw [h, tidItems_eq]

theorem calculateTID_empty_value_elision_witness :
    GoMap.get [("a", "1")] "b" = none ∧
    calculateTID (GoMap.set [("a", "1")] "b" "") = calculateTID [("a", "1")] :=
  ⟨by decide, (calculateTID_empty_value_elision [("a", "1")] "b" (by decide)).2.2.1⟩


/-- Inserting a list of pairs one after the other, as the loops of `CalculateTID` do. -/
theorem get_foldl_set (src : List (String × String)) (m : TagMap) (k : String) :
    GoMap.get (src.foldl (fun t kv => GoMap.set t kv.1 kv.2) m) k =
      match src.reverse.find? (fun kv => decide (kv.1 = k)) with
      | some kv => some kv.2
      | none => GoMap.get m k := by
  induction src generalizing m with
  | nil => simp
  | cons p rest ih =>
    rw [List.foldl_cons, ih, List.reverse_cons, List.find?_append]
    cases hfind : rest.reverse.find? (fun kv => decide (kv.1 = k)) with
    | some kv => simp
    | none =>
      by_cases hp : p.1 = k
      · subst hp
        simp [GoMap.get_set_self]
      · have hne : k ≠ p.1 := fun e => hp e.symm
        simp [hp, GoMap.get_set_ne m p.1 k p.2 hne]

theorem nodup_keys_foldl_set (src : List (String × String)) (m : TagMap)
    (h : (GoMap.keys m).Nodup) :
    (GoMap.keys (src.foldl (fun t kv => GoMap.set t kv.1 kv.2) m)).Nodup := by
  induction src generalizing m with
  | nil => simpa using h
  | cons p rest ih =>
    rw [List.foldl_cons]
    exact ih _ (GoMap.nodup_keys_set m p.1 p.2 h)

theorem mem_keys_foldl_set (src : List (String × String)) (m : TagMap) (k : String) :
    k ∈ GoMap.keys (src.foldl (fun t kv => GoMap.set t kv.1 kv.2) m) ↔
      k ∈ GoMap.keys m ∨ k ∈ src.map Prod.fst := by
  induction src generalizing m with
  | nil => simp
  | cons p rest ih =>
    rw [List.foldl_cons, ih, GoMap.mem_keys_set]
    simp only [List.map_cons, List.mem_cons]
    tauto

theorem valueOf_foldl_set (src : List (String × String)) (k : String) :
    valueOf (src.foldl (fun t kv => GoMap.set t kv.1 kv.2) []) k = specValue src k := by
  unfold valueOf specValue
  rw [get_foldl_set]
  cases src.reverse.find? (fun kv => decide (kv.1 = k)) <;> simp [GoMap.get]

theorem keys_foldl_set_perm (src : List (String × String)) :
    (GoMap.keys (src.foldl (fun t kv => GoMap.set t kv.1 kv.2) [])).Perm
      (src.map Prod.fst).dedup := by
  rw [List.perm_ext_iff_of_nodup
    (nodup_keys_foldl_set src [] (by simp [GoMap.keys])) (List.nodup_dedup _)]
  intro k
  rw [mem_keys_foldl_set, List.mem_dedup]
  simp [GoMap.keys]

theorem intercalate_go_eq_foldl (s : String) (l : List String) (acc : String) :
    String.intercalate.go acc s l = l.foldl (fun a x => a ++ s ++ x) acc := by
  induction l generalizing acc with
  | nil => simp [String.intercalate.go]
  | cons x rest ih => simp [String.intercalate.go, ih]

theorem foldl_join_pairs (v : String → String) (l : List String) (acc : String) :
    (l.flatMap (fun k => [k, v k])).foldl (fun a x => a ++ ":" ++ x) acc =
      (l.map (fun k => k ++ ":" ++ v k)).foldl (fun a x => a ++ ":" ++ x) acc := by
  induction l generalizing acc with
  | nil => simp
  | cons k rest ih =>
    simp only [List.flatMap_cons, List.cons_append, List.nil_append, List.foldl_cons,
      List.map_cons]
    rw [ih]
    simp [String.append_assoc]

/-- Joining the flat list `k₁, v₁, k₂, v₂, ...` gives `k₁:v₁:k₂:v₂:...`. -/
theorem intercalate_pairs (v : String → String) (l : List String) :
    ":".intercalate (l.flatMap (fun k => [k, v k])) =
      ":".intercalate (l.map (fun k => k ++ ":" ++ v k)) := by
  cases l with
  | nil => rfl
  | cons k rest =>
    simp only [List.flatMap_cons, List.cons_append, List.nil_append, List.map_cons,
      String.intercalate, intercalate_go_eq_foldl, List.foldl_cons]
    rw [foldl_join_pairs]

/-- The hashed string of a map built by successive insertion is the canonical string of the
inserted pairs. -/
theorem tidString_foldl_set (src : List (String × String)) :
    tidString (src.foldl (fun t kv => GoMap.set t kv.1 kv.2) []) = specString src := by
  have hv : valueOf (src.foldl (fun t kv => GoMap.set t kv.1 kv.2) []) = specValue src := by
    funext k; exact valueOf_foldl_set src k
  unfold tidString specString
  rw [tidItems_eq, hv, intercalate_pairs]
  rw [sortStrings_eq_of_perm ((keys_foldl_set_perm src).filter _)]
  have hkept : (((src.map Prod.fst).dedup.map (fun k => (k, specValue src k))).filter
      (fun kv => decide (kv.2 ≠ ""))).map Prod.fst =
      (src.map Prod.fst).dedup.filter (fun k => decide (specValue src k ≠ "")) := by
    rw [List.filter_map, List.map_map]
    have : (Prod.fst ∘ fun k => (k, specValue src k)) = id := by funext k; rfl
    rw [this, List.map_id]
    rfl
  simp only [hkept]

theorem data_ne_nil_of_ne_empty (k : String) (h : k ≠ "") : k.data ≠ [] := by
  intro e
  exact h (String.ext e)

theorem addKeys_eq (attr : AttrMap) (pfx : String) (tags : TagMap)
    (h : ∀ kv ∈ attr, kv.1 ≠ "") :
    addKeys attr pfx tags =
      some (((attr.filter (fun kv => notMarked kv.1)).map
        (fun kv => (pfx ++ "." ++ kv.1, kv.2))).foldl
          (fun t kv => GoMap.set t kv.1 kv.2) tags) := by
  induction attr generalizing tags with
  | nil => simp [addKeys]
  | cons p rest ih =>
    obtain ⟨k, v⟩ := p
    have hk : k ≠ "" := h (k, v) (List.mem_cons_self _ _)
    have hrest : ∀ kv ∈ rest, kv.1 ≠ "" := fun kv hkv => h kv (List.mem_cons_of_mem _ hkv)
    unfold addKeys
    cases hd : k.data with
    | nil => exact absurd hd (data_ne_nil_of_ne_empty k hk)
    | cons c cs =>
      by_cases hc : c = '_'
      · simp [hc, ih _ hrest, List.filter_cons, notMarked, hd]
      · simp [hc, ih _ hrest, List.filter_cons, notMarked, hd]


theorem CalculateTID_eq_some (extra : TagMap) (rattr sattr iattr : AttrMap) (pfx : String)
    (environment : Option TagMap)
    (hr : ∀ kv ∈ rattr, kv.1 ≠ "") (hs : ∀ kv ∈ sattr, kv.1 ≠ "")
    (hi : ∀ kv ∈ iattr, kv.1 ≠ "") :
    CalculateTID extra rattr sattr iattr pfx environment =
      some (calculateTID ((specSources notMarked extra rattr sattr iattr pfx environment).foldl
        (fun t kv => GoMap.set t kv.1 kv.2) [])) := by
  have e1 : ∀ k : String, "resource" ++ "." ++ k = "resource." ++ k := fun k => by
    rw [show "resource" ++ "." = "resource." by decide]
  have e2 : ∀ k : String, "scope" ++ "." ++ k = "scope." ++ k := fun k => by
    rw [show "scope" ++ "." = "scope." by decide]
  unfold CalculateTID
  simp only [addKeys_eq rattr _ _ hr, addKeys_eq sattr _ _ hs, addKeys_eq iattr _ _ hi]
  unfold specSources mapsCopy
  simp only [List.foldl_append, e1, e2]
  cases environment with
  | none => simp
  | some envTags => simp [List.foldl_map]

/-- C2 (amended). For attribute maps without an empty key, `CalculateTID` returns the value of
the reference definition in which only the attribute keys that do not begin with `_` take
part: merge `extra`, the namespaced resource, scope and record attributes and the
environment tags, later sources overriding earlier ones; drop the pairs with an empty value;
sort the keys; join as `key1:value1:key2:value2:...`; hash with xxhash-64 and convert to
`int64`.  A nil environment gives the result of an environment with no tags. -/
theorem CalculateTID_eq_spec (extra : TagMap) (rattr sattr iattr : AttrMap) (pfx : String)
    (environment : Option TagMap)
    (hr : ∀ kv ∈ rattr, kv.1 ≠ "") (hs : ∀ kv ∈ sattr, kv.1 ≠ "")
    (hi : ∀ kv ∈ iattr, kv.1 ≠ "") :
    CalculateTID extra rattr sattr iattr pfx environment =
      some (CalculateTID_spec notMarked extra rattr sattr iattr pfx environment) ∧
    CalculateTID extra rattr sattr iattr pfx none =
      CalculateTID extra rattr sattr iattr pfx (some []) := by
  constructor
  · rw [CalculateTID_eq_some extra rattr sattr iattr pfx environment hr hs hi]
    unfold calculateTID CalculateTID_spec
    rw [tidString_foldl_set]
  · rw [CalculateTID_eq_some extra rattr sattr iattr pfx none hr hs hi,
      CalculateTID_eq_some extra rattr sattr iattr pfx (some []) hr hs hi]
    rfl

theorem CalculateTID_eq_spec_witness :
    CalculateTID [("x", "y"), ("z", "")] [("_a", "1"), ("svc", "foo")] [] [("k", "v")]
        "metric" (some [("e", "1")]) =
      some (CalculateTID_spec notMarked [("x", "y"), ("z", "")] [("_a", "1"), ("svc", "foo")]
        [] [("k", "v")] "metric" (some [("e", "1")])) :=
  (CalculateTID_eq_spec [("x", "y"), ("z", "")] [("_a", "1"), ("svc", "foo")] [] [("k", "v")]
    "metric" (some [("e", "1")]) (by decide) (by decide) (by decide)).1

/-- C2 as stated fails: a resource attribute `_x` is not part of the identity the code
computes, while the reference definition that merges every resource attribute includes it. -/
theorem CalculateTID_spec_counterexample :
    CalculateTID [] [("_x", "1")] [] [] "metric" none ≠
      some (CalculateTID_spec (fun _ => true) [] [("_x", "1")] [] [] "metric" none) := by
  decide

/-- C9. On a resource attribute map that holds the empty string as a key, `CalculateTID`
panics: the test `k[0]` of `addKeys` indexes an empty string. -/
theorem CalculateTID_empty_key_panics :
    CalculateTID [] [("", "x")] [] [] "metric" none = none := by
  decide


theorem append_left_cancel (a b c : String) (h : a ++ b = a ++ c) : b = c := by
  apply String.ext
  have := congrArg String.data h
  simpa using this

theorem addKeys_marked_untouched (attr : AttrMap) (pfx : String) (tags tags' : TagMap)
    (k : String) (cs : List Char) (hk : k.data = '_' :: cs)
    (h : addKeys attr pfx tags = some tags') :
    GoMap.get tags' (pfx ++ "." ++ k) = GoMap.get tags (pfx ++ "." ++ k) := by
  induction attr generalizing tags with
  | nil =>
    simp only [addKeys, Option.some.injEq] at h
    rw [h]
  | cons p rest ih =>
    obtain ⟨k₂, v₂⟩ := p
    unfold addKeys at h
    cases hd : k₂.data with
    | nil => simp [hd] at h
    | cons c cs₂ =>
      simp only [hd] at h
      by_cases hc : c = '_'
      · simp only [hc, ne_eq, not_true_eq_false, if_false] at h
        exact ih tags h
      · simp only [ne_eq, hc, not_false_eq_true, if_true] at h
        rw [ih _ h]
        apply GoMap.get_set_ne
        intro e
        have e' : k = k₂ := append_left_cancel _ _ _ e
        rw [e', hd] at hk
        simp only [List.cons.injEq] at hk
        exact hc hk.1

end translate

namespace chqstatsprocessor

theorem mem_recordAttrs (tid pd ns : String) (attr : translate.AttrMap) (k v : String) :
    (ns ++ k, v) ∈ recordAttrs tid pd ns attr ↔
      (k, v) ∈ attr ∧ computeStatsOnField tid pd k = true := by
  induction attr with
  | nil => simp [recordAttrs]
  | cons p rest ih =>
    obtain ⟨k₂, v₂⟩ := p
    unfold recordAttrs
    by_cases hc : computeStatsOnField tid pd k₂ = true
    · rw [if_pos hc]
      simp only [List.mem_cons, Prod.mk.injEq, ih]
      constructor
      · rintro (⟨e, rfl⟩ | ⟨h1, h2⟩)
        · have : k = k₂ := translate.append_left_cancel _ _ _ e
          subst this
          exact ⟨Or.inl ⟨rfl, rfl⟩, hc⟩
        · exact ⟨Or.inr h1, h2⟩
      · rintro ⟨(⟨rfl, rfl⟩ | h1), h2⟩
        · exact Or.inl ⟨rfl, rfl⟩
        · exact Or.inr ⟨h1, h2⟩
    · rw [if_neg hc]
      simp only [List.mem_cons, Prod.mk.injEq, ih]
      constructor
      · rintro ⟨h1, h2⟩
        exact ⟨Or.inr h1, h2⟩
      · rintro ⟨(⟨rfl, rfl⟩ | h1), h2⟩
        · exact absurd h2 hc
        · exact ⟨h1, h2⟩

/-- One pass of `recordDatapoint` makes one call for each attribute whose key
`computeStatsOnField` accepts, in the order of the pass. -/
theorem recordAttrs_eq_filter (tid pd ns : String) (attr : translate.AttrMap) :
    recordAttrs tid pd ns attr =
      (attr.filter (fun p => computeStatsOnField tid pd p.1)).map
        (fun p => (ns ++ p.1, p.2)) := by
  induction attr with
  | nil => rfl
  | cons p rest ih =>
    obtain ⟨k, v⟩ := p
    unfold recordAttrs
    by_cases hc : computeStatsOnField tid pd k = true
    · rw [if_pos hc, ih, List.filter_cons_of_pos (by simpa using hc), List.map_cons]
    · rw [if_neg hc, ih, List.filter_cons_of_neg (by simpa using hc)]

theorem fst_of_mem_recordAttrs (tid pd ns : String) (attr : translate.AttrMap)
    (p : String × String) (h : p ∈ recordAttrs tid pd ns attr) : ∃ k, p.1 = ns ++ k := by
  rw [recordAttrs_eq_filter, List.mem_map] at h
  obtain ⟨q, _, rfl⟩ := h
  exact ⟨q.1, rfl⟩

/-- Two namespaces that begin with different characters give different tag names. -/
theorem namespace_ne (a b : Char) (as bs : List Char) (k k' : String) (h : a ≠ b) :
    String.mk (a :: as) ++ k ≠ String.mk (b :: bs) ++ k' := by
  intro e
  have hd := congrArg String.data e
  simp only [String.data_append, List.cons_append, List.cons.injEq] at hd
  exact h hd.1

theorem not_mem_recordAttrs_of_namespace (tid pd : String) (a b : Char) (as bs : List Char)
    (attr : translate.AttrMap) (k v : String) (h : a ≠ b) :
    (String.mk (a :: as) ++ k, v) ∉ recordAttrs tid pd (String.mk (b :: bs)) attr := by
  intro hm
  obtain ⟨k', hk'⟩ := fst_of_mem_recordAttrs _ _ _ _ _ hm
  exact namespace_ne a b as bs k k' h hk'

/-- The tag names and values that `recordDatapoint` records in a namespace are those of the
attributes of the pass of that namespace whose key `computeStatsOnField` accepts. -/
theorem mem_recordDatapoint (tid pd : String) (rattr sattr dpAttr : translate.AttrMap)
    (k v : String) :
    (("resource." ++ k, v) ∈ recordDatapoint tid pd rattr sattr dpAttr ↔
      (k, v) ∈ rattr ∧ computeStatsOnField tid pd k = true) ∧
    (("scope." ++ k, v) ∈ recordDatapoint tid pd rattr sattr dpAttr ↔
      (k, v) ∈ sattr ∧ computeStatsOnField tid pd k = true) ∧
    (("metric." ++ k, v) ∈ recordDatapoint tid pd rattr sattr dpAttr ↔
      (k, v) ∈ dpAttr ∧ computeStatsOnField tid pd k = true) := by
  have hr : ("resource." : String) = String.mk ('r' :: "esource.".data) := rfl
  have hs : ("scope." : String) = String.mk ('s' :: "cope.".data) := rfl
  have hm : ("metric." : String) = String.mk ('m' :: "etric.".data) := rfl
  have hrs : ∀ attr, ("resource." ++ k, v) ∉ recordAttrs tid pd "scope." attr := by
    intro attr; rw [hr, hs]
    exact not_mem_recordAttrs_of_namespace _ _ _ _ _ _ _ _ _ (by decide)
  have hrm : ∀ attr, ("resource." ++ k, v) ∉ recordAttrs tid pd "metric." attr := by
    intro attr; rw [hr, hm]
    exact not_mem_recordAttrs_of_namespace _ _ _ _ _ _ _ _ _ (by decide)
  have hsr : ∀ attr, ("scope." ++ k, v) ∉ recordAttrs tid pd "resource." attr := by
    intro attr; rw [hr, hs]
    exact not_mem_recordAttrs_of_namespace _ _ _ _ _ _ _ _ _ (by decide)
  have hsm : ∀ attr, ("scope." ++ k, v) ∉ recordAttrs tid pd "metric." attr := by
    intro attr; rw [hs, hm]
    exact not_mem_recordAttrs_of_namespace _ _ _ _ _ _ _ _ _ (by decide)
  have hmr : ∀ attr, ("metric." ++ k, v) ∉ recordAttrs tid pd "resource." attr := by
    intro attr; rw [hr, hm]
    exact not_mem_recordAttrs_of_namespace _ _ _ _ _ _ _ _ _ (by decide)
  have hms : ∀ attr, ("metric." ++ k, v) ∉ recordAttrs tid pd "scope." attr := by
    intro attr; rw [hs, hm]
    exact not_mem_recordAttrs_of_namespace _ _ _ _ _ _ _ _ _ (by decide)
  unfold recordDatapoint
  refine ⟨?_, ?_, ?_⟩
  · rw [List.mem_append, List.mem_append, mem_recordAttrs]
    exact ⟨fun h => h.elim (fun h => h.elim id (fun h => absurd h (hrs _)))
      (fun h => absurd h (hrm _)), fun h => Or.inl (Or.inl h)⟩
  · rw [List.mem_append, List.mem_append, mem_recordAttrs]
    exact ⟨fun h => h.elim (fun h => h.elim (fun h => absurd h (hsr _)) id)
      (fun h => absurd h (hsm _)), fun h => Or.inl (Or.inr h)⟩
  · rw [List.mem_append, List.mem_append, mem_recordAttrs]
    exact ⟨fun h => h.elim (fun h => h.elim (fun h => absurd h (hmr _))
      (fun h => absurd h (hms _))) id, fun h => Or.inr h⟩

/-- C10 (amended). For a key `k` that begins with the marker `_`: `addKeys` leaves the entry
of the namespaced key as it was, whatever else the attribute map holds; `computeStatsOnField`
returns false exactly when `k` has the prefix `CardinalFieldPrefixDot` and not the prefix
`CardinalFieldTID`; and `recordDatapoint` records a statistic for an attribute exactly when
`computeStatsOnField` returns true for its key: its calls of `recordMetric` are, pass by pass
(resource, scope, datapoint) and in the order of each pass, those for the attributes whose key
`computeStatsOnField` accepts, and a tag name and value of one of the three namespaces is
recorded exactly when the attribute is in the map of that namespace and
`computeStatsOnField` returns true for its key. -/
theorem marker_keys_hashing_and_stats (CardinalFieldTID CardinalFieldPrefixDot : String)
    (attr : translate.AttrMap) (pfx : String) (tags tags' : translate.TagMap)
    (rattr sattr dpAttr : translate.AttrMap)
    (k : String) (cs : List Char) (hk : k.data = '_' :: cs)
    (h : translate.addKeys attr pfx tags = some tags') :
    GoMap.get tags' (pfx ++ "." ++ k) = GoMap.get tags (pfx ++ "." ++ k) ∧
    (computeStatsOnField CardinalFieldTID CardinalFieldPrefixDot k = false ↔
      HasPrefix k CardinalFieldPrefixDot = true ∧ HasPrefix k CardinalFieldTID = false) ∧
    recordDatapoint CardinalFieldTID CardinalFieldPrefixDot rattr sattr dpAttr =
      (rattr.filter
            (fun p => computeStatsOnField CardinalFieldTID CardinalFieldPrefixDot p.1)).map
          (fun p => ("resource." ++ p.1, p.2)) ++
        (sattr.filter
            (fun p => computeStatsOnField CardinalFieldTID CardinalFieldPrefixDot p.1)).map
          (fun p => ("scope." ++ p.1, p.2)) ++
        (dpAttr.filter
            (fun p => computeStatsOnField CardinalFieldTID CardinalFieldPrefixDot p.1)).map
          (fun p => ("metric." ++ p.1, p.2)) ∧
    (∀ k' v' : String,
      (("resource." ++ k', v') ∈
          recordDatapoint CardinalFieldTID CardinalFieldPrefixDot rattr sattr dpAttr ↔
        (k', v') ∈ rattr ∧
          computeStatsOnField CardinalFieldTID CardinalFieldPrefixDot k' = true) ∧
      (("scope." ++ k', v') ∈
          recordDatapoint CardinalFieldTID CardinalFieldPrefixDot rattr sattr dpAttr ↔
        (k', v') ∈ sattr ∧
          computeStatsOnField CardinalFieldTID CardinalFieldPrefixDot k' = true) ∧
      (("metric." ++ k', v') ∈
          recordDatapoint CardinalFieldTID CardinalFieldPrefixDot rattr sattr dpAttr ↔
        (k', v') ∈ dpAttr ∧
          computeStatsOnField CardinalFieldTID CardinalFieldPrefixDot k' = true)) := by
  refine ⟨translate.addKeys_marked_untouched attr pfx tags tags' k cs hk h, ?_, ?_,
    fun k' v' => mem_recordDatapoint _ _ rattr sattr dpAttr k' v'⟩
  · unfold computeStatsOnField
    cases HasPrefix k CardinalFieldTID <;> cases HasPrefix k CardinalFieldPrefixDot <;> simp
  · unfold recordDatapoint
    rw [recordAttrs_eq_filter, recordAttrs_eq_filter, recordAttrs_eq_filter]

theorem marker_keys_hashing_and_stats_witness :
    translate.addKeys [("_cardinalhq.x", "1"), ("a", "2")] "resource" [] =
      some [("resource.a", "2")] ∧
    GoMap.get [("resource.a", "2")] ("resource" ++ "." ++ "_cardinalhq.x") = none ∧
    computeStatsOnField "_cardinalhq.tid" "_cardinalhq." "_cardinalhq.x" = false ∧
    recordDatapoint "_cardinalhq.tid" "_cardinalhq." [("_cardinalhq.x", "1"), ("a", "2")]
        [("_internal", "s"), ("_cardinalhq.y", "3")] [("_cardinalhq.tid", "9")] =
      [("resource.a", "2"), ("scope._internal", "s"), ("metric._cardinalhq.tid", "9")] :=
  ⟨by decide, by decide,
    ((marker_keys_hashing_and_stats "_cardinalhq.tid" "_cardinalhq."
      [("_cardinalhq.x", "1"), ("a", "2")] "resource" [] [("resource.a", "2")]
      [("_cardinalhq.x", "1"), ("a", "2")] [("_internal", "s"), ("_cardinalhq.y", "3")]
      [("_cardinalhq.tid", "9")]
      "_cardinalhq.x" "cardinalhq.x".data (by decide) (by decide)).2.1).2
      ⟨by decide, by decide⟩,
    ((marker_keys_hashing_and_stats "_cardinalhq.tid" "_cardinalhq."
      [("_cardinalhq.x", "1"), ("a", "2")] "resource" [] [("resource.a", "2")]
      [("_cardinalhq.x", "1"), ("a", "2")] [("_internal", "s"), ("_cardinalhq.y", "3")]
      [("_cardinalhq.tid", "9")]
      "_cardinalhq.x" "cardinalhq.x".data (by decide) (by decide)).2.2.1).trans
      (by decide)⟩

/-- C10 as stated fails: whatever the two constants are, as long as `CardinalFieldPrefixDot` is
neither empty nor the single character `_`, `computeStatsOnField` returns true for the key
`_`; and with the prefix `_cardinalhq.` a statistic is recorded for the key `_internal`. -/
theorem computeStatsOnField_marker_counterexample :
    (∀ tid pd : String, pd ≠ "" → pd ≠ "_" → computeStatsOnField tid pd "_" = true) ∧
    computeStatsOnField "_cardinalhq.tid" "_cardinalhq." "_internal" = true ∧
    recordDatapoint "_cardinalhq.tid" "_cardinalhq." [("_internal", "v")] [] [] =
      [("resource._internal", "v")] := by
  refine ⟨?_, by decide, by decide⟩
  intro tid pd h1 h2
  have hpd : HasPrefix "_" pd = false := by
    unfold HasPrefix
    have hd : pd.data ≠ [] := translate.data_ne_nil_of_ne_empty pd h1
    cases hdata : pd.data with
    | nil => exact absurd hdata hd
    | cons c cs =>
      cases cs with
      | nil =>
        have hc : c ≠ '_' := by
          intro e
          apply h2
          apply String.ext
          rw [hdata, e]
        simp [List.isPrefixOf, hc]
      | cons c₂ cs₂ =>
        simp [List.isPrefixOf]
  unfold computeStatsOnField
  rw [hpd]
  cases HasPrefix "_" tid <;> rfl

end chqstatsprocessor

namespace boxer

theorem Shutdown_shutdown (b : FilesystemBuffer) : (Shutdown b).2.shutdown = true := by
  unfold Shutdown
  by_cases h : b.shutdown = true
  · simp [h]
  · simp [h]

/-- C7. After `Shutdown` has been called, every call of `Write`, `ForEach`, `GetScopes`,
`GetIntervals`, `CloseIntervalScope` and `CloseInterval`, with whatever arguments, returns
`ErrShutdown` and leaves the buffer and every file as they are (and `ForEach` does not call the
visitor). -/
theorem after_Shutdown_ErrShutdown (b : FilesystemBuffer) (data : BufferRecord)
    (tmp : Option String) (interval : Int) (scope : String) :
    Write (Shutdown b).2 data tmp = (some (Error.plain Err.ErrShutdown), (Shutdown b).2) ∧
    ForEach (Shutdown b).2 interval scope =
      (some (Error.plain Err.ErrShutdown), [], (Shutdown b).2) ∧
    GetScopes (Shutdown b).2 interval = ([], some (Error.plain Err.ErrShutdown)) ∧
    GetIntervals (Shutdown b).2 = ([], some (Error.plain Err.ErrShutdown)) ∧
    CloseIntervalScope (Shutdown b).2 interval scope =
      (some (Error.plain Err.ErrShutdown), (Shutdown b).2) ∧
    CloseInterval (Shutdown b).2 interval =
      (some (Error.plain Err.ErrShutdown), (Shutdown b).2) := by
  have h := Shutdown_shutdown b
  refine ⟨?_, ?_, ?_, ?_, ?_, ?_⟩
  · simp [Write, h]
  · simp [ForEach, h]
  · simp [GetScopes, h]
  · simp [GetIntervals, h]
  · simp [CloseIntervalScope, h]
  · simp [CloseInterval, h]

theorem unlockedCloseIntervalScope_of_lookup_none (b : FilesystemBuffer) (interval : Int)
    (scope : String) (h : lookup b interval scope = none) :
    unlockedCloseIntervalScope b interval scope = (none, b) := by
  unfold unlockedCloseIntervalScope
  unfold lookup at h
  cases hi : GoMap.get b.openFiles interval with
  | none => rfl
  | some scopes =>
    simp only [hi] at h
    simp [h]

theorem unlockedCloseIntervalScope_of_lookup_some (b : FilesystemBuffer) (interval : Int)
    (scope : String) (scopes : List (String × Nat)) (file : Nat)
    (hi : GoMap.get b.openFiles interval = some scopes)
    (hs : GoMap.get scopes scope = some file) :
    (unlockedCloseIntervalScope b interval scope).2 =
      { b with
        openFiles := closedIndex b.openFiles interval scopes scope,
        files := (osRemove (osClose b.files file).2
          (osName (osClose b.files file).2 file)).2 } := by
  unfold unlockedCloseIntervalScope closedIndex
  simp only [hi, hs]

theorem lookup_closedIndex (b : FilesystemBuffer) (interval : Int)
    (scope : String) (scopes : List (String × Nat)) (files : List OSFile)
    (hi : GoMap.get b.openFiles interval = some scopes) (i : Int) (s : String) :
    lookup { b with openFiles := closedIndex b.openFiles interval scopes scope,
                    files := files } i s =
      if i = interval ∧ s = scope then none else lookup b i s := by
  unfold lookup closedIndex
  by_cases hlen : (GoMap.delete scopes scope).length = 0
  · have hnil : GoMap.delete scopes scope = [] := List.length_eq_zero.1 hlen
    simp only [hlen, if_true]
    by_cases hint : i = interval
    · subst hint
      simp only [GoMap.get_delete_self, hi, true_and]
      by_cases hsc : s = scope
      · simp [hsc]
      · simp only [hsc, if_false]
        have := GoMap.get_delete_ne scopes scope s hsc
        rw [hnil] at this
        rw [← this]
        rfl
    · simp only [hint, false_and, if_false]
      rw [GoMap.get_delete_ne _ _ _ hint, GoMap.get_set_ne _ _ _ _ hint]
  · simp only [hlen, if_false]
    by_cases hint : i = interval
    · subst hint
      simp only [GoMap.get_set_self, hi, true_and]
      by_cases hsc : s = scope
      · simp [hsc, GoMap.get_delete_self]
      · simp [hsc, GoMap.get_delete_ne scopes scope s hsc]
    · simp only [hint, false_and, if_false]
      rw [GoMap.get_set_ne _ _ _ _ hint]

theorem lookup_unlockedCloseIntervalScope (b : FilesystemBuffer) (interval : Int)
    (scope : String) (i : Int) (s : String) :
    lookup (unlockedCloseIntervalScope b interval scope).2 i s =
      if i = interval ∧ s = scope then none else lookup b i s := by
  cases hl : lookup b interval scope with
  | none =>
    rw [unlockedCloseIntervalScope_of_lookup_none b interval scope hl]
    by_cases h : i = interval ∧ s = scope
    · simp [h, hl]
    · simp [h]
  | some file =>
    unfold lookup at hl
    cases hi : GoMap.get b.openFiles interval with
    | none => simp [hi] at hl
    | some scopes =>
      simp only [hi] at hl
      rw [unlockedCloseIntervalScope_of_lookup_some b interval scope scopes file hi hl]
      exact lookup_closedIndex b interval scope scopes _ hi i s

theorem unlockedCloseIntervalScope_shutdown (b : FilesystemBuffer) (interval : Int)
    (scope : String) :
    (unlockedCloseIntervalScope b interval scope).2.shutdown = b.shutdown := by
  cases hl : lookup b interval scope with
  | none => rw [unlockedCloseIntervalScope_of_lookup_none b interval scope hl]
  | some file =>
    unfold lookup at hl
    cases hi : GoMap.get b.openFiles interval with
    | none => simp [hi] at hl
    | some scopes =>
      simp only [hi] at hl
      rw [unlockedCloseIntervalScope_of_lookup_some b interval scope scopes file hi hl]

/-- C8. `CloseIntervalScope` is idempotent: on a buffer that is not shut down, a second
`CloseIntervalScope` for the same pair, issued right after the first, returns no error and
leaves the buffer and every file as the first call left them. -/
theorem CloseIntervalScope_idempotent (b : FilesystemBuffer) (interval : Int) (scope : String)
    (h : b.shutdown = false) :
    CloseIntervalScope (CloseIntervalScope b interval scope).2 interval scope =
      (none, (CloseIntervalScope b interval scope).2) := by
  have h1 : (CloseIntervalScope b interval scope).2 =
      (unlockedCloseIntervalScope b interval scope).2 := by
    simp [CloseIntervalScope, h]
  rw [h1]
  have h2 : (unlockedCloseIntervalScope b interval scope).2.shutdown = false := by
    rw [unlockedCloseIntervalScope_shutdown, h]
  unfold CloseIntervalScope
  simp only [h2, Bool.false_eq_true, if_false]
  apply unlockedCloseIntervalScope_of_lookup_none
  rw [lookup_unlockedCloseIntervalScope]
  simp


theorem osClose_of_open (files : List OSFile) (h : Nat) (f : OSFile)
    (hf : files[h]? = some f) (hc : f.closed = false) :
    osClose files h = (none, files.set h { f with closed := true }) := by
  simp [osClose, hf, hc]

theorem osName_of_get (files : List OSFile) (h : Nat) (f : OSFile)
    (hf : files[h]? = some f) : osName files h = f.name := by
  simp [osName, hf]

theorem getElem?_set_self_of_get (files : List OSFile) (h : Nat) (f g : OSFile)
    (hf : files[h]? = some f) : (files.set h g)[h]? = some g := by
  have hlt : h < files.length := by
    rcases List.getElem?_eq_some_iff.1 hf with ⟨hlt, _⟩
    exact hlt
  simp [List.getElem?_set, hlt]

theorem osRemove_of_unique (files : List OSFile) (h : Nat) (g : OSFile)
    (hg : files[h]? = some g) (hr : g.removed = false)
    (huniq : ∀ (j : Nat) (g' : OSFile), files[j]? = some g' → g'.removed = false → g'.name = g.name → j = h) :
    osRemove files g.name = (none, files.set h { g with removed := true }) := by
  have hany : files.any (fun f => decide (f.removed = false ∧ f.name = g.name)) = true := by
    rw [List.any_eq_true]
    exact ⟨g, List.getElem?_mem hg, by simp [hr]⟩
  unfold osRemove
  rw [if_pos hany]
  congr 1
  apply List.ext_getElem?
  intro j
  rw [List.getElem?_map, List.getElem?_set]
  by_cases hj : h = j
  · subst hj
    have hlt : h < files.length := (List.getElem?_eq_some_iff.1 hg).1
    simp [hg, hr, hlt]
  · simp only [hj, if_false]
    cases hfj : files[j]? with
    | none => rfl
    | some g' =>
      simp only [Option.map_some']
      by_cases hcond : g'.removed = false ∧ g'.name = g.name
      · exact absurd (huniq j g' hfj hcond.1 hcond.2).symm hj
      · rw [if_neg hcond]

/-- What closing and removing the file of a pair does to the files, when the file is open and
its name is the only one of that name in the directory. -/
theorem close_remove_files (files : List OSFile) (h : Nat) (f : OSFile)
    (hf : files[h]? = some f) (hc : f.closed = false) (hr : f.removed = false)
    (huniq : ∀ (j : Nat) (g' : OSFile), files[j]? = some g' → g'.removed = false → g'.name = f.name → j = h) :
    osClose files h = (none, files.set h { f with closed := true }) ∧
    osRemove (osClose files h).2 (osName (osClose files h).2 h) =
      (none, files.set h { f with closed := true, removed := true }) := by
  have h1 := osClose_of_open files h f hf hc
  refine ⟨h1, ?_⟩
  rw [h1]
  have hget : (files.set h { f with closed := true })[h]? = some { f with closed := true } :=
    getElem?_set_self_of_get files h f _ hf
  rw [osName_of_get _ h _ hget]
  have := osRemove_of_unique (files.set h { f with closed := true }) h
    { f with closed := true } hget hr (by
      intro j g' hj hrem hname
      by_contra hne
      have hne' : ¬ h = j := fun e => hne e.symm
      rw [List.getElem?_set] at hj
      simp only [hne', if_false] at hj
      exact hne (huniq j g' hj hrem hname))
  simp only [List.set_set] at this
  exact this


theorem Inv_NewFilesystemBuffer (directory : String) : Inv (NewFilesystemBuffer directory) := by
  refine ⟨?_, ?_, ?_⟩
  · intro i s h hl
    simp [lookup, NewFilesystemBuffer, GoMap.get] at hl
  · intro i s i' s' h hl
    simp [lookup, NewFilesystemBuffer, GoMap.get] at hl
  · intro h h' f f' hf
    simp [NewFilesystemBuffer] at hf

/-- A smaller index over the same files keeps the invariant. -/
theorem Inv_of_lookup_sub (b b' : FilesystemBuffer) (hfiles : b'.files = b.files)
    (hsub : ∀ i s h, lookup b' i s = some h → lookup b i s = some h) (hInv : Inv b) :
    Inv b' := by
  obtain ⟨h1, h2, h3⟩ := hInv
  refine ⟨?_, ?_, ?_⟩
  · intro i s h hl
    rw [hfiles]
    exact h1 i s h (hsub i s h hl)
  · intro i s i' s' h hl hl'
    exact h2 i s i' s' h (hsub i s h hl) (hsub i' s' h hl')
  · rw [hfiles]
    exact h3

/-- Replacing a file by one with the same name and the same flags keeps the invariant. -/
theorem Inv_set_file (b : FilesystemBuffer) (h : Nat) (f g : OSFile)
    (hf : b.files[h]? = some f) (hname : g.name = f.name) (hclosed : g.closed = f.closed)
    (hremoved : g.removed = f.removed) (hInv : Inv b) :
    Inv { b with files := b.files.set h g } := by
  obtain ⟨h1, h2, h3⟩ := hInv
  have hget : ∀ (j : Nat) (g' : OSFile), (b.files.set h g)[j]? = some g' →
      ∃ f' : OSFile, b.files[j]? = some f' ∧ g'.name = f'.name ∧ g'.closed = f'.closed ∧
        g'.removed = f'.removed := by
    intro j g' hj
    rw [List.getElem?_set] at hj
    by_cases e : h = j
    · subst e
      have hlt : h < b.files.length := (List.getElem?_eq_some_iff.1 hf).1
      simp only [if_true, hlt, Option.some.injEq] at hj
      subst hj
      exact ⟨f, hf, hname, hclosed, hremoved⟩
    · simp only [e, if_false] at hj
      exact ⟨g', hj, rfl, rfl, rfl⟩
  refine ⟨?_, ?_, ?_⟩
  · intro i s h' hl
    obtain ⟨f', hf', hc', hr'⟩ := h1 i s h' hl
    show ∃ f, (b.files.set h g)[h']? = some f ∧ _
    by_cases e : h = h'
    · subst e
      rw [hf] at hf'
      simp only [Option.some.injEq] at hf'
      subst hf'
      exact ⟨g, getElem?_set_self_of_get _ _ _ _ hf, by rw [hclosed, hc'], by rw [hremoved, hr']⟩
    · exact ⟨f', by rw [List.getElem?_set_ne e]; exact hf', hc', hr'⟩
  · exact h2
  · intro j j' g₁ g₂ hj hj' hr hr' hn
    obtain ⟨f₁, hf₁, hn₁, _, hr₁⟩ := hget j g₁ hj
    obtain ⟨f₂, hf₂, hn₂, _, hr₂⟩ := hget j' g₂ hj'
    exact h3 j j' f₁ f₂ hf₁ hf₂ (by rw [← hr₁, hr]) (by rw [← hr₂, hr']) (by rw [← hn₁, ← hn₂, hn])

/-- What `unlockedCloseIntervalScope` does on a pair that is present, under the invariant. -/
theorem unlockedCloseIntervalScope_of_Inv (b : FilesystemBuffer) (interval : Int)
    (scope : String) (h : Nat) (hInv : Inv b) (hl : lookup b interval scope = some h) :
    ∃ (f : OSFile) (scopes : List (String × Nat)),
      GoMap.get b.openFiles interval = some scopes ∧ GoMap.get scopes scope = some h ∧
      b.files[h]? = some f ∧ f.closed = false ∧ f.removed = false ∧
      unlockedCloseIntervalScope b interval scope =
        (none, { b with
          openFiles := closedIndex b.openFiles interval scopes scope,
          files := b.files.set h { f with closed := true, removed := true } }) := by
  obtain ⟨f, hf, hc, hr⟩ := hInv.1 interval scope h hl
  have hl' := hl
  unfold lookup at hl'
  cases hi : GoMap.get b.openFiles interval with
  | none => simp [hi] at hl'
  | some scopes =>
    simp only [hi] at hl'
    refine ⟨f, scopes, rfl, hl', hf, hc, hr, ?_⟩
    have huniq : ∀ (j : Nat) (g' : OSFile), b.files[j]? = some g' → g'.removed = false → g'.name = f.name →
        j = h := fun j g' hj hrem hname => hInv.2.2 j h g' f hj hf hrem hr hname
    obtain ⟨e1, e2⟩ := close_remove_files b.files h f hf hc hr huniq
    unfold unlockedCloseIntervalScope closedIndex
    simp only [hi, hl']
    rw [e1] at e2
    rw [e1]
    simp only [e2]
    rfl

theorem Inv_unlockedCloseIntervalScope (b : FilesystemBuffer) (interval : Int)
    (scope : String) (hInv : Inv b) : Inv (unlockedCloseIntervalScope b interval scope).2 := by
  cases hl : lookup b interval scope with
  | none => rw [unlockedCloseIntervalScope_of_lookup_none b interval scope hl]; exact hInv
  | some h =>
    obtain ⟨f, scopes, hi, hs, hf, hc, hr, heq⟩ :=
      unlockedCloseIntervalScope_of_Inv b interval scope h hInv hl
    have hlook := lookup_unlockedCloseIntervalScope b interval scope
    rw [heq] at hlook ⊢
    simp only at hlook ⊢
    obtain ⟨h1, h2, h3⟩ := hInv
    have hsub : ∀ i s h', lookup { b with
          openFiles := closedIndex b.openFiles interval scopes scope,
          files := b.files.set h { f with closed := true, removed := true } } i s = some h' →
        lookup b i s = some h' ∧ h' ≠ h := by
      intro i s h' hl'
      rw [hlook] at hl'
      by_cases e : i = interval ∧ s = scope
      · simp [e] at hl'
      · simp only [e, if_false] at hl'
        refine ⟨hl', ?_⟩
        intro e'
        subst e'
        obtain ⟨e1, e2⟩ := h2 i s interval scope h' hl' hl
        exact e ⟨e1, e2⟩
    refine ⟨?_, ?_, ?_⟩
    · intro i s h' hl'
      obtain ⟨hb, hne⟩ := hsub i s h' hl'
      obtain ⟨f', hf', hc', hr'⟩ := h1 i s h' hb
      exact ⟨f', by
        show (b.files.set h _)[h']? = some f'
        rw [List.getElem?_set_ne (fun e => hne e.symm)]; exact hf', hc', hr'⟩
    · intro i s i' s' h' hl₁ hl₂
      exact h2 i s i' s' h' (hsub i s h' hl₁).1 (hsub i' s' h' hl₂).1
    · intro j j' g g' hj hj' hrem hrem' hname
      have key : ∀ (x : Nat) (y : OSFile),
          (b.files.set h { f with closed := true, removed := true })[x]? = some y →
          y.removed = false → b.files[x]? = some y := by
        intro x y hx hy
        rw [List.getElem?_set] at hx
        by_cases e : h = x
        · subst e
          have hlt : h < b.files.length := (List.getElem?_eq_some_iff.1 hf).1
          simp only [if_true, hlt, Option.some.injEq] at hx
          subst hx
          simp at hy
        · simpa [e] using hx
      exact h3 j j' g g' (key j g hj hrem) (key j' g' hj' hrem') hrem hrem' hname


theorem lookup_ensureInterval (b : FilesystemBuffer) (interval : Int) (i : Int) (s : String) :
    lookup (ensureInterval b interval) i s = lookup b i s := by
  unfold ensureInterval
  cases hi : GoMap.get b.openFiles interval with
  | some scopes => rfl
  | none =>
    unfold lookup
    by_cases e : i = interval
    · subst e
      simp [GoMap.get_set_self, hi, GoMap.get]
    · simp [GoMap.get_set_ne _ _ _ _ e]

theorem files_ensureInterval (b : FilesystemBuffer) (interval : Int) :
    (ensureInterval b interval).files = b.files := by
  unfold ensureInterval
  cases GoMap.get b.openFiles interval <;> rfl

theorem shutdown_ensureInterval (b : FilesystemBuffer) (interval : Int) :
    (ensureInterval b interval).shutdown = b.shutdown := by
  unfold ensureInterval
  cases GoMap.get b.openFiles interval <;> rfl

theorem Inv_ensureInterval (b : FilesystemBuffer) (interval : Int) (hInv : Inv b) :
    Inv (ensureInterval b interval) :=
  Inv_of_lookup_sub b _ (files_ensureInterval b interval)
    (fun i s h hl => by rw [lookup_ensureInterval] at hl; exact hl) hInv

theorem ensureFile_of_lookup_some (b : FilesystemBuffer) (interval : Int) (scope : String)
    (tmp : Option String) (h : Nat) (hl : lookup b interval scope = some h) :
    ensureFile b interval scope tmp = (none, b) := by
  simp [ensureFile, hl]

theorem ensureFile_of_lookup_none (b : FilesystemBuffer) (interval : Int) (scope : String)
    (tmp : Option String) (hl : lookup b interval scope = none) :
    (∃ err, ensureFile b interval scope tmp = (some err, b)) ∨
    (∃ name, (∀ g ∈ b.files, g.removed = false → g.name ≠ name) ∧
      ensureFile b interval scope tmp = (none, withNewFile b interval scope name)) := by
  unfold ensureFile
  simp only [hl]
  cases tmp with
  | none => exact Or.inl ⟨Err.ErrCreateTemp, rfl⟩
  | some name =>
    by_cases hany : b.files.any (fun f => decide (f.removed = false ∧ f.name = name)) = true
    · left
      exact ⟨Err.ErrExist, by simp only [osCreateTemp, hany, if_true]; rfl⟩
    · right
      refine ⟨name, ?_, ?_⟩
      · intro g hg hr hn
        apply hany
        rw [List.any_eq_true]
        exact ⟨g, hg, by simp [hr, hn]⟩
      · simp only [osCreateTemp, hany]
        rfl

theorem lookup_withNewFile (b : FilesystemBuffer) (interval : Int) (scope : String)
    (name : String) (i : Int) (s : String) :
    lookup (withNewFile b interval scope name) i s =
      if i = interval ∧ s = scope then some b.files.length else lookup b i s := by
  unfold lookup withNewFile
  by_cases e : i = interval
  · subst e
    simp only [GoMap.get_set_self, true_and]
    by_cases e' : s = scope
    · subst e'
      simp [GoMap.get_set_self]
    · simp only [e', if_false]
      rw [GoMap.get_set_ne _ _ _ _ e']
      cases GoMap.get b.openFiles i <;> simp [GoMap.get]
  · simp only [e, false_and, if_false]
    rw [GoMap.get_set_ne _ _ _ _ e]

theorem Inv_withNewFile (b : FilesystemBuffer) (interval : Int) (scope : String)
    (name : String) (hfresh : ∀ g ∈ b.files, g.removed = false → g.name ≠ name)
    (hInv : Inv b) : Inv (withNewFile b interval scope name) := by
  obtain ⟨h1, h2, h3⟩ := hInv
  have hfiles : (withNewFile b interval scope name).files = b.files ++
      [{ name := name, contents := [], pos := 0, closed := false, removed := false }] := rfl
  have hlt : ∀ i s h, lookup b i s = some h → h < b.files.length := by
    intro i s h hl
    obtain ⟨f, hf, _⟩ := h1 i s h hl
    exact (List.getElem?_eq_some_iff.1 hf).1
  refine ⟨?_, ?_, ?_⟩
  · intro i s h hl
    rw [lookup_withNewFile] at hl
    rw [hfiles]
    by_cases e : i = interval ∧ s = scope
    · simp only [e, and_self, if_true, Option.some.injEq] at hl
      subst hl
      exact ⟨_, List.getElem?_concat_length _ _, rfl, rfl⟩
    · simp only [e, if_false] at hl
      obtain ⟨f, hf, hc, hr⟩ := h1 i s h hl
      exact ⟨f, by rw [List.getElem?_append_left (hlt i s h hl)]; exact hf, hc, hr⟩
  · intro i s i' s' h hl hl'
    rw [lookup_withNewFile] at hl hl'
    by_cases e : i = interval ∧ s = scope
    · by_cases e' : i' = interval ∧ s' = scope
      · exact ⟨e.1.trans e'.1.symm, e.2.trans e'.2.symm⟩
      · simp only [e, and_self, if_true, Option.some.injEq] at hl
        simp only [e', if_false] at hl'
        have := hlt i' s' h hl'
        omega
    · by_cases e' : i' = interval ∧ s' = scope
      · simp only [e', and_self, if_true, Option.some.injEq] at hl'
        simp only [e, if_false] at hl
        have := hlt i s h hl
        omega
      · simp only [e, if_false] at hl
        simp only [e', if_false] at hl'
        exact h2 i s i' s' h hl hl'
  · intro j j' g g' hj hj' hr hr' hn
    rw [hfiles] at hj hj'
    have key : ∀ (x : Nat) (y : OSFile), (b.files ++
        [{ name := name, contents := [], pos := 0, closed := false, removed := false }])[x]? =
          some y → (x < b.files.length ∧ b.files[x]? = some y) ∨
            (x = b.files.length ∧ y.name = name) := by
      intro x y hx
      by_cases hlt' : x < b.files.length
      · left
        rw [List.getElem?_append_left hlt'] at hx
        exact ⟨hlt', hx⟩
      · right
        have hge : b.files.length ≤ x := Nat.le_of_not_lt hlt'
        rw [List.getElem?_append_right hge] at hx
        have hx0 : x - b.files.length = 0 := by
          by_contra hne
          have : 1 ≤ x - b.files.length := Nat.one_le_iff_ne_zero.2 hne
          rw [List.getElem?_eq_none (by simpa using this)] at hx
          exact absurd hx (by simp)
        rw [hx0] at hx
        simp only [List.getElem?_cons_zero, Option.some.injEq] at hx
        subst hx
        exact ⟨by omega, rfl⟩
    rcases key j g hj with ⟨_, hg⟩ | ⟨ej, hgn⟩ <;> rcases key j' g' hj' with ⟨_, hg'⟩ | ⟨ej', hgn'⟩
    · exact h3 j j' g g' hg hg' hr hr' hn
    · exact absurd (hn.trans hgn') (hfresh g (List.getElem?_mem hg) hr)
    · exact absurd (hn.symm.trans hgn) (hfresh g' (List.getElem?_mem hg') hr')
    · omega

theorem Inv_ensureFile (b : FilesystemBuffer) (interval : Int) (scope : String)
    (tmp : Option String) (hInv : Inv b) : Inv (ensureFile b interval scope tmp).2 := by
  cases hl : lookup b interval scope with
  | some h => rw [ensureFile_of_lookup_some b interval scope tmp h hl]; exact hInv
  | none =>
    rcases ensureFile_of_lookup_none b interval scope tmp hl with ⟨err, he⟩ | ⟨name, hf, he⟩
    · rw [he]; exact hInv
    · rw [he]; exact Inv_withNewFile b interval scope name hf hInv

theorem shutdown_ensureFile (b : FilesystemBuffer) (interval : Int) (scope : String)
    (tmp : Option String) : (ensureFile b interval scope tmp).2.shutdown = b.shutdown := by
  cases hl : lookup b interval scope with
  | some h => rw [ensureFile_of_lookup_some b interval scope tmp h hl]
  | none =>
    rcases ensureFile_of_lookup_none b interval scope tmp hl with ⟨err, he⟩ | ⟨name, hf, he⟩
    · rw [he]
    · rw [he]; rfl

theorem osSeekEnd_of_open (files : List OSFile) (h : Nat) (f : OSFile)
    (hf : files[h]? = some f) (hc : f.closed = false) :
    osSeekEnd files h = (none, files.set h { f with pos := f.contents.length }) := by
  simp [osSeekEnd, hf, hc]

theorem osSeekStart_of_open (files : List OSFile) (h : Nat) (f : OSFile)
    (hf : files[h]? = some f) (hc : f.closed = false) :
    osSeekStart files h = (none, files.set h { f with pos := 0 }) := by
  simp [osSeekStart, hf, hc]

theorem encodeToFile_of_open (files : List OSFile) (h : Nat) (f : OSFile) (data : BufferRecord)
    (hf : files[h]? = some f) (hc : f.closed = false) :
    encodeToFile files h data = (none, files.set h
      { f with contents := f.contents.take f.pos ++ [data] ++ f.contents.drop (f.pos + 1),
               pos := f.pos + 1 }) := by
  simp [encodeToFile, hf, hc]

theorem iterate_of_open (files : List OSFile) (h : Nat) (f : OSFile)
    (hf : files[h]? = some f) (hc : f.closed = false) :
    iterate files h =
      (none, f.contents.drop f.pos, files.set h { f with pos := f.contents.length }) := by
  simp [iterate, hf, hc]

/-- What `appendRecord` does when the pair has an open file. -/
theorem appendRecord_of_open (b : FilesystemBuffer) (data : BufferRecord) (h : Nat)
    (f : OSFile) (hl : lookup b data.Interval data.Scope = some h)
    (hf : b.files[h]? = some f) (hc : f.closed = false) :
    appendRecord b data = (none, { b with files := b.files.set h (appended f data) }) := by
  have hget : (b.files.set h { f with pos := f.contents.length })[h]? =
      some { f with pos := f.contents.length } := getElem?_set_self_of_get _ _ _ _ hf
  unfold appendRecord appended
  simp only [hl]
  rw [osSeekEnd_of_open b.files h f hf hc]
  simp only
  rw [encodeToFile_of_open _ h _ data hget hc]
  have hdrop : List.drop (f.contents.length + 1) f.contents = [] :=
    List.drop_eq_nil_of_le (Nat.le_succ _)
  simp [hdrop]


theorem Holds_iff (b : FilesystemBuffer) (i : Int) (s : String) (acc : List BufferRecord) :
    Holds b i s acc ↔
      (∀ h, lookup b i s = some h → ∃ f : OSFile, b.files[h]? = some f ∧ f.contents = acc) ∧
      (lookup b i s = none → acc = []) := by
  unfold Holds
  cases lookup b i s with
  | none => simp
  | some h => simp

/-- `Holds` only depends on the file of the pair and on its contents. -/
theorem Holds_congr (b b' : FilesystemBuffer) (i : Int) (s : String) (acc : List BufferRecord)
    (hl : lookup b' i s = lookup b i s)
    (hc : ∀ h, lookup b i s = some h →
      (b'.files[h]?).map OSFile.contents = (b.files[h]?).map OSFile.contents)
    (hH : Holds b i s acc) : Holds b' i s acc := by
  rw [Holds_iff] at hH ⊢
  rw [hl]
  refine ⟨?_, hH.2⟩
  intro h hlk
  obtain ⟨f, hf, hacc⟩ := hH.1 h hlk
  have := hc h hlk
  rw [hf] at this
  cases hf' : b'.files[h]? with
  | none => simp [hf'] at this
  | some f' =>
    rw [hf'] at this
    simp only [Option.map_some', Option.some.injEq] at this
    exact ⟨f', rfl, this.trans hacc⟩

theorem Holds_ensureInterval (b : FilesystemBuffer) (interval : Int) (i : Int) (s : String)
    (acc : List BufferRecord) (hH : Holds b i s acc) :
    Holds (ensureInterval b interval) i s acc :=
  Holds_congr b _ i s acc (lookup_ensureInterval b interval i s)
    (fun h _ => by rw [files_ensureInterval]) hH

theorem Holds_withNewFile (b : FilesystemBuffer) (interval : Int) (scope : String)
    (name : String) (i : Int) (s : String) (acc : List BufferRecord)
    (hnone : lookup b interval scope = none) (hH : Holds b i s acc) :
    Holds (withNewFile b interval scope name) i s acc := by
  rw [Holds_iff] at hH ⊢
  rw [lookup_withNewFile]
  by_cases e : i = interval ∧ s = scope
  · obtain ⟨rfl, rfl⟩ := e
    have hacc : acc = [] := hH.2 hnone
    simp only [and_self, if_true, Option.some.injEq]
    refine ⟨?_, fun hx => absurd hx (by simp)⟩
    intro h hh
    subst hh
    exact ⟨_, List.getElem?_concat_length _ _, hacc.symm⟩
  · simp only [e, if_false]
    refine ⟨?_, hH.2⟩
    intro h hl
    obtain ⟨f, hf, hacc⟩ := hH.1 h hl
    have hlt : h < b.files.length := (List.getElem?_eq_some_iff.1 hf).1
    exact ⟨f, by
      show (b.files ++ _)[h]? = some f
      rw [List.getElem?_append_left hlt]; exact hf, hacc⟩

theorem Holds_ensureFile (b : FilesystemBuffer) (interval : Int) (scope : String)
    (tmp : Option String) (i : Int) (s : String) (acc : List BufferRecord)
    (hH : Holds b i s acc) : Holds (ensureFile b interval scope tmp).2 i s acc := by
  cases hl : lookup b interval scope with
  | some h => rw [ensureFile_of_lookup_some b interval scope tmp h hl]; exact hH
  | none =>
    rcases ensureFile_of_lookup_none b interval scope tmp hl with ⟨err, he⟩ | ⟨name, hf, he⟩
    · rw [he]; exact hH
    · rw [he]; exact Holds_withNewFile b interval scope name i s acc hl hH

/-- When `ensureFile` reports no error the pair has a file. -/
theorem lookup_ensureFile_of_ok (b : FilesystemBuffer) (interval : Int) (scope : String)
    (tmp : Option String) (hok : (ensureFile b interval scope tmp).1 = none) :
    ∃ h, lookup (ensureFile b interval scope tmp).2 interval scope = some h := by
  cases hl : lookup b interval scope with
  | some h =>
    rw [ensureFile_of_lookup_some b interval scope tmp h hl]
    exact ⟨h, hl⟩
  | none =>
    rcases ensureFile_of_lookup_none b interval scope tmp hl with ⟨err, he⟩ | ⟨name, hf, he⟩
    · rw [he] at hok
      simp at hok
    · rw [he]
      exact ⟨b.files.length, by simp [lookup_withNewFile]⟩

theorem Inv_appendRecord (b : FilesystemBuffer) (data : BufferRecord) (hInv : Inv b) :
    Inv (appendRecord b data).2 := by
  cases hl : lookup b data.Interval data.Scope with
  | none => simp [appendRecord, hl]; exact hInv
  | some h =>
    obtain ⟨f, hf, hc, hr⟩ := hInv.1 _ _ h hl
    rw [appendRecord_of_open b data h f hl hf hc]
    exact Inv_set_file b h f (appended f data) hf rfl rfl rfl hInv

theorem shutdown_appendRecord (b : FilesystemBuffer) (data : BufferRecord) (hInv : Inv b) :
    (appendRecord b data).2.shutdown = b.shutdown := by
  cases hl : lookup b data.Interval data.Scope with
  | none => simp [appendRecord, hl]
  | some h =>
    obtain ⟨f, hf, hc, hr⟩ := hInv.1 _ _ h hl
    rw [appendRecord_of_open b data h f hl hf hc]

theorem Holds_appendRecord_same (b : FilesystemBuffer) (data : BufferRecord)
    (acc : List BufferRecord) (h : Nat) (hInv : Inv b)
    (hl : lookup b data.Interval data.Scope = some h)
    (hH : Holds b data.Interval data.Scope acc) :
    (appendRecord b data).1 = none ∧
    Holds (appendRecord b data).2 data.Interval data.Scope (acc ++ [data]) := by
  obtain ⟨f, hf, hc, hr⟩ := hInv.1 _ _ h hl
  rw [appendRecord_of_open b data h f hl hf hc]
  refine ⟨rfl, ?_⟩
  rw [Holds_iff] at hH ⊢
  obtain ⟨f', hf', hacc⟩ := hH.1 h hl
  rw [hf] at hf'
  simp only [Option.some.injEq] at hf'
  subst hf'
  have hl' : lookup { b with files := b.files.set h (appended f data) } data.Interval
      data.Scope = some h := hl
  rw [hl']
  refine ⟨?_, fun hx => absurd hx (by simp)⟩
  intro h' hh
  simp only [Option.some.injEq] at hh
  subst hh
  exact ⟨appended f data, getElem?_set_self_of_get _ _ _ _ hf, by simp [appended, hacc]⟩

theorem Holds_appendRecord_other (b : FilesystemBuffer) (data : BufferRecord)
    (i : Int) (s : String) (acc : List BufferRecord) (hInv : Inv b)
    (hne : ¬ (data.Interval = i ∧ data.Scope = s)) (hH : Holds b i s acc) :
    Holds (appendRecord b data).2 i s acc := by
  cases hl : lookup b data.Interval data.Scope with
  | none => simp [appendRecord, hl]; exact hH
  | some h =>
    obtain ⟨f, hf, hc, hr⟩ := hInv.1 _ _ h hl
    rw [appendRecord_of_open b data h f hl hf hc]
    refine Holds_congr b _ i s acc rfl ?_ hH
    intro h' hl'
    have hneq : h ≠ h' := by
      intro e
      subst e
      obtain ⟨e1, e2⟩ := hInv.2.1 _ _ _ _ h hl hl'
      exact hne ⟨e1, e2⟩
    show ((b.files.set h (appended f data))[h']?).map OSFile.contents = _
    rw [List.getElem?_set_ne hneq]

theorem Write_of_ensureFile_err (b b' : FilesystemBuffer) (data : BufferRecord)
    (tmp : Option String) (err : Err) (hs : b.shutdown = false)
    (he : ensureFile (ensureInterval b data.Interval) data.Interval data.Scope tmp =
      (some err, b')) :
    Write b data tmp = (some (Error.plain err), b') := by
  unfold Write
  rw [if_neg (by simp [hs])]
  simp only [he]

theorem Write_of_ensureFile_ok (b b' : FilesystemBuffer) (data : BufferRecord)
    (tmp : Option String) (hs : b.shutdown = false)
    (he : ensureFile (ensureInterval b data.Interval) data.Interval data.Scope tmp =
      (none, b')) :
    Write b data tmp = appendRecord b' data := by
  unfold Write
  rw [if_neg (by simp [hs])]
  simp only [he]

theorem Inv_Write (b : FilesystemBuffer) (data : BufferRecord) (tmp : Option String)
    (hInv : Inv b) : Inv (Write b data tmp).2 := by
  by_cases hs : b.shutdown = true
  · simp [Write, hs]; exact hInv
  · have hs' : b.shutdown = false := by simpa using hs
    have h2 := Inv_ensureFile (ensureInterval b data.Interval) data.Interval data.Scope tmp
      (Inv_ensureInterval b data.Interval hInv)
    rcases he : ensureFile (ensureInterval b data.Interval) data.Interval data.Scope tmp with
      ⟨_ | err, b'⟩
    · rw [he] at h2
      rw [Write_of_ensureFile_ok b b' data tmp hs' he]
      exact Inv_appendRecord b' data h2
    · rw [he] at h2
      rw [Write_of_ensureFile_err b b' data tmp err hs' he]
      exact h2

theorem shutdown_Write (b : FilesystemBuffer) (data : BufferRecord) (tmp : Option String)
    (hInv : Inv b) : (Write b data tmp).2.shutdown = b.shutdown := by
  by_cases hs : b.shutdown = true
  · simp [Write, hs]
  · have hs' : b.shutdown = false := by simpa using hs
    have h2 := Inv_ensureFile (ensureInterval b data.Interval) data.Interval data.Scope tmp
      (Inv_ensureInterval b data.Interval hInv)
    have h3 := shutdown_ensureFile (ensureInterval b data.Interval) data.Interval data.Scope tmp
    rw [shutdown_ensureInterval] at h3
    rcases he : ensureFile (ensureInterval b data.Interval) data.Interval data.Scope tmp with
      ⟨_ | err, b'⟩
    · rw [he] at h2 h3
      simp only at h2 h3
      rw [Write_of_ensureFile_ok b b' data tmp hs' he, shutdown_appendRecord b' data h2, h3]
    · rw [he] at h3
      rw [Write_of_ensureFile_err b b' data tmp err hs' he]
      exact h3

/-- The records of a pair after a `Write`: the record is added to its own pair when the call
succeeds, and nothing else changes. -/
theorem Holds_Write (b : FilesystemBuffer) (data : BufferRecord) (tmp : Option String)
    (i : Int) (s : String) (acc : List BufferRecord) (hs : b.shutdown = false)
    (hInv : Inv b) (hH : Holds b i s acc) :
    Holds (Write b data tmp).2 i s
      (if data.Interval = i ∧ data.Scope = s ∧ (Write b data tmp).1 = none
       then acc ++ [data] else acc) := by
  have h1 := Inv_ensureInterval b data.Interval hInv
  have h2 := Inv_ensureFile (ensureInterval b data.Interval) data.Interval data.Scope tmp h1
  have h3 := Holds_ensureFile (ensureInterval b data.Interval) data.Interval data.Scope tmp
    i s acc (Holds_ensureInterval b data.Interval i s acc hH)
  have h4 := lookup_ensureFile_of_ok (ensureInterval b data.Interval) data.Interval
    data.Scope tmp
  rcases he : ensureFile (ensureInterval b data.Interval) data.Interval data.Scope tmp with
    ⟨_ | err, b'⟩
  · rw [he] at h2 h3 h4
    simp only at h2 h3 h4
    rw [Write_of_ensureFile_ok b b' data tmp hs he]
    obtain ⟨h, hl⟩ := h4 trivial
    by_cases e : data.Interval = i ∧ data.Scope = s
    · obtain ⟨rfl, rfl⟩ := e
      obtain ⟨hok, hH'⟩ := Holds_appendRecord_same b' data acc h h2 hl h3
      simp only [hok, and_self, if_true]
      exact hH'
    · have hif : ¬ (data.Interval = i ∧ data.Scope = s ∧ (appendRecord b' data).1 = none) :=
        fun hx => e ⟨hx.1, hx.2.1⟩
      rw [if_neg hif]
      exact Holds_appendRecord_other b' data i s acc h2 e h3
  · rw [he] at h3
    rw [Write_of_ensureFile_err b b' data tmp err hs he]
    simpa using h3


/-- What `ForEach` does on a pair that has an open file. -/
theorem ForEach_of_open (b : FilesystemBuffer) (i : Int) (s : String) (h : Nat) (f : OSFile)
    (hs : b.shutdown = false) (hl : lookup b i s = some h) (hf : b.files[h]? = some f)
    (hc : f.closed = false) :
    ForEach b i s = (none, f.contents,
      { b with files := b.files.set h { f with pos := f.contents.length } }) := by
  have hget : (b.files.set h { f with pos := 0 })[h]? = some { f with pos := 0 } :=
    getElem?_set_self_of_get _ _ _ _ hf
  unfold ForEach
  simp only [hs, hl, Bool.false_eq_true, if_false]
  rw [osSeekStart_of_open b.files h f hf hc]
  simp only
  rw [iterate_of_open _ h _ hget hc]
  simp

theorem ForEach_of_lookup_none (b : FilesystemBuffer) (i : Int) (s : String)
    (hs : b.shutdown = false) (hl : lookup b i s = none) :
    ForEach b i s = (none, [], b) := by
  simp [ForEach, hs, hl]

theorem Inv_ForEach (b : FilesystemBuffer) (i : Int) (s : String) (hInv : Inv b) :
    Inv (ForEach b i s).2.2 := by
  by_cases hs : b.shutdown = true
  · simp [ForEach, hs]; exact hInv
  · have hs' : b.shutdown = false := by simpa using hs
    cases hl : lookup b i s with
    | none => rw [ForEach_of_lookup_none b i s hs' hl]; exact hInv
    | some h =>
      obtain ⟨f, hf, hc, hr⟩ := hInv.1 i s h hl
      rw [ForEach_of_open b i s h f hs' hl hf hc]
      exact Inv_set_file b h f _ hf rfl rfl rfl hInv

theorem shutdown_ForEach (b : FilesystemBuffer) (i : Int) (s : String) (hInv : Inv b) :
    (ForEach b i s).2.2.shutdown = b.shutdown := by
  by_cases hs : b.shutdown = true
  · simp [ForEach, hs]
  · have hs' : b.shutdown = false := by simpa using hs
    cases hl : lookup b i s with
    | none => rw [ForEach_of_lookup_none b i s hs' hl]
    | some h =>
      obtain ⟨f, hf, hc, hr⟩ := hInv.1 i s h hl
      rw [ForEach_of_open b i s h f hs' hl hf hc]

theorem Holds_ForEach (b : FilesystemBuffer) (i₀ : Int) (s₀ : String) (i : Int) (s : String)
    (acc : List BufferRecord) (hInv : Inv b) (hH : Holds b i s acc) :
    Holds (ForEach b i₀ s₀).2.2 i s acc := by
  by_cases hs : b.shutdown = true
  · simp [ForEach, hs]; exact hH
  · have hs' : b.shutdown = false := by simpa using hs
    cases hl : lookup b i₀ s₀ with
    | none => rw [ForEach_of_lookup_none b i₀ s₀ hs' hl]; exact hH
    | some h =>
      obtain ⟨f, hf, hc, hr⟩ := hInv.1 i₀ s₀ h hl
      rw [ForEach_of_open b i₀ s₀ h f hs' hl hf hc]
      refine Holds_congr b _ i s acc rfl ?_ hH
      intro h' _
      show ((b.files.set h { f with pos := f.contents.length })[h']?).map OSFile.contents = _
      rw [List.getElem?_set]
      by_cases e : h = h'
      · subst e
        have hlt : h < b.files.length := (List.getElem?_eq_some_iff.1 hf).1
        simp [hlt, hf]
      · simp [e]

/-- `ForEach` visits exactly the records the file of the pair holds. -/
theorem ForEach_of_Holds (b : FilesystemBuffer) (i : Int) (s : String)
    (acc : List BufferRecord) (hs : b.shutdown = false) (hInv : Inv b)
    (hH : Holds b i s acc) :
    (ForEach b i s).1 = none ∧ (ForEach b i s).2.1 = acc := by
  rw [Holds_iff] at hH
  cases hl : lookup b i s with
  | none =>
    rw [ForEach_of_lookup_none b i s hs hl]
    exact ⟨rfl, (hH.2 hl).symm⟩
  | some h =>
    obtain ⟨f, hf, hc, hr⟩ := hInv.1 i s h hl
    obtain ⟨f', hf', hacc⟩ := hH.1 h hl
    rw [hf] at hf'
    simp only [Option.some.injEq] at hf'
    subst hf'
    rw [ForEach_of_open b i s h f hs hl hf hc]
    exact ⟨rfl, hacc⟩

/-- Closing a pair leaves the file of every other pair of the index as it is. -/
theorem files_unlockedCloseIntervalScope_other (b : FilesystemBuffer) (interval : Int)
    (scope : String) (hInv : Inv b) (i : Int) (s : String) (h : Nat)
    (hne : ¬ (i = interval ∧ s = scope)) (hl : lookup b i s = some h) :
    (unlockedCloseIntervalScope b interval scope).2.files[h]? = b.files[h]? := by
  cases hl₀ : lookup b interval scope with
  | none => rw [unlockedCloseIntervalScope_of_lookup_none b interval scope hl₀]
  | some h₀ =>
    obtain ⟨f, scopes, hi, hsc, hf, hc, hr, heq⟩ :=
      unlockedCloseIntervalScope_of_Inv b interval scope h₀ hInv hl₀
    rw [heq]
    have hneq : h₀ ≠ h := by
      intro e
      subst e
      obtain ⟨e1, e2⟩ := hInv.2.1 _ _ _ _ h₀ hl hl₀
      exact hne ⟨e1, e2⟩
    show (b.files.set h₀ _)[h]? = _
    rw [List.getElem?_set_ne hneq]

theorem Holds_unlockedCloseIntervalScope (b : FilesystemBuffer) (interval : Int)
    (scope : String) (hInv : Inv b) (i : Int) (s : String) (acc : List BufferRecord)
    (hH : Holds b i s acc) :
    Holds (unlockedCloseIntervalScope b interval scope).2 i s
      (if i = interval ∧ s = scope then [] else acc) := by
  by_cases e : i = interval ∧ s = scope
  · rw [if_pos e, Holds_iff, lookup_unlockedCloseIntervalScope, if_pos e]
    simp
  · rw [if_neg e]
    refine Holds_congr b _ i s acc ?_ ?_ hH
    · rw [lookup_unlockedCloseIntervalScope, if_neg e]
    · intro h hl
      rw [files_unlockedCloseIntervalScope_other b interval scope hInv i s h e hl]

/-- The loop of `CloseInterval`: it keeps the invariant and does not touch the other
intervals. -/
theorem closeIntervalLoop_spec (interval : Int) (entries : List (String × Nat)) :
    ∀ (errs : List Err) (b : FilesystemBuffer), Inv b →
      Inv (closeIntervalLoop interval entries errs b).2 ∧
      (closeIntervalLoop interval entries errs b).2.shutdown = b.shutdown ∧
      (∀ i s, i ≠ interval →
        lookup (closeIntervalLoop interval entries errs b).2 i s = lookup b i s) ∧
      (∀ i s h, i ≠ interval → lookup b i s = some h →
        (closeIntervalLoop interval entries errs b).2.files[h]? = b.files[h]?) := by
  induction entries with
  | nil =>
    intro errs b hInv
    exact ⟨hInv, rfl, fun _ _ _ => rfl, fun _ _ _ _ _ => rfl⟩
  | cons p rest ih =>
    intro errs b hInv
    obtain ⟨scope, file⟩ := p
    unfold closeIntervalLoop
    by_cases hp : (lookup b interval scope).isSome = true
    · simp only [hp, if_true]
      have hInv' := Inv_unlockedCloseIntervalScope b interval (osName b.files file) hInv
      obtain ⟨k1, k2, k3, k4⟩ := ih
        (multierrorAppend errs (unlockedCloseIntervalScope b interval (osName b.files file)).1)
        (unlockedCloseIntervalScope b interval (osName b.files file)).2 hInv'
      refine ⟨k1, ?_, ?_, ?_⟩
      · rw [k2, unlockedCloseIntervalScope_shutdown]
      · intro i s hne
        rw [k3 i s hne, lookup_unlockedCloseIntervalScope, if_neg (fun hx => hne hx.1)]
      · intro i s h hne hl
        have hl' : lookup (unlockedCloseIntervalScope b interval (osName b.files file)).2 i s =
            some h := by
          rw [lookup_unlockedCloseIntervalScope, if_neg (fun hx => hne hx.1)]; exact hl
        rw [k4 i s h hne hl']
        exact files_unlockedCloseIntervalScope_other b interval _ hInv i s h
          (fun hx => hne hx.1) hl
    · simp only [hp, if_false]
      exact ih errs b hInv

/-- The buffer after `CloseInterval` on an interval that is present. -/
theorem CloseInterval_of_present (b : FilesystemBuffer) (interval : Int)
    (scopes : List (String × Nat)) (hs : b.shutdown = false)
    (hi : GoMap.get b.openFiles interval = some scopes) :
    (CloseInterval b interval).2 =
      { (closeIntervalLoop interval scopes [] b).2 with
        openFiles := GoMap.delete (closeIntervalLoop interval scopes [] b).2.openFiles
          interval } := by
  simp [CloseInterval, hs, hi]

theorem CloseInterval_of_absent (b : FilesystemBuffer) (interval : Int)
    (hi : GoMap.get b.openFiles interval = none) :
    (CloseInterval b interval).2 = b := by
  by_cases hs : b.shutdown = true
  · simp [CloseInterval, hs]
  · simp [CloseInterval, hs, hi]

theorem lookup_delete_interval (b : FilesystemBuffer) (interval : Int) (i : Int) (s : String) :
    lookup { b with openFiles := GoMap.delete b.openFiles interval } i s =
      if i = interval then none else lookup b i s := by
  unfold lookup
  by_cases e : i = interval
  · subst e
    simp [GoMap.get_delete_self]
  · simp only [e, if_false]
    rw [GoMap.get_delete_ne _ _ _ e]

theorem CloseInterval_spec (b : FilesystemBuffer) (interval : Int) (hInv : Inv b) :
    Inv (CloseInterval b interval).2 ∧
    (CloseInterval b interval).2.shutdown = b.shutdown ∧
    (∀ i s, i ≠ interval → lookup (CloseInterval b interval).2 i s = lookup b i s) ∧
    (b.shutdown = false → ∀ s, lookup (CloseInterval b interval).2 interval s = none) ∧
    (∀ i s h, i ≠ interval → lookup b i s = some h →
      (CloseInterval b interval).2.files[h]? = b.files[h]?) := by
  by_cases hs : b.shutdown = true
  · have : (CloseInterval b interval).2 = b := by simp [CloseInterval, hs]
    rw [this]
    exact ⟨hInv, rfl, fun _ _ _ => rfl, fun hx => by simp [hs] at hx, fun _ _ _ _ _ => rfl⟩
  · have hs' : b.shutdown = false := by simpa using hs
    cases hi : GoMap.get b.openFiles interval with
    | none =>
      rw [CloseInterval_of_absent b interval hi]
      exact ⟨hInv, rfl, fun _ _ _ => rfl, fun _ s => by simp [lookup, hi],
        fun _ _ _ _ _ => rfl⟩
    | some scopes =>
      rw [CloseInterval_of_present b interval scopes hs' hi]
      obtain ⟨k1, k2, k3, k4⟩ := closeIntervalLoop_spec interval scopes [] b hInv
      refine ⟨?_, k2, ?_, ?_, ?_⟩
      · refine Inv_of_lookup_sub (closeIntervalLoop interval scopes [] b).2 _ rfl ?_ k1
        intro i s h hl
        rw [lookup_delete_interval] at hl
        by_cases e : i = interval
        · simp [e] at hl
        · simpa [e] using hl
      · intro i s hne
        rw [lookup_delete_interval, if_neg hne, k3 i s hne]
      · intro _ s
        rw [lookup_delete_interval, if_pos rfl]
      · intro i s h hne hl
        exact k4 i s h hne hl

theorem Holds_CloseInterval (b : FilesystemBuffer) (interval : Int) (hs : b.shutdown = false)
    (hInv : Inv b) (i : Int) (s : String) (acc : List BufferRecord) (hH : Holds b i s acc) :
    Holds (CloseInterval b interval).2 i s (if i = interval then [] else acc) := by
  obtain ⟨_, _, k3, k4, k5⟩ := CloseInterval_spec b interval hInv
  by_cases e : i = interval
  · subst e
    rw [if_pos rfl, Holds_iff, k4 hs s]
    simp
  · rw [if_neg e]
    refine Holds_congr b _ i s acc (k3 i s e) ?_ hH
    intro h hl
    rw [k5 i s h e hl]


theorem osClose_get (files : List OSFile) (h j : Nat) (g' : OSFile)
    (hj : (osClose files h).2[j]? = some g') :
    ∃ g : OSFile, files[j]? = some g ∧ g'.name = g.name ∧ g'.removed = g.removed := by
  cases hf : files[h]? with
  | none =>
    simp only [osClose, hf] at hj
    exact ⟨g', hj, rfl, rfl⟩
  | some f =>
    cases hc : f.closed with
    | true =>
      simp only [osClose, hf, hc, if_true] at hj
      exact ⟨g', hj, rfl, rfl⟩
    | false =>
      rw [osClose_of_open files h f hf hc] at hj
      simp only at hj
      rw [List.getElem?_set] at hj
      by_cases e : h = j
      · subst e
        have hlt : h < files.length := (List.getElem?_eq_some_iff.1 hf).1
        simp only [if_true, hlt, Option.some.injEq] at hj
        subst hj
        exact ⟨f, hf, rfl, rfl⟩
      · simp only [e, if_false] at hj
        exact ⟨g', hj, rfl, rfl⟩

theorem closeAll_get (handles : List Nat) :
    ∀ (errs : List Err) (files : List OSFile) (j : Nat) (g' : OSFile),
      (closeAll handles errs files).2[j]? = some g' →
      ∃ g : OSFile, files[j]? = some g ∧ g'.name = g.name ∧ g'.removed = g.removed := by
  induction handles with
  | nil =>
    intro errs files j g' hj
    exact ⟨g', hj, rfl, rfl⟩
  | cons h rest ih =>
    intro errs files j g' hj
    unfold closeAll at hj
    obtain ⟨g₁, hg₁, hn₁, hr₁⟩ := ih _ _ j g' hj
    obtain ⟨g, hg, hn, hr⟩ := osClose_get files h j g₁ hg₁
    exact ⟨g, hg, hn₁.trans hn, hr₁.trans hr⟩

theorem Inv_Shutdown (b : FilesystemBuffer) (hInv : Inv b) : Inv (Shutdown b).2 := by
  by_cases hs : b.shutdown = true
  · simp [Shutdown, hs]; exact hInv
  · unfold Shutdown
    simp only [hs, if_false]
    refine ⟨?_, ?_, ?_⟩
    · intro i s h hl
      simp [lookup, GoMap.get] at hl
    · intro i s i' s' h hl
      simp [lookup, GoMap.get] at hl
    · intro j j' g g' hj hj' hr hr' hn
      obtain ⟨f, hf, hn₁, hr₁⟩ := closeAll_get _ _ _ j g hj
      obtain ⟨f', hf', hn₂, hr₂⟩ := closeAll_get _ _ _ j' g' hj'
      exact hInv.2.2 j j' f f' hf hf' (by rw [← hr₁, hr]) (by rw [← hr₂, hr'])
        (by rw [← hn₁, ← hn₂, hn])

theorem Inv_CloseIntervalScope (b : FilesystemBuffer) (i : Int) (s : String) (hInv : Inv b) :
    Inv (CloseIntervalScope b i s).2 := by
  by_cases hs : b.shutdown = true
  · simp [CloseIntervalScope, hs]; exact hInv
  · simp only [CloseIntervalScope, hs, if_false]
    exact Inv_unlockedCloseIntervalScope b i s hInv

theorem Inv_step (b : FilesystemBuffer) (op : Op) (hInv : Inv b) : Inv (step b op).2 := by
  cases op with
  | write data tmp => exact Inv_Write b data tmp hInv
  | getScopes i => exact hInv
  | getIntervals => exact hInv
  | forEach i s => exact Inv_ForEach b i s hInv
  | closeIntervalScope i s => exact Inv_CloseIntervalScope b i s hInv
  | closeInterval i => exact (CloseInterval_spec b i hInv).1
  | shutdown => exact Inv_Shutdown b hInv

theorem step_of_shutdown (b : FilesystemBuffer) (op : Op) (hs : b.shutdown = true) :
    (step b op).2 = b := by
  cases op with
  | write data tmp => simp [step, Write, hs]
  | getScopes i => rfl
  | getIntervals => rfl
  | forEach i s => simp [step, ForEach, hs]
  | closeIntervalScope i s => simp [step, CloseIntervalScope, hs]
  | closeInterval i => simp [step, CloseInterval, hs]
  | shutdown => simp [step, Shutdown, hs]

theorem run_of_shutdown (ops : List Op) (b : FilesystemBuffer) (hs : b.shutdown = true) :
    run b ops = b := by
  induction ops with
  | nil => rfl
  | cons op rest ih =>
    unfold run
    rw [step_of_shutdown b op hs]
    exact ih

theorem Inv_run (ops : List Op) : ∀ b : FilesystemBuffer, Inv b → Inv (run b ops) := by
  induction ops with
  | nil => intro b h; exact h
  | cons op rest ih =>
    intro b h
    unfold run
    exact ih _ (Inv_step b op h)

/-- Along a run the file of a pair holds the records written since the pair was closed. -/
theorem Holds_run (interval : Int) (scope : String) (ops : List Op) :
    ∀ (b : FilesystemBuffer) (acc : List BufferRecord), Inv b → Holds b interval scope acc →
      (run b ops).shutdown = false →
      Holds (run b ops) interval scope (writtenSinceClose b ops interval scope acc) := by
  induction ops with
  | nil =>
    intro b acc _ hH _
    exact hH
  | cons op rest ih =>
    intro b acc hInv hH hfin
    have hs : b.shutdown = false := by
      by_contra hne
      have hs' : b.shutdown = true := by simpa using hne
      rw [run_of_shutdown _ b hs', hs'] at hfin
      exact absurd hfin (by simp)
    have hs₁ : (step b op).2.shutdown = false := by
      by_contra hne
      have hs' : (step b op).2.shutdown = true := by simpa using hne
      unfold run at hfin
      rw [run_of_shutdown _ _ hs', hs'] at hfin
      exact absurd hfin (by simp)
    unfold run writtenSinceClose
    unfold run at hfin
    refine ih _ _ (Inv_step b op hInv) ?_ hfin
    cases op with
    | write data tmp => exact Holds_Write b data tmp interval scope acc hs hInv hH
    | getScopes i => exact hH
    | getIntervals => exact hH
    | forEach i s => exact Holds_ForEach b i s interval scope acc hInv hH
    | closeIntervalScope i s =>
      have h := Holds_unlockedCloseIntervalScope b i s hInv interval scope acc hH
      have e : (step b (Op.closeIntervalScope i s)).2 =
          (unlockedCloseIntervalScope b i s).2 := by
        simp [step, CloseIntervalScope, hs]
      rw [e]
      show Holds _ interval scope (if i = interval ∧ s = scope then [] else acc)
      by_cases c : i = interval ∧ s = scope
      · rw [if_pos c]
        rw [if_pos ⟨c.1.symm, c.2.symm⟩] at h
        exact h
      · rw [if_neg c]
        rw [if_neg (fun hx => c ⟨hx.1.symm, hx.2.symm⟩)] at h
        exact h
    | closeInterval i =>
      have h := Holds_CloseInterval b i hs hInv interval scope acc hH
      show Holds (CloseInterval b i).2 interval scope (if i = interval then [] else acc)
      by_cases c : i = interval
      · rw [if_pos c]
        rw [if_pos c.symm] at h
        exact h
      · rw [if_neg c]
        rw [if_neg (fun hx => c hx.symm)] at h
        exact h
    | shutdown =>
      have : (step b Op.shutdown).2.shutdown = true := Shutdown_shutdown b
      rw [this] at hs₁
      exact absurd hs₁ (by simp)

/-- C5. Disk buffer round trip: after any sequence of calls on a new buffer that leaves the
buffer not shut down, `ForEach` on a pair returns no error and calls the visitor on exactly
the records that the successful `Write` calls wrote to that pair since the pair was last
closed, once each and in write order. -/
theorem ForEach_replays_writes (directory : String) (ops : List Op) (interval : Int)
    (scope : String)
    (hs : (run (NewFilesystemBuffer directory) ops).shutdown = false) :
    (ForEach (run (NewFilesystemBuffer directory) ops) interval scope).1 = none ∧
    (ForEach (run (NewFilesystemBuffer directory) ops) interval scope).2.1 =
      writtenSinceClose (NewFilesystemBuffer directory) ops interval scope [] := by
  have hInv := Inv_run ops _ (Inv_NewFilesystemBuffer directory)
  have hH := Holds_run interval scope ops (NewFilesystemBuffer directory) []
    (Inv_NewFilesystemBuffer directory)
    (by simp [Holds, lookup, NewFilesystemBuffer, GoMap.get]) hs
  exact ForEach_of_Holds _ interval scope _ hs hInv hH


theorem ForEach_replays_writes_witness :
    (ForEach (run (NewFilesystemBuffer "/tmp")
      [Op.write ⟨10, "svc", [1]⟩ (some "/tmp/buffer-1"),
       Op.write ⟨10, "db", [9]⟩ (some "/tmp/buffer-2"),
       Op.forEach 10 "svc",
       Op.write ⟨10, "svc", [2]⟩ none,
       Op.write ⟨10, "svc", [3]⟩ none]) 10 "svc").2.1 =
      [⟨10, "svc", [1]⟩, ⟨10, "svc", [2]⟩, ⟨10, "svc", [3]⟩] :=
  (ForEach_replays_writes "/tmp"
      [Op.write ⟨10, "svc", [1]⟩ (some "/tmp/buffer-1"),
       Op.write ⟨10, "db", [9]⟩ (some "/tmp/buffer-2"),
       Op.forEach 10 "svc",
       Op.write ⟨10, "svc", [2]⟩ none,
       Op.write ⟨10, "svc", [3]⟩ none] 10 "svc" (by decide)).2.trans (by decide)

theorem CloseIntervalScope_idempotent_witness :
    CloseIntervalScope (CloseIntervalScope
        (Write (NewFilesystemBuffer "/tmp") ⟨10, "svc", [1]⟩ (some "/tmp/buffer-1")).2
        10 "svc").2 10 "svc" =
      (none, (CloseIntervalScope
        (Write (NewFilesystemBuffer "/tmp") ⟨10, "svc", [1]⟩ (some "/tmp/buffer-1")).2
        10 "svc").2) :=
  CloseIntervalScope_idempotent
    (Write (NewFilesystemBuffer "/tmp") ⟨10, "svc", [1]⟩ (some "/tmp/buffer-1")).2
    10 "svc" (by decide)

/-- C4. After one record has been written to the pair `(10, "svc")`, whose temporary file is
`/tmp/buffer-1`, `CloseInterval(10)` returns no error and removes the interval from the
index, but the file of the pair is neither closed nor removed from the directory, whereas
`CloseIntervalScope(10, "svc")` closes and removes it: the loop of `CloseInterval` passes
`file.Name()` where the scope key is expected. -/
theorem CloseInterval_leaves_files :
    (Write (NewFilesystemBuffer "/tmp") ⟨10, "svc", [1]⟩ (some "/tmp/buffer-1")).2 =
      { directory := "/tmp", openFiles := [(10, [("svc", 0)])], shutdown := false,
        files := [⟨"/tmp/buffer-1", [⟨10, "svc", [1]⟩], 1, false, false⟩] } ∧
    CloseInterval
        (Write (NewFilesystemBuffer "/tmp") ⟨10, "svc", [1]⟩ (some "/tmp/buffer-1")).2 10 =
      (none, { directory := "/tmp", openFiles := [], shutdown := false,
               files := [⟨"/tmp/buffer-1", [⟨10, "svc", [1]⟩], 1, false, false⟩] }) ∧
    CloseIntervalScope
        (Write (NewFilesystemBuffer "/tmp") ⟨10, "svc", [1]⟩ (some "/tmp/buffer-1")).2
        10 "svc" =
      (none, { directory := "/tmp", openFiles := [], shutdown := false,
               files := [⟨"/tmp/buffer-1", [⟨10, "svc", [1]⟩], 1, true, true⟩] }) := by
  decide

theorem get_closedIndex_self (openFiles : List (Int × List (String × Nat))) (interval : Int)
    (scopes : List (String × Nat)) (scope : String) :
    GoMap.get (closedIndex openFiles interval scopes scope) interval =
      if (GoMap.delete scopes scope).length = 0 then none
      else some (GoMap.delete scopes scope) := by
  unfold closedIndex
  by_cases h : (GoMap.delete scopes scope).length = 0
  · simp only [h, if_true, GoMap.get_delete_self]
  · simp only [h, if_false, GoMap.get_set_self]

theorem get_closedIndex_ne (openFiles : List (Int × List (String × Nat))) (interval : Int)
    (scopes : List (String × Nat)) (scope : String) (i : Int) (hne : i ≠ interval) :
    GoMap.get (closedIndex openFiles interval scopes scope) i = GoMap.get openFiles i := by
  unfold closedIndex
  by_cases h : (GoMap.delete scopes scope).length = 0
  · simp only [h, if_true]
    rw [GoMap.get_delete_ne _ _ _ hne, GoMap.get_set_ne _ _ _ _ hne]
  · simp only [h, if_false]
    rw [GoMap.get_set_ne _ _ _ _ hne]

theorem mem_keys_closedIndex (openFiles : List (Int × List (String × Nat))) (interval : Int)
    (scopes : List (String × Nat)) (scope : String) (i : Int) :
    i ∈ GoMap.keys (closedIndex openFiles interval scopes scope) ↔
      if i = interval then (GoMap.delete scopes scope).length ≠ 0
      else i ∈ GoMap.keys openFiles := by
  unfold closedIndex
  by_cases h : (GoMap.delete scopes scope).length = 0
  · simp only [h, if_true, GoMap.mem_keys_delete, GoMap.mem_keys_set]
    by_cases e : i = interval
    · simp [e]
    · simp [e]
  · simp only [h, if_false, GoMap.mem_keys_set]
    by_cases e : i = interval
    · simp [e, h]
    · simp [e]

/-- C6. `CloseIntervalScope` affects exactly one pair.  On a buffer reached from a new one by
any sequence of calls and not shut down, for a pair `(interval, scope)` that is in the index
with file `h`: the call returns no error; the file `h`, which was open and in the directory,
is closed and removed, and every other file is as before; the pair is no longer in the index
and every other pair has the file it had; the scopes listed for the interval are the former
ones without `scope`; the interval is no longer listed exactly when `scope` was its only
scope; every other interval keeps its entry; the buffer is still not shut down. -/
theorem CloseIntervalScope_frame (directory : String) (ops : List Op) (interval : Int)
    (scope : String) (h : Nat)
    (hs : (run (NewFilesystemBuffer directory) ops).shutdown = false)
    (hl : lookup (run (NewFilesystemBuffer directory) ops) interval scope = some h) :
    (CloseIntervalScope (run (NewFilesystemBuffer directory) ops) interval scope).1 = none ∧
    (∃ f : OSFile, (run (NewFilesystemBuffer directory) ops).files[h]? = some f ∧
      f.closed = false ∧ f.removed = false ∧
      (CloseIntervalScope (run (NewFilesystemBuffer directory) ops) interval scope).2.files[h]? =
        some { f with closed := true, removed := true }) ∧
    (∀ j, j ≠ h →
      (CloseIntervalScope (run (NewFilesystemBuffer directory) ops) interval scope).2.files[j]? =
        (run (NewFilesystemBuffer directory) ops).files[j]?) ∧
    (∀ i s, lookup
        (CloseIntervalScope (run (NewFilesystemBuffer directory) ops) interval scope).2 i s =
      if i = interval ∧ s = scope then none
      else lookup (run (NewFilesystemBuffer directory) ops) i s) ∧
    (GetScopes (CloseIntervalScope (run (NewFilesystemBuffer directory) ops)
        interval scope).2 interval).1 =
      (GetScopes (run (NewFilesystemBuffer directory) ops) interval).1.filter
        (fun s => decide (s ≠ scope)) ∧
    (interval ∉ (GetIntervals (CloseIntervalScope (run (NewFilesystemBuffer directory) ops)
        interval scope).2).1 ↔
      ∀ s ∈ (GetScopes (run (NewFilesystemBuffer directory) ops) interval).1, s = scope) ∧
    (∀ i, i ≠ interval →
      GoMap.get (CloseIntervalScope (run (NewFilesystemBuffer directory) ops)
        interval scope).2.openFiles i =
        GoMap.get (run (NewFilesystemBuffer directory) ops).openFiles i ∧
      (i ∈ (GetIntervals (CloseIntervalScope (run (NewFilesystemBuffer directory) ops)
          interval scope).2).1 ↔
        i ∈ (GetIntervals (run (NewFilesystemBuffer directory) ops)).1)) ∧
    (CloseIntervalScope (run (NewFilesystemBuffer directory) ops)
      interval scope).2.shutdown = false := by
  have hInv := Inv_run ops _ (Inv_NewFilesystemBuffer directory)
  generalize run (NewFilesystemBuffer directory) ops = b at hs hl hInv ⊢
  obtain ⟨f, scopes, hi, hsc, hf, hc, hr, heq⟩ :=
    unlockedCloseIntervalScope_of_Inv b interval scope h hInv hl
  have hC : CloseIntervalScope b interval scope =
      (none, { b with
        openFiles := closedIndex b.openFiles interval scopes scope,
        files := b.files.set h { f with closed := true, removed := true } }) := by
    rw [← heq]
    simp [CloseIntervalScope, hs]
  rw [hC]
  have hfilter : GoMap.keys (GoMap.delete scopes scope) =
      (GoMap.keys scopes).filter (fun s => decide (s ≠ scope)) := GoMap.keys_delete scopes scope
  refine ⟨rfl, ⟨f, hf, hc, hr, getElem?_set_self_of_get _ _ _ _ hf⟩, ?_, ?_, ?_, ?_, ?_, hs⟩
  · intro j hj
    show (b.files.set h _)[j]? = _
    rw [List.getElem?_set_ne (fun e => hj e.symm)]
  · intro i s
    exact lookup_closedIndex b interval scope scopes _ hi i s
  · simp only [GetScopes, hs, hi, Bool.false_eq_true, if_false, get_closedIndex_self]
    by_cases hlen : (GoMap.delete scopes scope).length = 0
    · simp only [hlen, if_true]
      rw [← hfilter, List.length_eq_zero.1 hlen]
      rfl
    · simp only [hlen, if_false]
      exact hfilter
  · simp only [GetIntervals, GetScopes, hs, hi, Bool.false_eq_true, if_false,
      mem_keys_closedIndex, if_true, ne_eq, not_not]
    rw [List.length_eq_zero]
    constructor
    · intro hnil s hmem
      by_contra hne
      have : s ∈ GoMap.keys (GoMap.delete scopes scope) :=
        (GoMap.mem_keys_delete scopes scope s).2 ⟨hmem, hne⟩
      rw [hnil] at this
      simp [GoMap.keys] at this
    · intro hall
      apply List.eq_nil_iff_forall_not_mem.2
      intro p hp
      have hk : p.1 ∈ GoMap.keys (GoMap.delete scopes scope) := List.mem_map_of_mem Prod.fst hp
      rw [GoMap.mem_keys_delete] at hk
      exact hk.2 (hall p.1 hk.1)
  · intro i hne
    refine ⟨get_closedIndex_ne b.openFiles interval scopes scope i hne, ?_⟩
    simp only [GetIntervals, hs, Bool.false_eq_true, if_false, mem_keys_closedIndex, hne]

theorem CloseIntervalScope_frame_witness :
    lookup (run (NewFilesystemBuffer "/tmp")
      [Op.write ⟨10, "svc", [1]⟩ (some "/tmp/buffer-1"),
       Op.write ⟨10, "db", [9]⟩ (some "/tmp/buffer-2")]) 10 "svc" = some 0 ∧
    (GetScopes (CloseIntervalScope (run (NewFilesystemBuffer "/tmp")
      [Op.write ⟨10, "svc", [1]⟩ (some "/tmp/buffer-1"),
       Op.write ⟨10, "db", [9]⟩ (some "/tmp/buffer-2")]) 10 "svc").2 10).1 =
      (GetScopes (run (NewFilesystemBuffer "/tmp")
      [Op.write ⟨10, "svc", [1]⟩ (some "/tmp/buffer-1"),
       Op.write ⟨10, "db", [9]⟩ (some "/tmp/buffer-2")]) 10).1.filter
        (fun s => decide (s ≠ "svc")) :=
  ⟨by decide,
    (CloseIntervalScope_frame "/tmp"
      [Op.write ⟨10, "svc", [1]⟩ (some "/tmp/buffer-1"),
       Op.write ⟨10, "db", [9]⟩ (some "/tmp/buffer-2")] 10 "svc" 0
      (by decide) (by decide)).2.2.2.2.1⟩


/-- C13. `Shutdown` is idempotent: on a buffer on which `Shutdown` has been called, a further
`Shutdown` returns no error and leaves the buffer and every file as they are. -/
theorem Shutdown_idempotent (b : FilesystemBuffer) :
    Shutdown (Shutdown b).2 = (none, (Shutdown b).2) := by
  have h := Shutdown_shutdown b
  generalize (Shutdown b).2 = b' at h
  simp [Shutdown, h]

theorem lookup_eq_none_iff (b : FilesystemBuffer) (i : Int) (s : String) :
    lookup b i s = none ↔
      GoMap.get b.openFiles i = none ∨
      ∃ scopes, GoMap.get b.openFiles i = some scopes ∧ GoMap.get scopes s = none := by
  unfold lookup
  cases GoMap.get b.openFiles i with
  | none => simp
  | some scopes => simp

/-- C14. `ForEach` on a pair that is not in the index (the interval is unknown, or the
interval is known and the scope is not) on a buffer that is not shut down returns no error,
calls the visitor on no record and leaves the buffer, its index included, as it is. -/
theorem ForEach_unknown_pair (b : FilesystemBuffer) (interval : Int) (scope : String)
    (hs : b.shutdown = false)
    (h : GoMap.get b.openFiles interval = none ∨
      ∃ scopes, GoMap.get b.openFiles interval = some scopes ∧ GoMap.get scopes scope = none) :
    ForEach b interval scope = (none, [], b) ∧
    (ForEach b interval scope).2.2.openFiles = b.openFiles ∧
    (GetIntervals (ForEach b interval scope).2.2).1 = (GetIntervals b).1 ∧
    (GetScopes (ForEach b interval scope).2.2 interval).1 = (GetScopes b interval).1 := by
  have hl : lookup b interval scope = none := (lookup_eq_none_iff b interval scope).2 h
  have e := ForEach_of_lookup_none b interval scope hs hl
  rw [e]
  exact ⟨rfl, rfl, rfl, rfl⟩

theorem ForEach_unknown_pair_witness :
    ForEach (Write (NewFilesystemBuffer "/tmp") ⟨10, "svc", [1]⟩ (some "/tmp/buffer-1")).2
        10 "db" =
      (none, [], (Write (NewFilesystemBuffer "/tmp") ⟨10, "svc", [1]⟩
        (some "/tmp/buffer-1")).2) ∧
    ForEach (Write (NewFilesystemBuffer "/tmp") ⟨10, "svc", [1]⟩ (some "/tmp/buffer-1")).2
        11 "svc" =
      (none, [], (Write (NewFilesystemBuffer "/tmp") ⟨10, "svc", [1]⟩
        (some "/tmp/buffer-1")).2) :=
  ⟨(ForEach_unknown_pair _ 10 "db" (by decide)
      (Or.inr ⟨[("svc", 0)], by decide, by decide⟩)).1,
   (ForEach_unknown_pair _ 11 "svc" (by decide) (Or.inl (by decide))).1⟩

/-- C19. A `Write` whose `os.CreateTemp` fails on a new buffer returns the error and leaves
the interval in the index with no scope: `GetIntervals` lists interval 10 and `GetScopes(10)`
is empty. -/
theorem Write_failure_leaves_empty_interval :
    Write (NewFilesystemBuffer "/tmp") ⟨10, "svc", [1]⟩ none =
      (some (Error.plain Err.ErrCreateTemp),
        { directory := "/tmp", openFiles := [(10, [])], shutdown := false, files := [] }) ∧
    GetIntervals (run (NewFilesystemBuffer "/tmp") [Op.write ⟨10, "svc", [1]⟩ none]) =
      ([10], none) ∧
    GetScopes (run (NewFilesystemBuffer "/tmp") [Op.write ⟨10, "svc", [1]⟩ none]) 10 =
      ([], none) := by
  decide

end boxer

namespace ottl

/-- C15. `AggregationImpl.Add` rejects a wrong name: when the name differs from the
configured one it returns an error and the aggregation, its accumulator included, is as
before (the accumulator is not called); when the names are equal it returns what
`accumulator.Add(values)` returns and the accumulator is the one after that call. -/
theorem Add_name_check {α τ : Type} (accumulatorAdd : α → List τ → Option String × α)
    (a : AggregationImpl α) (name : String) (values : List τ) :
    (a.name ≠ name →
      (Add accumulatorAdd a name values).1 =
        some ("aggregation name mismatch: " ++ a.name ++ " != " ++ name) ∧
      (Add accumulatorAdd a name values).2 = a) ∧
    (a.name = name →
      (Add accumulatorAdd a name values).1 = (accumulatorAdd a.accumulator values).1 ∧
      (Add accumulatorAdd a name values).2 =
        { a with accumulator := (accumulatorAdd a.accumulator values).2 }) := by
  constructor
  · intro h
    simp [Add, h]
  · intro h
    simp [Add, h]

theorem Add_name_check_witness :
    (Add (fun (acc : List Nat) (values : List Nat) => (none, acc ++ values))
      { ty := 0, name := "latency", tags := [], accumulator := [1] } "latency" [2, 3]).2.accumulator
      = [1, 2, 3] ∧
    (Add (fun (acc : List Nat) (values : List Nat) => (none, acc ++ values))
      { ty := 0, name := "latency", tags := [], accumulator := [1] } "errors" [2, 3]).2.accumulator
      = [1] :=
  ⟨by
    rw [((Add_name_check (fun (acc : List Nat) (values : List Nat) => (none, acc ++ values))
      { ty := 0, name := "latency", tags := [], accumulator := [1] } "latency" [2, 3]).2
      rfl).2]
    rfl,
   by
    rw [((Add_name_check (fun (acc : List Nat) (values : List Nat) => (none, acc ++ values))
      { ty := 0, name := "latency", tags := [], accumulator := [1] } "errors" [2, 3]).1
      (by decide)).2]⟩

end ottl

namespace extractmetricsprocessor

/-- C20. `configUpdateCallback` never changes the extractor: whatever the configuration, the
type of telemetry and the parsers, the extractor after the callback, with its log and span
extractor lists, is the one before it, because the guard is evaluated on a new, empty
slice. -/
theorem configUpdateCallback_no_change {LC SC LE SE : Type}
    (ParseLogExtractorConfigs : List LC → Option (List (Option LE)))
    (ParseSpanExtractorConfigs : List SC → Option (List (Option SE)))
    (e : extractor LE SE) (sc : SamplerConfig LC SC) :
    configUpdateCallback ParseLogExtractorConfigs ParseSpanExtractorConfigs e sc = e ∧
    (configUpdateCallback ParseLogExtractorConfigs ParseSpanExtractorConfigs e sc).logExtractors
      = e.logExtractors ∧
    (configUpdateCallback ParseLogExtractorConfigs ParseSpanExtractorConfigs e sc).spanExtractors
      = e.spanExtractors := by
  have h : configUpdateCallback ParseLogExtractorConfigs ParseSpanExtractorConfigs e sc = e := by
    simp [configUpdateCallback]
  rw [h]
  exact ⟨rfl, rfl, rfl⟩

end extractmetricsprocessor

namespace GoMap

variable {κ ν : Type} [DecidableEq κ]

theorem mem_of_get (m : List (κ × ν)) (k : κ) (v : ν) (h : get m k = some v) : (k, v) ∈ m := by
  induction m with
  | nil => simp [get] at h
  | cons p rest ih =>
    obtain ⟨k', v'⟩ := p
    by_cases e : k' = k
    · subst e
      simp only [get, if_true, Option.some.injEq] at h
      subst h
      exact List.mem_cons_self _ _
    · simp only [get, e, if_false] at h
      exact List.mem_cons_of_mem _ (ih h)

end GoMap

namespace boxer

/-- What `Close` does to each file: the closed one gets the flag, the others stay. -/
theorem osClose_getElem (files : List OSFile) (h j : Nat) :
    (osClose files h).2[j]? =
      (files[j]?).map (fun f => if j = h then { f with closed := true } else f) := by
  cases hf : files[h]? with
  | none =>
    simp only [osClose, hf]
    by_cases e : j = h
    · subst e
      simp [hf]
    · simp [e]
  | some f =>
    cases hc : f.closed with
    | true =>
      simp only [osClose, hf, hc, if_true]
      by_cases e : j = h
      · subst e
        rw [hf]
        simp only [Option.map_some', if_true, Option.some.injEq]
        cases f
        simp only at hc
        simp [hc]
      · simp [e]
    | false =>
      rw [osClose_of_open files h f hf hc]
      simp only
      rw [List.getElem?_set]
      by_cases e : h = j
      · subst e
        have hlt : h < files.length := (List.getElem?_eq_some_iff.1 hf).1
        simp [hlt, hf]
      · have e' : ¬ j = h := fun x => e x.symm
        simp [e, e']

theorem closeAll_getElem (handles : List Nat) :
    ∀ (errs : List Err) (files : List OSFile) (j : Nat),
      (closeAll handles errs files).2[j]? =
        (files[j]?).map (fun f => if j ∈ handles then { f with closed := true } else f) := by
  induction handles with
  | nil =>
    intro errs files j
    simp [closeAll]
  | cons h rest ih =>
    intro errs files j
    unfold closeAll
    simp only
    rw [ih, osClose_getElem]
    cases files[j]? with
    | none => rfl
    | some f =>
      simp only [Option.map_some', Option.some.injEq, List.mem_cons]
      by_cases e : j = h
      · by_cases e' : j ∈ rest
        · simp [e, e']
        · simp [e, e']
      · by_cases e' : j ∈ rest
        · simp [e, e']
        · simp [e, e']

theorem closeAll_length (handles : List Nat) :
    ∀ (errs : List Err) (files : List OSFile),
      (closeAll handles errs files).2.length = files.length := by
  induction handles with
  | nil => intro errs files; rfl
  | cons h rest ih =>
    intro errs files
    unfold closeAll
    simp only
    rw [ih]
    unfold osClose
    cases files[h]? with
    | none => rfl
    | some f =>
      by_cases hc : f.closed = true
      · simp [hc]
      · simp [hc]

theorem mem_handles_of_lookup (b : FilesystemBuffer) (i : Int) (s : String) (h : Nat)
    (hl : lookup b i s = some h) :
    h ∈ b.openFiles.flatMap (fun entry => entry.2.map Prod.snd) := by
  unfold lookup at hl
  cases hi : GoMap.get b.openFiles i with
  | none => simp [hi] at hl
  | some scopes =>
    simp only [hi] at hl
    rw [List.mem_flatMap]
    exact ⟨(i, scopes), GoMap.mem_of_get _ _ _ hi,
      List.mem_map_of_mem Prod.snd (GoMap.mem_of_get _ _ _ hl)⟩

theorem Shutdown_of_open (b : FilesystemBuffer) (hs : b.shutdown = false) :
    (Shutdown b).2 =
      { b with
        shutdown := true,
        openFiles := [],
        files := (closeAll (b.openFiles.flatMap (fun entry => entry.2.map Prod.snd))
          [] b.files).2 } := by
  simp [Shutdown, hs]

/-- C12. `Shutdown` closes handles but deletes nothing.  On a buffer reached from a new one by
any sequence of calls and not shut down: the file of every pair of the index, which was open
and in the directory, is closed and still in the directory; every file keeps its name, its
contents and its place in (or absence from) the directory, and no file is added or dropped;
the shutdown flag is set and the index is empty. -/
theorem Shutdown_closes_and_keeps_files (directory : String) (ops : List Op)
    (hs : (run (NewFilesystemBuffer directory) ops).shutdown = false) :
    (∀ i s h, lookup (run (NewFilesystemBuffer directory) ops) i s = some h →
      ∃ f : OSFile, (run (NewFilesystemBuffer directory) ops).files[h]? = some f ∧
        f.closed = false ∧ f.removed = false ∧
        (Shutdown (run (NewFilesystemBuffer directory) ops)).2.files[h]? =
          some { f with closed := true }) ∧
    (Shutdown (run (NewFilesystemBuffer directory) ops)).2.files.length =
      (run (NewFilesystemBuffer directory) ops).files.length ∧
    (∀ (j : Nat) (f : OSFile), (run (NewFilesystemBuffer directory) ops).files[j]? = some f →
      ∃ f' : OSFile, (Shutdown (run (NewFilesystemBuffer directory) ops)).2.files[j]? = some f' ∧
        f'.name = f.name ∧ f'.contents = f.contents ∧ f'.removed = f.removed) ∧
    (Shutdown (run (NewFilesystemBuffer directory) ops)).2.shutdown = true ∧
    (Shutdown (run (NewFilesystemBuffer directory) ops)).2.openFiles = [] ∧
    (Shutdown (run (NewFilesystemBuffer directory) ops)).2.directory =
      (run (NewFilesystemBuffer directory) ops).directory := by
  have hInv := Inv_run ops _ (Inv_NewFilesystemBuffer directory)
  generalize run (NewFilesystemBuffer directory) ops = b at hs hInv ⊢
  rw [Shutdown_of_open b hs]
  refine ⟨?_, closeAll_length _ _ _, ?_, rfl, rfl, rfl⟩
  · intro i s h hl
    obtain ⟨f, hf, hc, hr⟩ := hInv.1 i s h hl
    refine ⟨f, hf, hc, hr, ?_⟩
    show (closeAll _ [] b.files).2[h]? = _
    rw [closeAll_getElem, hf]
    simp [mem_handles_of_lookup b i s h hl]
  · intro j f hf
    show ∃ f' : OSFile, (closeAll _ [] b.files).2[j]? = some f' ∧ _
    rw [closeAll_getElem, hf]
    by_cases e : j ∈ b.openFiles.flatMap (fun entry => entry.2.map Prod.snd)
    · exact ⟨{ f with closed := true }, by simp [e], rfl, rfl, rfl⟩
    · exact ⟨f, by simp [e], rfl, rfl, rfl⟩

theorem Shutdown_closes_and_keeps_files_witness :
    (Shutdown (run (NewFilesystemBuffer "/tmp")
      [Op.write ⟨10, "svc", [1]⟩ (some "/tmp/buffer-1"),
       Op.write ⟨11, "db", [9]⟩ (some "/tmp/buffer-2")])).2.files.length =
      (run (NewFilesystemBuffer "/tmp")
      [Op.write ⟨10, "svc", [1]⟩ (some "/tmp/buffer-1"),
       Op.write ⟨11, "db", [9]⟩ (some "/tmp/buffer-2")]).files.length ∧
    (Shutdown (run (NewFilesystemBuffer "/tmp")
      [Op.write ⟨10, "svc", [1]⟩ (some "/tmp/buffer-1"),
       Op.write ⟨11, "db", [9]⟩ (some "/tmp/buffer-2")])).2 =
      { directory := "/tmp", openFiles := [], shutdown := true,
        files := [⟨"/tmp/buffer-1", [⟨10, "svc", [1]⟩], 1, true, false⟩,
                  ⟨"/tmp/buffer-2", [⟨11, "db", [9]⟩], 1, true, false⟩] } :=
  ⟨(Shutdown_closes_and_keeps_files "/tmp"
      [Op.write ⟨10, "svc", [1]⟩ (some "/tmp/buffer-1"),
       Op.write ⟨11, "db", [9]⟩ (some "/tmp/buffer-2")] (by decide)).2.1, by decide⟩

end boxer

namespace chqstatsprocessor

theorem statsLoop_eq {H E : Type} (GetEstimate : H → E)
    (ToCompactSlice : H → Option (List Nat)) (stats : List (MetricStat H)) :
    ∀ acc : List (MetricStats E),
      statsLoop GetEstimate ToCompactSlice stats acc =
        acc ++ stats.filterMap (reportEntry GetEstimate ToCompactSlice) := by
  induction stats with
  | nil => intro acc; simp [statsLoop]
  | cons ms rest ih =>
    intro acc
    unfold statsLoop
    cases hh : ms.HLL with
    | none =>
      simp only [ih]
      rw [List.filterMap_cons]
      simp [reportEntry, hh]
    | some hll =>
      cases hc : ToCompactSlice hll with
      | none =>
        simp only [hc, ih]
        rw [List.filterMap_cons]
        simp [reportEntry, hh, hc]
      | some b =>
        simp only [hc, ih]
        rw [List.filterMap_cons]
        simp [reportEntry, hh, hc]

theorem pileLoop_eq {H E : Type} (GetEstimate : H → E)
    (ToCompactSlice : H → Option (List Nat)) (bucketpile : List (Nat × List (MetricStat H))) :
    ∀ acc : List (MetricStats E),
      pileLoop GetEstimate ToCompactSlice bucketpile acc =
        acc ++ (bucketpile.flatMap Prod.snd).filterMap
          (reportEntry GetEstimate ToCompactSlice) := by
  induction bucketpile with
  | nil => intro acc; simp [pileLoop]
  | cons p rest ih =>
    intro acc
    obtain ⟨key, stats⟩ := p
    unfold pileLoop
    rw [ih, statsLoop_eq]
    simp [List.flatMap_cons, List.filterMap_append, List.append_assoc]

theorem reportEntry_of_nil {H E : Type} (GetEstimate : H → E)
    (ToCompactSlice : H → Option (List Nat)) (ms : MetricStat H)
    (h : ms.HLL.isSome = false) : reportEntry GetEstimate ToCompactSlice ms = none := by
  unfold reportEntry
  cases hh : ms.HLL with
  | none => rfl
  | some hll => simp [hh] at h

/-- C16. One bad group does not block the rest.  The entries of the report that
`sendMetricStats` assembles are, in the order of the pile, the entries of the stats whose
sketch is not nil and whose compact serialization succeeds, one for each, carrying the metric
name, service name, tag name, phase, count, vendor id, estimate and sketch bytes of the stat;
their number is the number of such stats; and the report of a pile is the report of the pile
without its stats whose sketch is nil. -/
theorem sendMetricStats_entries {H E : Type} (GetEstimate : H → E)
    (ToCompactSlice : H → Option (List Nat)) (now : Int)
    (bucketpile : List (Nat × List (MetricStat H))) :
    (sendMetricStats GetEstimate ToCompactSlice now bucketpile).Stats =
      (bucketpile.flatMap Prod.snd).filterMap (reportEntry GetEstimate ToCompactSlice) ∧
    (sendMetricStats GetEstimate ToCompactSlice now bucketpile).Stats.length =
      ((bucketpile.flatMap Prod.snd).filter
        (fun ms => (reportEntry GetEstimate ToCompactSlice ms).isSome)).length ∧
    (sendMetricStats GetEstimate ToCompactSlice now bucketpile).SubmittedAt = now ∧
    (sendMetricStats GetEstimate ToCompactSlice now
        (bucketpile.map (fun p => (p.1, p.2.filter (fun ms => ms.HLL.isSome))))).Stats =
      (sendMetricStats GetEstimate ToCompactSlice now bucketpile).Stats := by
  have h1 : ∀ pile : List (Nat × List (MetricStat H)),
      (sendMetricStats GetEstimate ToCompactSlice now pile).Stats =
        (pile.flatMap Prod.snd).filterMap (reportEntry GetEstimate ToCompactSlice) := by
    intro pile
    simp [sendMetricStats, pileLoop_eq]
  refine ⟨h1 bucketpile, ?_, rfl, ?_⟩
  · rw [h1]
    generalize bucketpile.flatMap Prod.snd = l
    induction l with
    | nil => rfl
    | cons ms rest ih =>
      rw [List.filterMap_cons, List.filter_cons]
      cases hr : reportEntry GetEstimate ToCompactSlice ms with
      | none => simpa [hr] using ih
      | some item => simpa [hr] using ih
  · rw [h1, h1]
    have hflat : (bucketpile.map (fun p => (p.1, p.2.filter (fun ms => ms.HLL.isSome)))).flatMap
        Prod.snd = (bucketpile.flatMap Prod.snd).filter (fun ms => ms.HLL.isSome) := by
      induction bucketpile with
      | nil => rfl
      | cons p rest ih =>
        simp only [List.map_cons, List.flatMap_cons, List.filter_append, ih]
    rw [hflat]
    generalize bucketpile.flatMap Prod.snd = l
    induction l with
    | nil => rfl
    | cons ms rest ih =>
      rw [List.filter_cons]
      cases hs : ms.HLL.isSome with
      | true =>
        simp only [if_true, List.filterMap_cons]
        rw [ih]
      | false =>
        simp only [Bool.false_eq_true, if_false, List.filterMap_cons]
        rw [reportEntry_of_nil GetEstimate ToCompactSlice ms hs]
        exact ih

end chqstatsprocessor

namespace chqauthextension

/-- C17. The auth cache expires lazily on lookup: `getcache` returns an entry exactly when
the cache holds it for the key and its expiry is not before the current time; for an entry
that has expired it returns nil and deletes the entry of the key; in the other cases the
cache is as before; and the entry of every other key is always as before. -/
theorem getcache_lazy_expiry (now : Int) (lookupCache : List (String × authData))
    (apiKey : String) :
    (∀ ad, (getcache now lookupCache apiKey).1 = some ad ↔
      GoMap.get lookupCache apiKey = some ad ∧ ¬ ad.expiry < now) ∧
    (∀ ad, GoMap.get lookupCache apiKey = some ad → ad.expiry < now →
      getcache now lookupCache apiKey = (none, GoMap.delete lookupCache apiKey) ∧
      GoMap.get (getcache now lookupCache apiKey).2 apiKey = none) ∧
    (GoMap.get lookupCache apiKey = none →
      getcache now lookupCache apiKey = (none, lookupCache)) ∧
    (∀ ad, GoMap.get lookupCache apiKey = some ad → ¬ ad.expiry < now →
      getcache now lookupCache apiKey = (some ad, lookupCache)) ∧
    (∀ k, k ≠ apiKey →
      GoMap.get (getcache now lookupCache apiKey).2 k = GoMap.get lookupCache k) := by
  refine ⟨?_, ?_, ?_, ?_, ?_⟩
  · intro ad
    unfold getcache
    cases hg : GoMap.get lookupCache apiKey with
    | none => simp
    | some ad' =>
      by_cases he : ad'.expiry < now
      · simp only [he, if_true, Option.some.injEq]
        constructor
        · intro h; exact absurd h (by simp)
        · rintro ⟨h1, h2⟩
          subst h1
          exact absurd he h2
      · simp only [he, if_false, Option.some.injEq]
        constructor
        · intro h; subst h; exact ⟨rfl, he⟩
        · rintro ⟨h1, _⟩; exact h1
  · intro ad hg he
    have e : getcache now lookupCache apiKey = (none, GoMap.delete lookupCache apiKey) := by
      simp [getcache, hg, he]
    rw [e]
    exact ⟨rfl, GoMap.get_delete_self _ _⟩
  · intro hg
    simp [getcache, hg]
  · intro ad hg he
    simp [getcache, hg, he]
  · intro k hk
    unfold getcache
    cases hg : GoMap.get lookupCache apiKey with
    | none => rfl
    | some ad' =>
      by_cases he : ad'.expiry < now
      · simp only [he, if_true]
        exact GoMap.get_delete_ne _ _ _ hk
      · simp only [he, if_false]

/-- C18. On a cache miss, when the validation endpoint answers with status 200 and a body
whose `valid` is false, `authenticateAPIKey` returns the entry with `valid = false` and a nil
error, and caches it; the next call for the same key, served from the cache, is denied. -/
theorem authenticateAPIKey_accepts_invalid_key :
    authenticateAPIKey 600 60 1000 1001 [] "key"
        (Response.status 200 (some ⟨false, "", ""⟩)) =
      (some ⟨"key", "", "", false, 1601⟩, none, [("key", ⟨"key", "", "", false, 1601⟩)]) ∧
    authenticateAPIKey 600 60 1002 1003 [("key", ⟨"key", "", "", false, 1601⟩)] "key"
        (Response.status 200 (some ⟨false, "", ""⟩)) =
      (none, some AuthError.errDenied, [("key", ⟨"key", "", "", false, 1601⟩)]) := by
  decide

end chqauthextension

namespace translate

theorem append_right_cancel (a b c : String) (h : a ++ c = b ++ c) : a = b := by
  apply String.ext
  have := congrArg String.data h
  simpa using this

/-- Folding the separator and the items onto a start adds a suffix that does not depend on
the start. -/
theorem foldl_sep_suffix (s : String) (l : List String) :
    ∃ post : String, ∀ a : String, l.foldl (fun acc x => acc ++ s ++ x) a = a ++ post := by
  induction l with
  | nil => exact ⟨"", fun a => by simp⟩
  | cons y rest ih =>
    obtain ⟨post, hpost⟩ := ih
    refine ⟨s ++ y ++ post, fun a => ?_⟩
    rw [List.foldl_cons, hpost]
    simp [String.append_assoc]

/-- The joined string as a function of one of its items. -/
theorem intercalate_split (s : String) (A B : List String) :
    ∃ pre post : String, ∀ x : String, s.intercalate (A ++ x :: B) = pre ++ x ++ post := by
  obtain ⟨post, hpost⟩ := foldl_sep_suffix s B
  cases A with
  | nil =>
    refine ⟨"", post, fun x => ?_⟩
    simp only [List.nil_append, String.intercalate, intercalate_go_eq_foldl, hpost]
    simp
  | cons a rest =>
    refine ⟨rest.foldl (fun acc x => acc ++ s ++ x) a ++ s, post, fun x => ?_⟩
    simp only [List.cons_append, String.intercalate, intercalate_go_eq_foldl,
      List.foldl_append, List.foldl_cons, hpost]

theorem intercalate_ne_of_item_ne (s : String) (A B : List String) (x y : String)
    (h : x ≠ y) : s.intercalate (A ++ x :: B) ≠ s.intercalate (A ++ y :: B) := by
  obtain ⟨pre, post, hsplit⟩ := intercalate_split s A B
  rw [hsplit x, hsplit y]
  intro e
  have e1 : pre ++ x = pre ++ y := append_right_cancel _ _ _ e
  exact h (append_left_cancel _ _ _ e1)

theorem foldl_sep_length (l : List String) :
    ∀ a : String, (l.foldl (fun acc x => acc ++ ":" ++ x) a).length =
      a.length + (l.map (fun x => x.length + 1)).sum := by
  induction l with
  | nil => intro a; simp
  | cons y rest ih =>
    intro a
    rw [List.foldl_cons, ih]
    simp only [String.length_append, List.map_cons, List.sum_cons]
    have : ":".length = 1 := by decide
    omega

/-- The length of the joined string, counted with one separator for each item. -/
theorem intercalate_length (l : List String) (h : l ≠ []) :
    (":".intercalate l).length + 1 = (l.map (fun x => x.length + 1)).sum := by
  cases l with
  | nil => exact absurd rfl h
  | cons a rest =>
    simp only [String.intercalate, intercalate_go_eq_foldl, foldl_sep_length, List.map_cons,
      List.sum_cons]
    omega

/-- Leaving a key and its non-empty value out of the items changes the joined string. -/
theorem intercalate_ne_of_pair_removed (X Y : List String) (k v : String) (hv : v ≠ "") :
    ":".intercalate (X ++ [k, v] ++ Y) ≠ ":".intercalate (X ++ Y) := by
  intro e
  have hlen := congrArg String.length e
  have hvlen : 0 < v.length := by
    cases hd : v.data with
    | nil => exact absurd (String.ext hd) hv
    | cons c cs =>
      have : v.length = (c :: cs).length := by rw [← hd]; rfl
      rw [this]
      simp
  have h1 := intercalate_length (X ++ [k, v] ++ Y) (by simp)
  simp only [List.map_append, List.sum_append, List.map_cons, List.sum_cons, List.map_nil,
    List.sum_nil] at h1
  by_cases hxy : X ++ Y = []
  · rw [hxy] at hlen
    have hX : X = [] := (List.append_eq_nil.1 hxy).1
    have hY : Y = [] := (List.append_eq_nil.1 hxy).2
    subst hX hY
    simp only [List.map_nil, List.sum_nil] at h1
    have h0 : (":".intercalate ([] : List String)).length = 0 := by decide
    omega
  · have h2 := intercalate_length (X ++ Y) hxy
    simp only [List.map_append, List.sum_append] at h2
    omega

theorem nodup_sorted_keys (m : TagMap) (p : String → Bool) (h : (GoMap.keys m).Nodup) :
    (sortStrings ((GoMap.keys m).filter p)).Nodup :=
  (sortStrings_perm _).nodup_iff.2 (h.filter p)

theorem valueOf_of_get (m : TagMap) (k v : String) (h : GoMap.get m k = some v) :
    valueOf m k = v := by
  simp [valueOf, h]

theorem mem_keys_of_get (m : TagMap) (k v : String) (h : GoMap.get m k = some v) :
    k ∈ GoMap.keys m := by
  by_contra hn
  rw [(GoMap.get_eq_none_iff m k).2 hn] at h
  exact absurd h (by simp)

/-- The items of a map with key-unique entries, split at a key with a non-empty value. -/
theorem tidItems_split (m : TagMap) (k v : String) (hnd : (GoMap.keys m).Nodup)
    (hget : GoMap.get m k = some v) (hv : v ≠ "") :
    ∃ L₁ L₂ : List String,
      sortStrings ((GoMap.keys m).filter (fun k' => decide (valueOf m k' ≠ ""))) =
        L₁ ++ k :: L₂ ∧ k ∉ L₁ ∧ k ∉ L₂ ∧
      tidItems m = L₁.flatMap (fun k' => [k', valueOf m k']) ++ [k, v] ++
        L₂.flatMap (fun k' => [k', valueOf m k']) := by
  have hval := valueOf_of_get m k v hget
  have hmem : k ∈ sortStrings ((GoMap.keys m).filter (fun k' => decide (valueOf m k' ≠ ""))) := by
    rw [(sortStrings_perm _).mem_iff, List.mem_filter]
    exact ⟨mem_keys_of_get m k v hget, by simp [hval, hv]⟩
  obtain ⟨L₁, L₂, hsplit⟩ := List.append_of_mem hmem
  have hnodup := nodup_sorted_keys m (fun k' => decide (valueOf m k' ≠ "")) hnd
  rw [hsplit] at hnodup
  have hk1 : k ∉ L₁ := by
    intro hx
    have := (List.nodup_append.1 hnodup).2.2
    exact this hx (List.mem_cons_self _ _)
  have hk2 : k ∉ L₂ := by
    have := (List.nodup_append.1 hnodup).2.1
    exact (List.nodup_cons.1 this).1
  refine ⟨L₁, L₂, hsplit, hk1, hk2, ?_⟩
  rw [tidItems_eq, hsplit]
  simp [List.flatMap_append, List.flatMap_cons, hval]


theorem flatMap_valueOf_set (m : TagMap) (k v' : String) (L : List String) (hk : k ∉ L) :
    L.flatMap (fun k' => [k', valueOf (GoMap.set m k v') k']) =
      L.flatMap (fun k' => [k', valueOf m k']) := by
  apply List.flatMap_congr
  intro k' hk'
  have : k' ≠ k := fun e => hk (e ▸ hk')
  rw [valueOf_set_ne m k k' v' this]

theorem filter_ne_of_split (L₁ L₂ : List String) (k : String) (h1 : k ∉ L₁) (h2 : k ∉ L₂) :
    (L₁ ++ k :: L₂).filter (fun k' => decide (k' ≠ k)) = L₁ ++ L₂ := by
  have e1 : L₁.filter (fun k' => decide (k' ≠ k)) = L₁ := by
    apply List.filter_eq_self.2
    intro a ha
    simp only [ne_eq, decide_eq_true_eq]
    exact fun e => h1 (e ▸ ha)
  have e2 : L₂.filter (fun k' => decide (k' ≠ k)) = L₂ := by
    apply List.filter_eq_self.2
    intro a ha
    simp only [ne_eq, decide_eq_true_eq]
    exact fun e => h2 (e ▸ ha)
  rw [List.filter_append, List.filter_cons, e1, e2]
  simp

theorem tidString_set_ne (m : TagMap) (k v v' : String) (hnd : (GoMap.keys m).Nodup)
    (hget : GoMap.get m k = some v) (hv : v ≠ "") (hne : v' ≠ v) :
    tidString (GoMap.set m k v') ≠ tidString m := by
  obtain ⟨L₁, L₂, hsplit, hk1, hk2, hitems⟩ := tidItems_split m k v hnd hget hv
  have hval := valueOf_of_get m k v hget
  have hmem := mem_keys_of_get m k v hget
  have hkeys : GoMap.keys (GoMap.set m k v') = GoMap.keys m := GoMap.keys_set_of_mem m k v' hmem
  unfold tidString
  rw [hitems]
  by_cases hv' : v' = ""
  · -- the key leaves the items
    subst hv'
    have hfilter : (GoMap.keys m).filter
          (fun k' => decide (valueOf (GoMap.set m k "") k' ≠ "")) =
        ((GoMap.keys m).filter (fun k' => decide (valueOf m k' ≠ ""))).filter
          (fun k' => decide (k' ≠ k)) := by
      rw [List.filter_filter]
      apply List.filter_congr
      intro k' _
      by_cases e : k' = k
      · subst e
        simp [valueOf_set_self]
      · simp [valueOf_set_ne m k k' "" e, e]
    have hitems' : tidItems (GoMap.set m k "") =
        L₁.flatMap (fun k' => [k', valueOf m k']) ++
          L₂.flatMap (fun k' => [k', valueOf m k']) := by
      rw [tidItems_eq, hkeys, hfilter, ← sortStrings_filter, hsplit,
        filter_ne_of_split L₁ L₂ k hk1 hk2, List.flatMap_append,
        flatMap_valueOf_set m k "" L₁ hk1, flatMap_valueOf_set m k "" L₂ hk2]
    rw [hitems']
    exact (intercalate_ne_of_pair_removed _ _ k v hv).symm
  · -- the value changes in place
    have hfilter : (GoMap.keys m).filter
          (fun k' => decide (valueOf (GoMap.set m k v') k' ≠ "")) =
        (GoMap.keys m).filter (fun k' => decide (valueOf m k' ≠ "")) := by
      apply List.filter_congr
      intro k' _
      by_cases e : k' = k
      · subst e
        simp [valueOf_set_self, hval, hv, hv']
      · rw [valueOf_set_ne m k k' v' e]
    have hitems' : tidItems (GoMap.set m k v') =
        L₁.flatMap (fun k' => [k', valueOf m k']) ++ [k, v'] ++
          L₂.flatMap (fun k' => [k', valueOf m k']) := by
      rw [tidItems_eq, hkeys, hfilter, hsplit, List.flatMap_append, List.flatMap_cons,
        flatMap_valueOf_set m k v' L₁ hk1, flatMap_valueOf_set m k v' L₂ hk2,
        valueOf_set_self]
      simp
    rw [hitems']
    have e1 : ∀ x : String, L₁.flatMap (fun k' => [k', valueOf m k']) ++ [k, x] ++
        L₂.flatMap (fun k' => [k', valueOf m k']) =
        (L₁.flatMap (fun k' => [k', valueOf m k']) ++ [k]) ++
          x :: L₂.flatMap (fun k' => [k', valueOf m k']) := by
      intro x; simp
    rw [e1 v', e1 v]
    exact intercalate_ne_of_item_ne ":" _ _ v' v hne

theorem int64_eq_imp (x y : Nat) (h : int64 x = int64 y) : x % 2 ^ 64 = y % 2 ^ 64 := by
  unfold int64 at h
  have hx : x % 2 ^ 64 < 2 ^ 64 := Nat.mod_lt _ (by decide)
  have hy : y % 2 ^ 64 < 2 ^ 64 := Nat.mod_lt _ (by decide)
  generalize x % 2 ^ 64 = a at h hx ⊢
  generalize y % 2 ^ 64 = b at h hy ⊢
  split at h <;> split at h <;> omega

/-- C11. Changing a non-empty value changes the hashed content: for a tag map `m` (each key
once), a key `k` whose value `v` in `m` is not empty and a value `v'` other than `v` (empty
or not), the string that `calculateTID` hashes for `m` with `k` set to `v'` differs from the
one for `m`; the two identities are equal only if xxhash-64 gives these two different strings
the same 64-bit value. -/
theorem tidString_changes_with_value (m : TagMap) (k v v' : String)
    (hnd : (GoMap.keys m).Nodup) (hget : GoMap.get m k = some v) (hv : v ≠ "")
    (hne : v' ≠ v) :
    tidString (GoMap.set m k v') ≠ tidString m ∧
    (calculateTID (GoMap.set m k v') = calculateTID m →
      xxhash.Sum64String (tidString (GoMap.set m k v')) % 2 ^ 64 =
        xxhash.Sum64String (tidString m) % 2 ^ 64) :=
  ⟨tidString_set_ne m k v v' hnd hget hv hne, fun h => int64_eq_imp _ _ h⟩

theorem tidString_changes_with_value_witness :
    tidString (GoMap.set [("a", "b:c"), ("d", "e")] "a" "b") ≠
      tidString [("a", "b:c"), ("d", "e")] ∧
    tidString (GoMap.set [("a", "b:c"), ("d", "e")] "a" "") ≠
      tidString [("a", "b:c"), ("d", "e")] :=
  ⟨(tidString_changes_with_value [("a", "b:c"), ("d", "e")] "a" "b:c" "b"
      (by decide) (by decide) (by decide) (by decide)).1,
   (tidString_changes_with_value [("a", "b:c"), ("d", "e")] "a" "b:c" ""
      (by decide) (by decide) (by decide) (by decide)).1⟩

end translate

namespace translate

/-! ## The joined string as an encoding of the tag set -/

theorem colon_cut_unique (a b P Q : List Char) (ha : ':' ∉ a) (hb : ':' ∉ b)
    (h : a ++ ':' :: P = b ++ ':' :: Q) : a = b ∧ P = Q := by
  induction a generalizing b with
  | nil =>
    cases b with
    | nil => simpa using h
    | cons y b' =>
      simp only [List.nil_append, List.cons_append, List.cons.injEq] at h
      exact absurd (by rw [← h.1]; exact List.mem_cons_self _ _) hb
  | cons x a' ih =>
    cases b with
    | nil =>
      simp only [List.nil_append, List.cons_append, List.cons.injEq] at h
      exact absurd (by rw [h.1]; exact List.mem_cons_self _ _) ha
    | cons y b' =>
      simp only [List.cons_append, List.cons.injEq] at h
      have ha' : ':' ∉ a' := fun hm => ha (List.mem_cons_of_mem _ hm)
      have hb' : ':' ∉ b' := fun hm => hb (List.mem_cons_of_mem _ hm)
      obtain ⟨e1, e2⟩ := ih b' ha' hb' h.2
      exact ⟨by rw [h.1, e1], e2⟩

theorem foldl_sep_append (s : String) (l : List String) (a b : String) :
    l.foldl (fun acc x => acc ++ s ++ x) (a ++ b) =
      a ++ l.foldl (fun acc x => acc ++ s ++ x) b := by
  induction l generalizing b with
  | nil => rfl
  | cons y rest ih =>
    simp only [List.foldl_cons]
    rw [← ih]
    simp only [String.append_assoc]

theorem intercalate_cons_cons (s a y : String) (rest : List String) :
    s.intercalate (a :: y :: rest) = a ++ s ++ s.intercalate (y :: rest) := by
  simp only [String.intercalate, intercalate_go_eq_foldl, List.foldl_cons]
  rw [foldl_sep_append]

theorem intercalate_singleton (s a : String) : s.intercalate [a] = a := by
  simp [String.intercalate, intercalate_go_eq_foldl]

theorem colon_mem_intercalate (a y : String) (rest : List String) :
    ':' ∈ (":".intercalate (a :: y :: rest)).data := by
  rw [intercalate_cons_cons]
  simp [String.data_append]

/-- Joining with `:` loses nothing on non-empty lists of items that hold no `:`. -/
theorem intercalate_injective_of_no_colon (l₁ l₂ : List String) (hne₁ : l₁ ≠ [])
    (hne₂ : l₂ ≠ []) (h₁ : ∀ x ∈ l₁, ':' ∉ x.data) (h₂ : ∀ x ∈ l₂, ':' ∉ x.data)
    (h : ":".intercalate l₁ = ":".intercalate l₂) : l₁ = l₂ := by
  induction l₁ generalizing l₂ with
  | nil => exact absurd rfl hne₁
  | cons a r₁ ih =>
    cases l₂ with
    | nil => exact absurd rfl hne₂
    | cons b r₂ =>
      cases r₁ with
      | nil =>
        cases r₂ with
        | nil =>
          rw [intercalate_singleton, intercalate_singleton] at h
          rw [h]
        | cons y r₂' =>
          rw [intercalate_singleton] at h
          exact absurd (h ▸ colon_mem_intercalate b y r₂') (h₁ a (List.mem_cons_self _ _))
      | cons x r₁' =>
        cases r₂ with
        | nil =>
          rw [intercalate_singleton] at h
          exact absurd (h ▸ colon_mem_intercalate a x r₁') (h₂ b (List.mem_cons_self _ _))
        | cons y r₂' =>
          rw [intercalate_cons_cons, intercalate_cons_cons] at h
          have hd := congrArg String.data h
          simp only [String.data_append] at hd
          simp only [List.append_assoc, List.singleton_append] at hd
          obtain ⟨e1, e2⟩ := colon_cut_unique _ _ _ _ (h₁ a (List.mem_cons_self _ _))
            (h₂ b (List.mem_cons_self _ _)) hd
          have ea : a = b := String.ext e1
          have er : ":".intercalate (x :: r₁') = ":".intercalate (y :: r₂') := String.ext e2
          have := ih (y :: r₂') (List.cons_ne_nil _ _) (List.cons_ne_nil _ _)
            (fun z hz => h₁ z (List.mem_cons_of_mem _ hz))
            (fun z hz => h₂ z (List.mem_cons_of_mem _ hz)) er
          rw [ea, this]

theorem flatMap_pairs_injective (f g : String → String) (L₁ L₂ : List String)
    (h : L₁.flatMap (fun k => [k, f k]) = L₂.flatMap (fun k => [k, g k])) :
    L₁ = L₂ ∧ ∀ k ∈ L₁, f k = g k := by
  induction L₁ generalizing L₂ with
  | nil =>
    cases L₂ with
    | nil => exact ⟨rfl, fun k hk => absurd hk (List.not_mem_nil _)⟩
    | cons b r₂ => simp at h
  | cons a r₁ ih =>
    cases L₂ with
    | nil => simp at h
    | cons b r₂ =>
      simp only [List.flatMap_cons, List.cons_append, List.nil_append, List.cons.injEq] at h
      obtain ⟨e, hv⟩ := ih r₂ h.2.2
      refine ⟨by rw [h.1, e], ?_⟩
      intro k hk
      rcases List.mem_cons.1 hk with hk | hk
      · rw [hk, h.2.1, h.1]
      · exact hv k hk

/-- The keys that `calculateTID` keeps. -/
theorem mem_kept_keys (m : TagMap) (k : String) :
    k ∈ sortStrings ((GoMap.keys m).filter (fun k => decide (valueOf m k ≠ ""))) ↔
      ∃ v, GoMap.get m k = some v ∧ v ≠ "" := by
  rw [(sortStrings_perm _).mem_iff, List.mem_filter]
  constructor
  · rintro ⟨hk, hv⟩
    cases hg : GoMap.get m k with
    | none => exact absurd hk ((GoMap.get_eq_none_iff m k).1 hg)
    | some v =>
      refine ⟨v, rfl, ?_⟩
      have : valueOf m k = v := by simp [valueOf, hg]
      rw [this] at hv
      simpa using hv
  · rintro ⟨v, hg, hv⟩
    refine ⟨?_, ?_⟩
    · by_contra hk
      rw [(GoMap.get_eq_none_iff m k).2 hk] at hg
      exact Option.noConfusion hg
    · have : valueOf m k = v := by simp [valueOf, hg]
      rw [this]
      simpa using hv

theorem tidItems_no_colon (m : TagMap) (h : ∀ p ∈ m, ':' ∉ p.1.data ∧ ':' ∉ p.2.data) :
    ∀ x ∈ tidItems m, ':' ∉ x.data := by
  intro x hx
  rw [tidItems_eq, List.mem_flatMap] at hx
  obtain ⟨k, hk, hxk⟩ := hx
  obtain ⟨v, hg, _⟩ := (mem_kept_keys m k).1 hk
  have hmem : (k, v) ∈ m := GoMap.mem_of_get m k v hg
  have hval : valueOf m k = v := by simp [valueOf, hg]
  rw [hval] at hxk
  rcases List.mem_cons.1 hxk with e | e
  · rw [e]; exact (h _ hmem).1
  · rw [List.mem_singleton.1 e]; exact (h _ hmem).2

theorem tidItems_ne_singleton (m : TagMap) : tidItems m = [] ∨
    ∃ a y rest, tidItems m = a :: y :: rest := by
  rw [tidItems_eq]
  cases sortStrings ((GoMap.keys m).filter (fun k => decide (valueOf m k ≠ ""))) with
  | nil => exact Or.inl rfl
  | cons k rest => exact Or.inr ⟨k, valueOf m k, _, rfl⟩

theorem tidItems_eq_of_tidString_eq (m₁ m₂ : TagMap)
    (h₁ : ∀ p ∈ m₁, ':' ∉ p.1.data ∧ ':' ∉ p.2.data)
    (h₂ : ∀ p ∈ m₂, ':' ∉ p.1.data ∧ ':' ∉ p.2.data)
    (h : tidString m₁ = tidString m₂) : tidItems m₁ = tidItems m₂ := by
  unfold tidString at h
  have hempty : (":".intercalate ([] : List String)) = "" := rfl
  have hne : ∀ a y rest, ":".intercalate (a :: y :: rest) ≠ "" := by
    intro a y rest e
    have := colon_mem_intercalate a y rest
    rw [e] at this
    exact absurd this (by decide)
  rcases tidItems_ne_singleton m₁ with e₁ | ⟨a, x, r₁, e₁⟩ <;>
    rcases tidItems_ne_singleton m₂ with e₂ | ⟨b, y, r₂, e₂⟩
  · rw [e₁, e₂]
  · rw [e₁, e₂, hempty] at h
    exact absurd h.symm (hne _ _ _)
  · rw [e₁, e₂, hempty] at h
    exact absurd h (hne _ _ _)
  · exact intercalate_injective_of_no_colon _ _ (by rw [e₁]; exact List.cons_ne_nil _ _)
      (by rw [e₂]; exact List.cons_ne_nil _ _) (tidItems_no_colon m₁ h₁)
      (tidItems_no_colon m₂ h₂) h

theorem get_eq_of_tidItems_eq (m₁ m₂ : TagMap) (h : tidItems m₁ = tidItems m₂)
    (k v : String) (hv : v ≠ "") (hg : GoMap.get m₁ k = some v) : GoMap.get m₂ k = some v := by
  rw [tidItems_eq, tidItems_eq] at h
  obtain ⟨hL, hval⟩ := flatMap_pairs_injective _ _ _ _ h
  have hk₁ : k ∈ sortStrings ((GoMap.keys m₁).filter (fun k => decide (valueOf m₁ k ≠ ""))) :=
    (mem_kept_keys m₁ k).2 ⟨v, hg, hv⟩
  have hk₂ := hk₁
  rw [hL] at hk₂
  obtain ⟨w, hw, _⟩ := (mem_kept_keys m₂ k).1 hk₂
  have e := hval k hk₁
  have e₁ : valueOf m₁ k = v := by simp [valueOf, hg]
  have e₂ : valueOf m₂ k = w := by simp [valueOf, hw]
  rw [e₁, e₂] at e
  rw [hw, e]

/-- C21. For tag maps whose keys and values hold no `:`, the string that `calculateTID`
hashes is an injective encoding of the filtered tag set: when the two maps differ in some
(key, value) pair with a non-empty value, the joined strings differ. -/
theorem tidString_injective_of_no_colon (m₁ m₂ : TagMap)
    (h₁ : ∀ p ∈ m₁, ':' ∉ p.1.data ∧ ':' ∉ p.2.data)
    (h₂ : ∀ p ∈ m₂, ':' ∉ p.1.data ∧ ':' ∉ p.2.data)
    (hdiff : ∃ k v, v ≠ "" ∧ ¬ (GoMap.get m₁ k = some v ↔ GoMap.get m₂ k = some v)) :
    tidString m₁ ≠ tidString m₂ := by
  intro h
  have hitems := tidItems_eq_of_tidString_eq m₁ m₂ h₁ h₂ h
  obtain ⟨k, v, hv, hn⟩ := hdiff
  exact hn ⟨get_eq_of_tidItems_eq m₁ m₂ hitems k v hv,
    get_eq_of_tidItems_eq m₂ m₁ hitems.symm k v hv⟩

theorem tidString_injective_of_no_colon_witness :
    tidString [("a", "b"), ("c", "d")] ≠ tidString [("a", "b"), ("c", "e")] :=
  tidString_injective_of_no_colon [("a", "b"), ("c", "d")] [("a", "b"), ("c", "e")]
    (by decide) (by decide) ⟨"c", "d", by decide, by decide⟩

theorem tidString_colon_counterexample :
    (GoMap.get [("a", "b:c")] "a" = some "b:c" ∧ GoMap.get [("a:b", "c")] "a" = none) ∧
    tidString [("a", "b:c")] = tidString [("a:b", "c")] ∧
    calculateTID [("a", "b:c")] = calculateTID [("a:b", "c")] := by
  decide

end translate

/-! ## The two Datadog tag parsers -/

namespace chqdatadogreceiver

theorem splitOn_ne_nil (sep : Char) (s : List Char) : splitOn sep s ≠ [] := by
  induction s with
  | nil => simp [splitOn]
  | cons c rest ih =>
    unfold splitOn
    by_cases hc : c = sep
    · simp [hc]
    · rw [if_neg hc]
      cases h : splitOn sep rest with
      | nil => exact absurd h ih
      | cons piece pieces => simp

theorem splitOn_length (sep : Char) (s : List Char) :
    (splitOn sep s).length = s.count sep + 1 := by
  induction s with
  | nil => simp [splitOn]
  | cons c rest ih =>
    unfold splitOn
    by_cases hc : c = sep
    · simp [hc, ih]
    · rw [if_neg hc]
      cases h : splitOn sep rest with
      | nil => exact absurd h (splitOn_ne_nil sep rest)
      | cons piece pieces =>
        rw [h] at ih
        rw [List.count_cons_of_ne (Ne.symm hc)]
        simpa using ih

theorem splitOn_of_not_mem (sep : Char) (s : List Char) (h : sep ∉ s) :
    splitOn sep s = [s] := by
  induction s with
  | nil => simp [splitOn]
  | cons c rest ih =>
    have hc : c ≠ sep := fun e => h (e ▸ List.mem_cons_self _ _)
    have hr : sep ∉ rest := fun hm => h (List.mem_cons_of_mem _ hm)
    unfold splitOn
    rw [if_neg hc, ih hr]

theorem cutFirst_append (sep : Char) (k v : List Char) (h : sep ∉ k) :
    cutFirst sep (k ++ sep :: v) = some (k, v) := by
  induction k with
  | nil => simp [cutFirst]
  | cons c rest ih =>
    have hc : c ≠ sep := fun e => h (e ▸ List.mem_cons_self _ _)
    have hr : sep ∉ rest := fun hm => h (List.mem_cons_of_mem _ hm)
    simp only [List.cons_append]
    unfold cutFirst
    rw [if_neg hc, ih hr]

theorem addTag_of_length_ne (tagMap : List (String × String)) (kv : List String)
    (h : kv.length ≠ 2) : addTag tagMap kv = tagMap := by
  match kv, h with
  | [], _ => rfl
  | [_], _ => rfl
  | [_, _], h => exact absurd rfl h
  | _ :: _ :: _ :: _, _ => rfl

theorem tag_data (k v : String) : (k ++ ":" ++ v).data = k.data ++ ':' :: v.data := by
  simp [String.data_append]

/-- C22. The two Datadog tag parsers differ on a tag whose value holds a further `:`: for a
tag `k:v` without a comma, with a non-empty key `k` that holds no `:` and a value `v` that
holds one, `splitTags` of the joined tags leaves the tag out, while `splitTagSlice` stores
the value `v` under the key `k`. -/
theorem splitTags_drops_value_with_colon (k v : String) (hk : k ≠ "")
    (hkc : ':' ∉ k.data) (hkm : ',' ∉ k.data) (hvc : ':' ∈ v.data) (hvm : ',' ∉ v.data) :
    splitTags (Join [k ++ ":" ++ v] ",") = [] ∧
    splitTagSlice [k ++ ":" ++ v] = [(TrimSpace k, TrimSpace v)] := by
  have hv : v ≠ "" := by
    intro e
    rw [e] at hvc
    exact absurd hvc (by decide)
  have hne : k ++ ":" ++ v ≠ "" := by
    intro e
    have := congrArg String.data e
    rw [tag_data] at this
    cases hkd : k.data with
    | nil => rw [hkd] at this; exact List.noConfusion this
    | cons c r => rw [hkd] at this; exact List.noConfusion this
  constructor
  · have hj : Join [k ++ ":" ++ v] "," = k ++ ":" ++ v := by
      simp [Join, String.intercalate, String.intercalate.go]
    have hcomma : ',' ∉ (k ++ ":" ++ v).data := by
      rw [tag_data]
      intro hm
      rcases List.mem_append.1 hm with hm | hm
      · exact hkm hm
      · rcases List.mem_cons.1 hm with hm | hm
        · exact absurd hm (by decide)
        · exact hvm hm
    have hlen : (Split (k ++ ":" ++ v) ':').length ≠ 2 := by
      unfold Split
      rw [List.length_map, splitOn_length, tag_data, List.count_append, List.count_cons_self]
      have : 0 < v.data.count ':' := List.count_pos_iff.2 hvc
      omega
    rw [hj]
    unfold splitTags
    simp only
    rw [if_neg hne]
    unfold Split at hlen ⊢
    rw [splitOn_of_not_mem _ _ hcomma]
    simp only [List.map_cons, List.map_nil, List.foldl_cons, List.foldl_nil]
    exact addTag_of_length_ne _ _ hlen
  · unfold splitTagSlice
    simp only [List.foldl_cons, List.foldl_nil]
    unfold SplitN2
    rw [tag_data, cutFirst_append _ _ _ hkc]
    simp only [addTag]
    rw [if_pos ⟨hv, hk⟩]
    rfl

theorem splitTags_drops_value_with_colon_witness :
    splitTags (Join ["url:http://x"] ",") = [] ∧
    splitTagSlice ["url:http://x"] = [("url", "http://x")] :=
  splitTags_drops_value_with_colon "url" "http://x" (by decide) (by decide) (by decide)
    (by decide) (by decide)

end chqdatadogreceiver

namespace spantagger

/-! ## The span tree: a fresh chain for every path -/

theorem sizeList_append (a b : List spanNode) :
    sizeList (a ++ b) = sizeList a + sizeList b := by
  induction a with
  | nil => simp [sizeList]
  | cons n rest ih => simp [sizeList, ih, Nat.add_assoc]

theorem sizeList_chain (elements : List spanelement) :
    sizeList (chain elements) = elements.length := by
  induction elements with
  | nil => simp [chain, sizeList]
  | cons e rest ih =>
    simp only [chain, sizeList, spanNode.size, ih, List.length_cons]
    omega

theorem sizeList_flatMap_chain (paths : List (List spanelement)) :
    sizeList (paths.flatMap (fun path => chain (path.drop 1))) =
      (paths.map (fun path => path.length - 1)).sum := by
  induction paths with
  | nil => simp [sizeList]
  | cons p rest ih =>
    simp only [List.flatMap_cons, sizeList_append, ih, sizeList_chain, List.length_drop,
      List.map_cons, List.sum_cons]

theorem set_eq_self_of_get {α : Type} (l : List α) (i : Nat) (x : α) (h : l[i]? = some x) :
    l.set i x = l := by
  induction l generalizing i with
  | nil => rfl
  | cons a rest ih =>
    cases i with
    | zero =>
      simp only [List.getElem?_cons_zero, Option.some.injEq] at h
      rw [List.set_cons_zero, h]
    | succ j =>
      simp only [List.getElem?_cons_succ] at h
      rw [List.set_cons_succ, ih j h]

theorem appendChild_eq_graft (current : List Nat) (root newChild : spanNode) :
    appendChild current root newChild = graft current root [newChild] := by
  induction current generalizing root with
  | nil => cases root; rfl
  | cons i rest ih =>
    cases root with
    | mk t sv id nm kd st children =>
      simp only [appendChild, graft]
      cases children[i]? with
      | none => rfl
      | some child => simp only [ih]

theorem graft_nil (current : List Nat) (root : spanNode) : graft current root [] = root := by
  induction current generalizing root with
  | nil => cases root; simp [graft]
  | cons i rest ih =>
    cases root with
    | mk t sv id nm kd st children =>
      simp only [graft]
      cases h : children[i]? with
      | none => rfl
      | some child =>
        simp only [ih]
        rw [set_eq_self_of_get children i child h]

theorem lenChildren_graft (current : List Nat) (root n : spanNode) (extra : List spanNode)
    (h : nodeAt current root = some n) :
    lenChildren current (graft current root extra) = n.Children.length + extra.length := by
  induction current generalizing root with
  | nil =>
    cases root with
    | mk t sv id nm kd st children =>
      simp only [nodeAt, Option.some.injEq] at h
      subst h
      simp [graft, lenChildren, spanNode.Children]
  | cons i rest ih =>
    cases root with
    | mk t sv id nm kd st children =>
      simp only [nodeAt, spanNode.Children] at h
      cases hc : children[i]? with
      | none => rw [hc] at h; exact Option.noConfusion h
      | some child =>
        rw [hc] at h
        have hi : i < children.length := (List.getElem?_eq_some_iff.1 hc).1
        simp only [graft, hc, lenChildren, spanNode.Children]
        rw [List.getElem?_set_self hi]
        exact ih child h

/-- Grafting under the child that was grafted last is grafting that child with the further
children. -/
theorem graft_graft (current : List Nat) (root n : spanNode)
    (t sv id nm kd st : String) (ch extra : List spanNode)
    (h : nodeAt current root = some n) :
    graft (current ++ [n.Children.length])
        (graft current root [spanNode.mk t sv id nm kd st ch]) extra =
      graft current root [spanNode.mk t sv id nm kd st (ch ++ extra)] := by
  induction current generalizing root with
  | nil =>
    cases root with
    | mk t' sv' id' nm' kd' st' children =>
      simp only [nodeAt, Option.some.injEq] at h
      subst h
      simp only [List.nil_append, spanNode.Children, graft]
      have hget : (children ++ [spanNode.mk t sv id nm kd st ch])[children.length]? =
          some (spanNode.mk t sv id nm kd st ch) := by simp
      rw [hget]
      simp only [graft]
      congr 1
      simp
  | cons i rest ih =>
    cases root with
    | mk t' sv' id' nm' kd' st' children =>
      simp only [nodeAt, spanNode.Children] at h
      cases hc : children[i]? with
      | none => rw [hc] at h; exact Option.noConfusion h
      | some child =>
        rw [hc] at h
        have hi : i < children.length := (List.getElem?_eq_some_iff.1 hc).1
        simp only [List.cons_append, graft, hc]
        rw [List.getElem?_set_self hi]
        simp only [List.set_set]
        rw [ih child h]

theorem nodeAt_graft (current : List Nat) (root n c : spanNode)
    (h : nodeAt current root = some n) :
    nodeAt (current ++ [n.Children.length]) (graft current root [c]) = some c := by
  induction current generalizing root with
  | nil =>
    cases root with
    | mk t sv id nm kd st children =>
      simp only [nodeAt, Option.some.injEq] at h
      subst h
      simp [graft, nodeAt, spanNode.Children]
  | cons i rest ih =>
    cases root with
    | mk t sv id nm kd st children =>
      simp only [nodeAt, spanNode.Children] at h
      cases hc : children[i]? with
      | none => rw [hc] at h; exact Option.noConfusion h
      | some child =>
        rw [hc] at h
        have hi : i < children.length := (List.getElem?_eq_some_iff.1 hc).1
        simp only [List.cons_append, graft, hc, nodeAt, spanNode.Children]
        rw [List.getElem?_set_self hi]
        exact ih child h

/-- The inner loop grafts the chain of its elements under the node it starts from. -/
theorem pathLoop_eq_graft (elements : List spanelement) (root n : spanNode)
    (current : List Nat) (h : nodeAt current root = some n) :
    pathLoop elements root current = graft current root (chain elements) := by
  induction elements generalizing root n current with
  | nil => simp only [pathLoop, chain, graft_nil]
  | cons e rest ih =>
    simp only [pathLoop, chain]
    rw [appendChild_eq_graft, lenChildren_graft current root n _ h]
    simp only [List.length_singleton, Nat.add_sub_cancel]
    rw [ih _ _ _ (nodeAt_graft current root n _ h), graft_graft current root n _ _ _ _ _ _ _ _ h]
    simp

theorem treeLoop_spec (elementPaths : List (List spanelement)) (root : spanNode)
    (h : ∀ path ∈ elementPaths, path ≠ []) :
    ∃ result, treeLoop elementPaths root = some result ∧
      result.Children =
        root.Children ++ elementPaths.flatMap (fun path => chain (path.drop 1)) := by
  induction elementPaths generalizing root with
  | nil => exact ⟨root, rfl, by simp⟩
  | cons path rest ih =>
    have hrest : ∀ p ∈ rest, p ≠ [] := fun p hp => h p (List.mem_cons_of_mem _ hp)
    cases path with
    | nil => exact absurd rfl (h [] (List.mem_cons_self _ _))
    | cons first tail =>
      cases root with
      | mk t sv id nm kd st children =>
        by_cases hs : sv = ""
        · obtain ⟨result, hr, hc⟩ := ih (pathLoop tail
            (spanNode.mk first.TraceID first.ServiceName first.SpanID first.SpanName
              first.SpanKind first.StatusCode children) []) hrest
          refine ⟨result, ?_, ?_⟩
          · simp only [treeLoop, spanNode.ServiceName, hs, if_true, List.drop_succ_cons,
              List.drop_zero]
            exact hr
          · rw [hc, pathLoop_eq_graft tail _ _ [] rfl]
            simp [graft, spanNode.Children]
        · obtain ⟨result, hr, hc⟩ := ih (pathLoop tail
            (spanNode.mk t sv id nm kd st children) []) hrest
          refine ⟨result, ?_, ?_⟩
          · simp only [treeLoop, spanNode.ServiceName, hs, if_false, List.drop_succ_cons,
              List.drop_zero]
            exact hr
          · rw [hc, pathLoop_eq_graft tail _ _ [] rfl]
            simp [graft, spanNode.Children]

theorem size_eq (n : spanNode) : n.size = 1 + sizeList n.Children := by
  cases n; simp [spanNode.size, spanNode.Children]

/-- C23. The function `makeTree` never merges paths: for every list of non-empty element
paths it returns a tree; the children of the root are, in path order, one fresh chain for
each path with at least two elements, made of the elements of the path after the first, each
the only child of the one before; the chain of a path has `len(path) - 1` nodes and the tree
has `1 +` the sum over the paths of `len(path) - 1` nodes. -/
theorem makeTree_never_merges (elementPaths : List (List spanelement))
    (h : ∀ path ∈ elementPaths, path ≠ []) :
    ∃ root, makeTree elementPaths = some root ∧
      root.Children = elementPaths.flatMap (fun path => chain (path.drop 1)) ∧
      (∀ path ∈ elementPaths, sizeList (chain (path.drop 1)) = path.length - 1) ∧
      root.size = 1 + (elementPaths.map (fun path => path.length - 1)).sum := by
  obtain ⟨root, hr, hc⟩ := treeLoop_spec elementPaths (spanNode.mk "" "" "" "" "" "" []) h
  have hc : root.Children = elementPaths.flatMap (fun path => chain (path.drop 1)) := by
    rw [hc]; rfl
  refine ⟨root, hr, hc, ?_, ?_⟩
  · intro path _
    rw [sizeList_chain, List.length_drop]
  · rw [size_eq, hc, sizeList_flatMap_chain]

theorem makeTree_never_merges_witness :
    (makeTree [[⟨"t", "svc", "r", "GET /", "server", "ok"⟩, ⟨"t", "svc", "a", "db", "client", "ok"⟩,
          ⟨"t", "db", "b", "select", "server", "ok"⟩],
        [⟨"t", "svc", "r", "GET /", "server", "ok"⟩, ⟨"t", "svc", "a", "db", "client", "ok"⟩,
          ⟨"t", "db", "c", "insert", "server", "ok"⟩]]).map spanNode.size = some 5 := by
  obtain ⟨root, hr, _, _, hs⟩ := makeTree_never_merges
    [[⟨"t", "svc", "r", "GET /", "server", "ok"⟩, ⟨"t", "svc", "a", "db", "client", "ok"⟩,
      ⟨"t", "db", "b", "select", "server", "ok"⟩],
    [⟨"t", "svc", "r", "GET /", "server", "ok"⟩, ⟨"t", "svc", "a", "db", "client", "ok"⟩,
      ⟨"t", "db", "c", "insert", "server", "ok"⟩]] (by decide)
  rw [hr, Option.map_some', hs]
  rfl

end spantagger
